import Mathlib

/-! # Graph construction from AWS snapshots (`rdf/aws.go`)

A shallow embedding of the entity-to-graph compiler of `rdf/aws.go`:
`addNode`, `findNodeById`, `buildAccessRdfTriples`, `buildInfraRdfTriples`
and the two public entry points `BuildAwsAccessGraph` / `BuildAwsInfraGraph`.

Modelling conventions.

* Go errors are modelled by their text (`String`).
* A Go slice that is only appended to is a `List`, appended at the end.
* A `*string` attribute of an SDK record is an `Option String`; `aws.StringValue`
  maps `nil` to the empty string.
* The badwolf term constructors (`node.NewNodeFromStrings`, `literal.Build`,
  `predicate.NewImmutable`, `triple.New`) are external validating constructors: each
  either rejects its arguments with an error or returns the term made of exactly those
  arguments. Which arguments are rejected is a parameter (`TermFactory`).
* `addNode` mutates the slice behind its `triples` pointer, also on the paths that end
  in an error, so the embedding returns the updated sequence next to the result.
-/

set_option autoImplicit false

namespace Rdf

/-! ## Constants -/

def REGION : String := "/region"
def VPC : String := "/vpc"
def SUBNET : String := "/subnet"
def INSTANCE : String := "/instance"
def USER : String := "/user"
def ROLE : String := "/role"
def GROUP : String := "/group"
def POLICY : String := "/policy"

/-! ## Terms -/

/-- A badwolf node: a type string and an id string. -/
structure Node where
  kind : String
  id : String
deriving DecidableEq, Repr

/-- A badwolf text literal. -/
structure Literal where
  text : String
deriving DecidableEq, Repr

/-- Modelled from the spec: the package-level predicates `HasTypePredicate` and
`ParentOfPredicate` are declared in another file of package `rdf`; the data model gives
the predicate of a statement as one of `HasType`, `ParentOf` or a scalar property name,
so the two fixed predicates are constructors distinct from every property predicate. -/
inductive Predicate where
  | hasType
  | parentOf
  | prop (name : String)
deriving DecidableEq, Repr

/-- The object of a statement: a node or a literal. -/
inductive Object where
  | node (n : Node)
  | literal (l : Literal)
deriving DecidableEq, Repr

/-- A statement (badwolf triple). -/
structure Triple where
  s : Node
  p : Predicate
  o : Object
deriving DecidableEq, Repr

/-- Modelled from the spec: `Graph` and `NewGraphFromTriples` live in another file of
package `rdf`; the graph is the finished, read-only sequence of statements. -/
structure Graph where
  triples : List Triple
deriving DecidableEq, Repr

/-- Modelled from the spec: wraps the ordered statement sequence as the output graph. -/
def NewGraphFromTriples (triples : List Triple) : Graph := ⟨triples⟩

/-- The external term constructors, given by the arguments they reject: `none` means the
constructor accepts, `some e` that it fails with error text `e`. -/
structure TermFactory where
  nodeErr : String → String → Option String
  literalErr : String → Option String
  predicateErr : String → Option String
  tripleErr : Node → Predicate → Object → Option String

/-- The call `node.NewNodeFromStrings(sT, sID)`. -/
def TermFactory.NewNodeFromStrings (F : TermFactory) (sT sID : String) : Except String Node :=
  match F.nodeErr sT sID with
  | some err => .error err
  | none => .ok ⟨sT, sID⟩

/-- The call `literal.DefaultBuilder().Build(literal.Text, text)`. -/
def TermFactory.Build (F : TermFactory) (text : String) : Except String Literal :=
  match F.literalErr text with
  | some err => .error err
  | none => .ok ⟨text⟩

/-- The call `predicate.NewImmutable(name)`. -/
def TermFactory.NewImmutable (F : TermFactory) (name : String) : Except String Predicate :=
  match F.predicateErr name with
  | some err => .error err
  | none => .ok (.prop name)

/-- The call `triple.New(s, p, o)`. -/
def TermFactory.New (F : TermFactory) (s : Node) (p : Predicate) (o : Object) :
    Except String Triple :=
  match F.tripleErr s p o with
  | some err => .error err
  | none => .ok ⟨s, p, o⟩

/-- The literal `regionL` built by `init` (which aborts the program when it cannot). -/
def regionL : Literal := ⟨REGION⟩

/-! ## Records -/

/-- The call `aws.StringValue`: the pointed-to string, or `""` for `nil`. -/
def StringValue : Option String → String
  | some s => s
  | none => ""

/-- The reflective view of an SDK record: its `*string` fields by name. -/
abbrev AwsRecord := List (String × Option String)

/-- The call `nodeV.FieldByName(name)`: `none` when the record has no such field
(`IsValid()` is false). -/
def FieldByName (awsNode : AwsRecord) (name : String) : Option (Option String) :=
  awsNode.lookup name

/-- The attributes of `iam.User` read by the builder. -/
structure IamUser where
  UserId : Option String
deriving DecidableEq, Repr

/-- The attributes of `iam.Role` read by the builder. -/
structure IamRole where
  RoleId : Option String
deriving DecidableEq, Repr

/-- The attributes of `iam.Group` read by the builder. -/
structure IamGroup where
  GroupId : Option String
deriving DecidableEq, Repr

/-- The attributes of `iam.Policy` read by the builder. -/
structure IamPolicy where
  PolicyId : Option String
deriving DecidableEq, Repr

/-- The attributes of `ec2.Vpc` read by the builder. -/
structure Ec2Vpc where
  VpcId : Option String
deriving DecidableEq, Repr

/-- The attributes of `ec2.Subnet` read by the builder. -/
structure Ec2Subnet where
  SubnetId : Option String
  VpcId : Option String
deriving DecidableEq, Repr

/-- The attributes of `ec2.Instance` read by the builder. -/
structure Ec2Instance where
  InstanceId : Option String
  InstanceType : Option String
  SubnetId : Option String
  VpcId : Option String
  PublicIpAddress : Option String
  PrivateIpAddress : Option String
  ImageId : Option String
deriving DecidableEq, Repr

def IamUser.record (u : IamUser) : AwsRecord := [("UserId", u.UserId)]
def IamRole.record (r : IamRole) : AwsRecord := [("RoleId", r.RoleId)]
def IamGroup.record (g : IamGroup) : AwsRecord := [("GroupId", g.GroupId)]
def IamPolicy.record (p : IamPolicy) : AwsRecord := [("PolicyId", p.PolicyId)]
def Ec2Vpc.record (v : Ec2Vpc) : AwsRecord := [("VpcId", v.VpcId)]
def Ec2Subnet.record (s : Ec2Subnet) : AwsRecord :=
  [("SubnetId", s.SubnetId), ("VpcId", s.VpcId)]
def Ec2Instance.record (i : Ec2Instance) : AwsRecord :=
  [("InstanceId", i.InstanceId), ("InstanceType", i.InstanceType), ("SubnetId", i.SubnetId),
   ("VpcId", i.VpcId), ("PublicIpAddress", i.PublicIpAddress),
   ("PrivateIpAddress", i.PrivateIpAddress), ("ImageId", i.ImageId)]

/-- The snapshot `api.AwsAccess`; a Go map from id to id list is a function that gives
the empty list at an absent key. -/
structure AwsAccess where
  Users : List IamUser
  Roles : List IamRole
  Groups : List IamGroup
  LocalPolicies : List IamPolicy
  UsersByGroup : String → List String
  UsersByLocalPolicies : String → List String
  GroupsByLocalPolicies : String → List String
  RolesByLocalPolicies : String → List String

/-- The snapshot `api.AwsInfra`. -/
structure AwsInfra where
  Vpcs : List Ec2Vpc
  Subnets : List Ec2Subnet
  Instances : List Ec2Instance

/-! ## The mapping structs -/

/-- A mapping struct type as reflection sees it: its fields in declaration order, each
with its name and its `aws` tag. -/
abbrev StructType := List (String × String)

def User : StructType := [("Id", "UserId")]
def Role : StructType := [("Id", "RoleId")]
def Group : StructType := [("Id", "GroupId")]
def Policy : StructType := [("Id", "PolicyId")]
def Vpc : StructType := [("Id", "VpcId")]
def Subnet : StructType := [("Id", "SubnetId"), ("VpcId", "VpcId")]
def Instance : StructType :=
  [("Id", "InstanceId"), ("Type", "InstanceType"), ("SubnetId", "SubnetId"),
   ("VpcId", "VpcId"), ("PublicIp", "PublicIpAddress"), ("PrivateIp", "PrivateIpAddress"),
   ("ImageId", "ImageId")]

/-- The `switch nodeType` of `addNode`: the mapping struct of a managed kind, `none` in
the `default` case. -/
def destType (nodeType : String) : Option StructType :=
  if nodeType = VPC then some Vpc
  else if nodeType = SUBNET then some Subnet
  else if nodeType = INSTANCE then some Instance
  else if nodeType = USER then some User
  else if nodeType = ROLE then some Role
  else if nodeType = GROUP then some Group
  else if nodeType = POLICY then some Policy
  else none

/-! ## `addNode` -/

/-- The field loop of `addNode` (lines 346-367), from field `i` on; `fields` are the
fields not yet visited. -/
def addNodeFields (F : TermFactory) (n : Node) (awsNode : AwsRecord) :
    List (String × String) → List Triple → Except String Node × List Triple
  | [], triples => (.ok n, triples)
  | (name, awsTag) :: fields, triples =>
    match F.NewImmutable name with
    | .error err => (.error err, triples)
    | .ok propP =>
      match FieldByName awsNode awsTag with
      | none => addNodeFields F n awsNode fields triples
      | some sourceField =>
        let stringValue := StringValue sourceField
        if stringValue ≠ "" then
          match F.Build stringValue with
          | .error err => (.error err, triples)
          | .ok propL =>
            match F.New n propP (.literal propL) with
            | .error err => (.error err, triples)
            | .ok propT => addNodeFields F n awsNode fields (triples ++ [propT])
        else addNodeFields F n awsNode fields triples

/-- The function `addNode`: the returned node or error, and the sequence behind the
`triples` pointer after the call. -/
def addNode (F : TermFactory) (nodeType id : String) (awsNode : AwsRecord)
    (triples : List Triple) : Except String Node × List Triple :=
  match F.NewNodeFromStrings nodeType id with
  | .error err => (.error err, triples)
  | .ok n =>
    match F.Build nodeType with
    | .error err => (.error err, triples)
    | .ok lit =>
      match F.New n .hasType (.literal lit) with
      | .error err => (.error err, triples)
      | .ok t =>
        let triples := triples ++ [t]
        match destType nodeType with
        | none => (.error ("type " ++ nodeType ++ " is not managed"), triples)
        | some fields => addNodeFields F n awsNode fields triples

/-! ## `findNodeById` -/

/-- The function `findNodeById`: the first node of the slice with the given id. -/
def findNodeById : List Node → String → Option Node
  | [], _ => none
  | n :: nodes, id => if id = n.id then some n else findNodeById nodes id

/-! ## `buildAccessRdfTriples` -/

/-- A Go `map[string]*node.Node`: the latest binding of a key is in front. -/
abbrev Index := List (String × Node)

/-- The loop state of the access builder: the sequence `triples`, the outer variable `t`
and the index under construction. -/
structure AccessState where
  triples : List Triple
  t : Triple
  index : Index

/-- An early `return triples, err`. -/
abbrev Abort := List Triple × String

/-- The loops over `access.Users` (lines 89-103) and `access.Roles` (lines 106-120): the
same body, for kind `USER` resp. `ROLE`; a record is given by its id and its reflective
view. -/
def regionChildrenLoop (F : TermFactory) (regionN : Node) (kind : String) :
    List (String × AwsRecord) → AccessState → Except Abort AccessState
  | [], st => .ok st
  | (id, rec) :: rest, st =>
    match addNode F kind id rec st.triples with
    | (.error err, triples) => .error (triples, err)
    | (.ok n, triples) =>
      let triples := triples ++ [st.t]
      match F.New regionN .parentOf (.node n) with
      | .error err => .error (triples, err)
      | .ok t =>
        regionChildrenLoop F regionN kind rest ⟨triples ++ [t], t, (id, n) :: st.index⟩

/-- The loop over `access.UsersByGroup[groupId]` (lines 138-147); it assigns the outer
`t`. -/
def groupUsersLoop (F : TermFactory) (groupId : String) (n : Node) (usersIndex : Index) :
    List String → List Triple × Triple → Except Abort (List Triple × Triple)
  | [], st => .ok st
  | userId :: rest, (triples, _) =>
    match usersIndex.lookup userId with
    | none =>
      .error (triples, "group " ++ groupId ++ " has user " ++ userId ++
        ", but this user does not exist")
    | some u =>
      match F.New n .parentOf (.node u) with
      | .error err => .error (triples, err)
      | .ok t => groupUsersLoop F groupId n usersIndex rest (triples ++ [t], t)

/-- The loop over `access.Groups` (lines 123-148). -/
def groupsLoop (F : TermFactory) (regionN : Node) (usersByGroup : String → List String)
    (usersIndex : Index) : List IamGroup → AccessState → Except Abort AccessState
  | [], st => .ok st
  | group :: rest, st =>
    let groupId := StringValue group.GroupId
    match addNode F GROUP groupId group.record st.triples with
    | (.error err, triples) => .error (triples, err)
    | (.ok n, triples) =>
      let triples := triples ++ [st.t]
      match F.New regionN .parentOf (.node n) with
      | .error err => .error (triples, err)
      | .ok t =>
        match groupUsersLoop F groupId n usersIndex (usersByGroup groupId)
            (triples ++ [t], t) with
        | .error r => .error r
        | .ok (triples, t) =>
          groupsLoop F regionN usersByGroup usersIndex rest
            ⟨triples, t, (groupId, n) :: st.index⟩

/-- The three attachment loops of a policy (lines 163-172, 174-183, 185-194): the same
body over the users, groups resp. roles index; `t` is declared afresh with `:=` inside,
so the outer `t` is untouched. -/
def policyAttachLoop (F : TermFactory) (policyId : String) (n : Node) (index : Index) :
    List String → List Triple → Except Abort (List Triple)
  | [], triples => .ok triples
  | id :: rest, triples =>
    match index.lookup id with
    | none =>
      .error (triples, "policy " ++ policyId ++ " has user " ++ id ++
        ", but this user does not exist")
    | some m =>
      match F.New n .parentOf (.node m) with
      | .error err => .error (triples, err)
      | .ok t => policyAttachLoop F policyId n index rest (triples ++ [t])

/-- The loop over `access.LocalPolicies` (lines 150-195); no policy index is built. -/
def policiesLoop (F : TermFactory) (regionN : Node) (access : AwsAccess)
    (usersIndex rolesIndex groupsIndex : Index) :
    List IamPolicy → List Triple × Triple → Except Abort (List Triple × Triple)
  | [], st => .ok st
  | policy :: rest, (triples, t) =>
    let policyId := StringValue policy.PolicyId
    match addNode F POLICY policyId policy.record triples with
    | (.error err, triples) => .error (triples, err)
    | (.ok n, triples) =>
      let triples := triples ++ [t]
      match F.New regionN .parentOf (.node n) with
      | .error err => .error (triples, err)
      | .ok t =>
        let triples := triples ++ [t]
        match policyAttachLoop F policyId n usersIndex
            (access.UsersByLocalPolicies policyId) triples with
        | .error r => .error r
        | .ok triples =>
          match policyAttachLoop F policyId n groupsIndex
              (access.GroupsByLocalPolicies policyId) triples with
          | .error r => .error r
          | .ok triples =>
            match policyAttachLoop F policyId n rolesIndex
                (access.RolesByLocalPolicies policyId) triples with
            | .error r => .error r
            | .ok triples =>
              policiesLoop F regionN access usersIndex rolesIndex groupsIndex rest (triples, t)

/-- The function `buildAccessRdfTriples`: the statements accumulated and the error. -/
def buildAccessRdfTriples (F : TermFactory) (region : String) (access : AwsAccess) :
    List Triple × Option String :=
  match F.NewNodeFromStrings REGION region with
  | .error err => ([], some err)
  | .ok regionN =>
    match F.New regionN .hasType (.literal regionL) with
    | .error err => ([], some err)
    | .ok t =>
      match regionChildrenLoop F regionN USER
          (access.Users.map fun user => (StringValue user.UserId, user.record))
          ⟨[t], t, []⟩ with
      | .error (triples, err) => (triples, some err)
      | .ok ⟨triples, t, usersIndex⟩ =>
        match regionChildrenLoop F regionN ROLE
            (access.Roles.map fun role => (StringValue role.RoleId, role.record))
            ⟨triples, t, []⟩ with
        | .error (triples, err) => (triples, some err)
        | .ok ⟨triples, t, rolesIndex⟩ =>
          match groupsLoop F regionN access.UsersByGroup usersIndex access.Groups
              ⟨triples, t, []⟩ with
          | .error (triples, err) => (triples, some err)
          | .ok ⟨triples, t, groupsIndex⟩ =>
            match policiesLoop F regionN access usersIndex rolesIndex groupsIndex
                access.LocalPolicies (triples, t) with
            | .error (triples, err) => (triples, some err)
            | .ok (triples, _) => (triples, none)

/-- The function `BuildAwsAccessGraph`: the graph (or `nil`) and the error (or `nil`). -/
def BuildAwsAccessGraph (F : TermFactory) (region : String) (access : AwsAccess) :
    Option Graph × Option String :=
  match buildAccessRdfTriples F region access with
  | (_, some err) => (none, some err)
  | (triples, none) => (some (NewGraphFromTriples triples), none)

/-! ## `buildInfraRdfTriples` -/

/-- The loop over `awsInfra.Vpcs` (lines 214-225); the state is `triples` and
`vpcNodes`. -/
def vpcsLoop (F : TermFactory) (regionN : Node) :
    List Ec2Vpc → List Triple × List Node → Except Abort (List Triple × List Node)
  | [], st => .ok st
  | vpc :: rest, (triples, vpcNodes) =>
    match addNode F VPC (StringValue vpc.VpcId) vpc.record triples with
    | (.error err, triples) => .error (triples, err)
    | (.ok n, triples) =>
      let vpcNodes := vpcNodes ++ [n]
      match F.New regionN .parentOf (.node n) with
      | .error err => .error (triples, "region " ++ err)
      | .ok t => vpcsLoop F regionN rest (triples ++ [t], vpcNodes)

/-- The loop over `awsInfra.Subnets` (lines 227-243); the state is `triples` and
`subnetNodes`. -/
def subnetsLoop (F : TermFactory) (vpcNodes : List Node) :
    List Ec2Subnet → List Triple × List Node → Except Abort (List Triple × List Node)
  | [], st => .ok st
  | subnet :: rest, (triples, subnetNodes) =>
    match addNode F SUBNET (StringValue subnet.SubnetId) subnet.record triples with
    | (.error err, triples) => .error (triples, "subnet " ++ err)
    | (.ok n, triples) =>
      let subnetNodes := subnetNodes ++ [n]
      match findNodeById vpcNodes (StringValue subnet.VpcId) with
      | some vpcN =>
        match F.New vpcN .parentOf (.node n) with
        | .error err => .error (triples, "vpc " ++ err)
        | .ok t => subnetsLoop F vpcNodes rest (triples ++ [t], subnetNodes)
      | none => subnetsLoop F vpcNodes rest (triples, subnetNodes)

/-- The loop over `awsInfra.Instances` (lines 245-260). -/
def instancesLoop (F : TermFactory) (subnetNodes : List Node) :
    List Ec2Instance → List Triple → Except Abort (List Triple)
  | [], triples => .ok triples
  | inst :: rest, triples =>
    match addNode F INSTANCE (StringValue inst.InstanceId) inst.record triples with
    | (.error err, triples) => .error (triples, err)
    | (.ok n, triples) =>
      match findNodeById subnetNodes (StringValue inst.SubnetId) with
      | some subnetN =>
        match F.New subnetN .parentOf (.node n) with
        | .error err => .error (triples, "instances subnet " ++ err)
        | .ok t => instancesLoop F subnetNodes rest (triples ++ [t])
      | none => instancesLoop F subnetNodes rest triples

/-- The function `buildInfraRdfTriples`: the statements accumulated and the error. -/
def buildInfraRdfTriples (F : TermFactory) (region : String) (awsInfra : AwsInfra) :
    List Triple × Option String :=
  match F.NewNodeFromStrings REGION region with
  | .error err => ([], some err)
  | .ok regionN =>
    match F.New regionN .hasType (.literal regionL) with
    | .error err => ([], some err)
    | .ok t =>
      match vpcsLoop F regionN awsInfra.Vpcs ([t], []) with
      | .error (triples, err) => (triples, some err)
      | .ok (triples, vpcNodes) =>
        match subnetsLoop F vpcNodes awsInfra.Subnets (triples, []) with
        | .error (triples, err) => (triples, some err)
        | .ok (triples, subnetNodes) =>
          match instancesLoop F subnetNodes awsInfra.Instances triples with
          | .error (triples, err) => (triples, some err)
          | .ok triples => (triples, none)

/-- The function `BuildAwsInfraGraph`: the graph (or `nil`) and the error (or `nil`). -/
def BuildAwsInfraGraph (F : TermFactory) (region : String) (infra : AwsInfra) :
    Option Graph × Option String :=
  match buildInfraRdfTriples F region infra with
  | (_, some err) => (none, some err)
  | (triples, none) => (some (NewGraphFromTriples triples), none)

/-! ## The statements of a successful pass

Closed forms of what the builders append when no step fails; the theorems below relate
them to the builders. -/

/-- The statement `(s, ParentOf, o)`. -/
def parentOf (s o : Node) : Triple := ⟨s, .parentOf, .node o⟩

/-- The region's statement `(region, HasType, regionL)`. -/
def regionStatement (region : String) : Triple := ⟨⟨REGION, region⟩, .hasType, .literal regionL⟩

/-- The property statement of one mapping field: present when the record has the tagged
attribute and its string value is not empty. -/
def propertyOf (n : Node) (awsNode : AwsRecord) (field : String × String) : Option Triple :=
  match FieldByName awsNode field.2 with
  | some sourceField =>
    if StringValue sourceField ≠ "" then
      some ⟨n, .prop field.1, .literal ⟨StringValue sourceField⟩⟩
    else none
  | none => none

/-- The property statements of a record, in field declaration order. -/
def propertyStatements (n : Node) (awsNode : AwsRecord) (fields : StructType) : List Triple :=
  fields.filterMap (propertyOf n awsNode)

/-- The block of a compiled record: its `HasType` statement, then its property
statements. -/
def nodeStatements (nodeType id : String) (awsNode : AwsRecord) : List Triple :=
  ⟨⟨nodeType, id⟩, .hasType, .literal ⟨nodeType⟩⟩ ::
    propertyStatements ⟨nodeType, id⟩ awsNode ((destType nodeType).getD [])

/-- The index built from the records with the given ids, latest first. -/
def indexOf (kind : String) (ids : List String) : Index :=
  (ids.map fun id => (id, (⟨kind, id⟩ : Node))).reverse

/-- What the users loop resp. roles loop appends, entered with outer variable `t`. -/
def regionChildrenStatements (regionN : Node) (kind : String) :
    List (String × AwsRecord) → Triple → List Triple
  | [], _ => []
  | (id, rec) :: rest, t =>
    nodeStatements kind id rec ++ t :: parentOf regionN ⟨kind, id⟩ ::
      regionChildrenStatements regionN kind rest (parentOf regionN ⟨kind, id⟩)

/-- The outer variable `t` after the users loop resp. roles loop. -/
def regionChildrenLast (regionN : Node) (kind : String) :
    List (String × AwsRecord) → Triple → Triple
  | [], t => t
  | (id, _) :: rest, _ => regionChildrenLast regionN kind rest (parentOf regionN ⟨kind, id⟩)

/-- The edges from a container node to the members with the given ids. -/
def memberStatements (n : Node) (kind : String) (ids : List String) : List Triple :=
  ids.map fun id => parentOf n ⟨kind, id⟩

/-- The outer variable `t` after one iteration of the groups loop: the last membership
edge, or the edge from the region when the group has no member. -/
def groupLast (regionN : Node) (usersByGroup : String → List String) (group : IamGroup) :
    Triple :=
  ((memberStatements ⟨GROUP, StringValue group.GroupId⟩ USER
      (usersByGroup (StringValue group.GroupId))).getLast?).getD
    (parentOf regionN ⟨GROUP, StringValue group.GroupId⟩)

/-- What the groups loop appends, entered with outer variable `t`. -/
def groupsStatements (regionN : Node) (usersByGroup : String → List String) :
    List IamGroup → Triple → List Triple
  | [], _ => []
  | group :: rest, t =>
    nodeStatements GROUP (StringValue group.GroupId) group.record ++
      t :: parentOf regionN ⟨GROUP, StringValue group.GroupId⟩ ::
      memberStatements ⟨GROUP, StringValue group.GroupId⟩ USER
        (usersByGroup (StringValue group.GroupId)) ++
      groupsStatements regionN usersByGroup rest (groupLast regionN usersByGroup group)

/-- The outer variable `t` after the groups loop. -/
def groupsLast (regionN : Node) (usersByGroup : String → List String) :
    List IamGroup → Triple → Triple
  | [], t => t
  | group :: rest, _ =>
    groupsLast regionN usersByGroup rest (groupLast regionN usersByGroup group)

/-- The attachment edges of one policy: to users, then groups, then roles. -/
def attachmentStatements (access : AwsAccess) (policyId : String) : List Triple :=
  memberStatements ⟨POLICY, policyId⟩ USER (access.UsersByLocalPolicies policyId) ++
  memberStatements ⟨POLICY, policyId⟩ GROUP (access.GroupsByLocalPolicies policyId) ++
  memberStatements ⟨POLICY, policyId⟩ ROLE (access.RolesByLocalPolicies policyId)

/-- What the policies loop appends, entered with outer variable `t`. -/
def policiesStatements (regionN : Node) (access : AwsAccess) :
    List IamPolicy → Triple → List Triple
  | [], _ => []
  | policy :: rest, t =>
    nodeStatements POLICY (StringValue policy.PolicyId) policy.record ++
      t :: parentOf regionN ⟨POLICY, StringValue policy.PolicyId⟩ ::
      attachmentStatements access (StringValue policy.PolicyId) ++
      policiesStatements regionN access rest
        (parentOf regionN ⟨POLICY, StringValue policy.PolicyId⟩)

/-- The ids of the user, role, group and policy records. -/
def userIds (access : AwsAccess) : List String :=
  access.Users.map fun user => StringValue user.UserId
def roleIds (access : AwsAccess) : List String :=
  access.Roles.map fun role => StringValue role.RoleId
def groupIds (access : AwsAccess) : List String :=
  access.Groups.map fun group => StringValue group.GroupId
def policyIds (access : AwsAccess) : List String :=
  access.LocalPolicies.map fun policy => StringValue policy.PolicyId

/-- The user records resp. role records as the loops read them: id and reflective view. -/
def userRecords (access : AwsAccess) : List (String × AwsRecord) :=
  access.Users.map fun user => (StringValue user.UserId, user.record)
def roleRecords (access : AwsAccess) : List (String × AwsRecord) :=
  access.Roles.map fun role => (StringValue role.RoleId, role.record)

/-- The outer variable `t` when the groups loop resp. the policies loop is entered. -/
def tAfterRoles (region : String) (access : AwsAccess) : Triple :=
  regionChildrenLast ⟨REGION, region⟩ ROLE (roleRecords access)
    (regionChildrenLast ⟨REGION, region⟩ USER (userRecords access) (regionStatement region))
def tAfterGroups (region : String) (access : AwsAccess) : Triple :=
  groupsLast ⟨REGION, region⟩ access.UsersByGroup access.Groups (tAfterRoles region access)

/-- The statement sequence of a successful access pass. -/
def accessStatements (region : String) (access : AwsAccess) : List Triple :=
  regionStatement region ::
    regionChildrenStatements ⟨REGION, region⟩ USER (userRecords access)
      (regionStatement region) ++
    regionChildrenStatements ⟨REGION, region⟩ ROLE (roleRecords access)
      (regionChildrenLast ⟨REGION, region⟩ USER (userRecords access) (regionStatement region)) ++
    groupsStatements ⟨REGION, region⟩ access.UsersByGroup access.Groups
      (tAfterRoles region access) ++
    policiesStatements ⟨REGION, region⟩ access access.LocalPolicies
      (tAfterGroups region access)

/-- The nodes of the vpc resp. subnet records, in record order (`vpcNodes`,
`subnetNodes`). -/
def vpcNodesOf (infra : AwsInfra) : List Node :=
  infra.Vpcs.map fun vpc => ⟨VPC, StringValue vpc.VpcId⟩
def subnetNodesOf (infra : AwsInfra) : List Node :=
  infra.Subnets.map fun subnet => ⟨SUBNET, StringValue subnet.SubnetId⟩

/-- The edge into a node from its parent, when `findNodeById` finds the parent. -/
def parentStatements (parents : List Node) (parentId : String) (n : Node) : List Triple :=
  match findNodeById parents parentId with
  | some parent => [parentOf parent n]
  | none => []

/-- What one iteration of the vpcs, subnets resp. instances loop appends. -/
def vpcStatements (regionN : Node) (vpc : Ec2Vpc) : List Triple :=
  nodeStatements VPC (StringValue vpc.VpcId) vpc.record ++
    [parentOf regionN ⟨VPC, StringValue vpc.VpcId⟩]
def subnetStatements (vpcNodes : List Node) (subnet : Ec2Subnet) : List Triple :=
  nodeStatements SUBNET (StringValue subnet.SubnetId) subnet.record ++
    parentStatements vpcNodes (StringValue subnet.VpcId) ⟨SUBNET, StringValue subnet.SubnetId⟩
def instanceStatements (subnetNodes : List Node) (inst : Ec2Instance) : List Triple :=
  nodeStatements INSTANCE (StringValue inst.InstanceId) inst.record ++
    parentStatements subnetNodes (StringValue inst.SubnetId)
      ⟨INSTANCE, StringValue inst.InstanceId⟩

/-- The statement sequence of a successful infrastructure pass. -/
def infraStatements (region : String) (infra : AwsInfra) : List Triple :=
  regionStatement region ::
    infra.Vpcs.flatMap (vpcStatements ⟨REGION, region⟩) ++
    infra.Subnets.flatMap (subnetStatements (vpcNodesOf infra)) ++
    infra.Instances.flatMap (instanceStatements (subnetNodesOf infra))

/-! ## What the term constructors accept -/

/-- The call `triple.New` accepts every statement it is given. -/
def AcceptsTriples (F : TermFactory) : Prop := ∀ s p o, F.tripleErr s p o = none

/-- The term constructors accept what `addNode` builds for a record: its node, its type
literal, the predicate of every mapping field and the literal of every non-empty mapped
attribute. -/
def AcceptsRecord (F : TermFactory) (nodeType id : String) (awsNode : AwsRecord) : Prop :=
  F.nodeErr nodeType id = none ∧ F.literalErr nodeType = none ∧
  ∀ field ∈ (destType nodeType).getD [],
    F.predicateErr field.1 = none ∧
    ∀ sourceField, FieldByName awsNode field.2 = some sourceField →
      StringValue sourceField ≠ "" → F.literalErr (StringValue sourceField) = none

/-- The term constructors accept the region node, every statement, and the terms of the
listed user, role, group and policy records. -/
def AcceptsAccessRecords (F : TermFactory) (region : String) (users : List IamUser)
    (roles : List IamRole) (groups : List IamGroup) (policies : List IamPolicy) : Prop :=
  F.nodeErr REGION region = none ∧ AcceptsTriples F ∧
  (∀ user ∈ users, AcceptsRecord F USER (StringValue user.UserId) user.record) ∧
  (∀ role ∈ roles, AcceptsRecord F ROLE (StringValue role.RoleId) role.record) ∧
  (∀ group ∈ groups, AcceptsRecord F GROUP (StringValue group.GroupId) group.record) ∧
  (∀ policy ∈ policies, AcceptsRecord F POLICY (StringValue policy.PolicyId) policy.record)

/-- The term constructors accept every term of an access pass over the snapshot. -/
def AcceptsAccess (F : TermFactory) (region : String) (access : AwsAccess) : Prop :=
  AcceptsAccessRecords F region access.Users access.Roles access.Groups access.LocalPolicies

/-- The term constructors accept every term of an infrastructure pass over the
snapshot. -/
def AcceptsInfra (F : TermFactory) (region : String) (infra : AwsInfra) : Prop :=
  F.nodeErr REGION region = none ∧ AcceptsTriples F ∧
  (∀ vpc ∈ infra.Vpcs, AcceptsRecord F VPC (StringValue vpc.VpcId) vpc.record) ∧
  (∀ subnet ∈ infra.Subnets,
    AcceptsRecord F SUBNET (StringValue subnet.SubnetId) subnet.record) ∧
  (∀ inst ∈ infra.Instances,
    AcceptsRecord F INSTANCE (StringValue inst.InstanceId) inst.record)

/-- A term factory that rejects nothing. -/
def acceptAll : TermFactory :=
  ⟨fun _ _ => none, fun _ => none, fun _ => none, fun _ _ _ => none⟩

/-- Every member id listed for a group record is the id of a user record. -/
def NoDanglingGroups (access : AwsAccess) : Prop :=
  ∀ group ∈ access.Groups, ∀ userId ∈ access.UsersByGroup (StringValue group.GroupId),
    userId ∈ userIds access

/-- Every id attached to a policy record is the id of a record of the matching kind. -/
def NoDanglingPolicies (access : AwsAccess) : Prop :=
  ∀ policy ∈ access.LocalPolicies,
    (∀ userId ∈ access.UsersByLocalPolicies (StringValue policy.PolicyId),
      userId ∈ userIds access) ∧
    (∀ groupId ∈ access.GroupsByLocalPolicies (StringValue policy.PolicyId),
      groupId ∈ groupIds access) ∧
    (∀ roleId ∈ access.RolesByLocalPolicies (StringValue policy.PolicyId),
      roleId ∈ roleIds access)

/-! ## Counting statements -/

/-- The statement is a `HasType` statement whose subject is `n`. -/
def isHasTypeOf (n : Node) (t : Triple) : Bool := decide (t.p = .hasType ∧ t.s = n)

/-- The statement is a `ParentOf` statement whose subject is `n`. -/
def isParentOfFrom (n : Node) (t : Triple) : Bool := decide (t.p = .parentOf ∧ t.s = n)

/-- The statement is a `ParentOf` statement whose object is `n`. -/
def isParentOfInto (n : Node) (t : Triple) : Bool := decide (t.p = .parentOf ∧ t.o = .node n)

/-- The node occurs in the statement, as its subject or as its object. -/
def occursIn (n : Node) (t : Triple) : Prop := t.s = n ∨ t.o = .node n

/-- The kind strings of the managed kinds. -/
def managedKinds : List String := [VPC, SUBNET, INSTANCE, USER, ROLE, GROUP, POLICY]

/-- The nodes of the records of an access snapshot. -/
def accessNodes (access : AwsAccess) : List Node :=
  (userIds access).map (fun id => ⟨USER, id⟩) ++ (roleIds access).map (fun id => ⟨ROLE, id⟩) ++
    (groupIds access).map (fun id => ⟨GROUP, id⟩) ++
    (policyIds access).map (fun id => ⟨POLICY, id⟩)

/-- The nodes of the records of an infrastructure snapshot. -/
def infraNodes (infra : AwsInfra) : List Node :=
  vpcNodesOf infra ++ subnetNodesOf infra ++
    infra.Instances.map fun inst => ⟨INSTANCE, StringValue inst.InstanceId⟩

/-- The first id of `ids` that is not among `known` is `missing`: every id listed before
it is known. -/
def FirstMissing (ids known : List String) (missing : String) : Prop :=
  ∃ found rest, ids = found ++ missing :: rest ∧ (∀ id ∈ found, id ∈ known) ∧
    missing ∉ known

/-- The error text of a missing group member (line 140). -/
def groupError (groupId userId : String) : String :=
  "group " ++ groupId ++ " has user " ++ userId ++ ", but this user does not exist"

/-- The error text of a missing policy attachment (lines 165, 176 and 187). -/
def policyError (policyId id : String) : String :=
  "policy " ++ policyId ++ " has user " ++ id ++ ", but this user does not exist"

/-- The first attachment of the policy id that is missing: among the attached user ids,
or else among the attached group ids, or else among the attached role ids. -/
def FirstMissingAttachment (access : AwsAccess) (policyId missing : String) : Prop :=
  FirstMissing (access.UsersByLocalPolicies policyId) (userIds access) missing ∨
  ((∀ id ∈ access.UsersByLocalPolicies policyId, id ∈ userIds access) ∧
    FirstMissing (access.GroupsByLocalPolicies policyId) (groupIds access) missing) ∨
  ((∀ id ∈ access.UsersByLocalPolicies policyId, id ∈ userIds access) ∧
    (∀ id ∈ access.GroupsByLocalPolicies policyId, id ∈ groupIds access) ∧
    FirstMissing (access.RolesByLocalPolicies policyId) (roleIds access) missing)

/-- Some attachment of the policy id is missing. -/
def HasMissingAttachment (access : AwsAccess) (policyId : String) : Prop :=
  (∃ id ∈ access.UsersByLocalPolicies policyId, id ∉ userIds access) ∨
  (∃ id ∈ access.GroupsByLocalPolicies policyId, id ∉ groupIds access) ∨
  (∃ id ∈ access.RolesByLocalPolicies policyId, id ∉ roleIds access)

/-- The text contains the given part. -/
def mentions (text part : String) : Prop := ∃ before after : String, text = before ++ part ++ after

/-- The kinds of the data model: region, network, subnet, instance, identity, role, group
and policy, by their kind strings. -/
def dataModelKinds : List String := [REGION, VPC, SUBNET, INSTANCE, USER, ROLE, GROUP, POLICY]

/-- Some `HasType` statement of the sequence has the node as its subject. -/
def Typed (triples : List Triple) (n : Node) : Prop :=
  ∃ h ∈ triples, h.p = .hasType ∧ h.s = n

/-- Referential completeness of a sequence: wherever a `ParentOf` statement stands, a
`HasType` statement of its subject and a `HasType` statement of its object node stand at
earlier positions (`before` holds the statements at the positions before it). -/
def Complete (triples : List Triple) : Prop :=
  ∀ before t after, triples = before ++ t :: after → t.p = .parentOf →
    Typed before t.s ∧ ∀ o, t.o = .node o → Typed before o

/-- The statement can be appended to the sequence without breaking referential
completeness: when it is a `ParentOf` statement, both its ends have a `HasType` statement
in the sequence. -/
def Supported (triples : List Triple) (t : Triple) : Prop :=
  t.p = .parentOf → Typed triples t.s ∧ ∀ o, t.o = .node o → Typed triples o

/-- Every node of the index has a `HasType` statement in the sequence. -/
def IndexTyped (triples : List Triple) (index : Index) : Prop :=
  ∀ e ∈ index, Typed triples e.2

/-- The statements returned by a loop, whether it ends normally or with an error. -/
def returnedTriples {σ : Type} (triplesOf : σ → List Triple) : Except Abort σ → List Triple
  | .ok st => triplesOf st
  | .error (triples, _) => triples

/-- What one iteration of an entity loop of the access builder appends around the
statement it re-appends from the outer variable `t`: the block of `addNode` before it, the
edges after it, and the statement the iteration leaves in `t`. -/
structure Segment where
  block : List Triple
  tail : List Triple
  next : Triple

/-- One iteration of the users loop (lines 89-103): `t` is left as the edge from the
region. -/
def userSegment (regionN : Node) (user : IamUser) : Segment :=
  ⟨nodeStatements USER (StringValue user.UserId) user.record,
    [parentOf regionN ⟨USER, StringValue user.UserId⟩],
    parentOf regionN ⟨USER, StringValue user.UserId⟩⟩

/-- One iteration of the roles loop (lines 106-120). -/
def roleSegment (regionN : Node) (role : IamRole) : Segment :=
  ⟨nodeStatements ROLE (StringValue role.RoleId) role.record,
    [parentOf regionN ⟨ROLE, StringValue role.RoleId⟩],
    parentOf regionN ⟨ROLE, StringValue role.RoleId⟩⟩

/-- One iteration of the groups loop (lines 123-148): the membership loop assigns `t`, so
it is left as the last membership edge, or the edge from the region without members. -/
def groupSegment (regionN : Node) (usersByGroup : String → List String) (group : IamGroup) :
    Segment :=
  ⟨nodeStatements GROUP (StringValue group.GroupId) group.record,
    parentOf regionN ⟨GROUP, StringValue group.GroupId⟩ ::
      memberStatements ⟨GROUP, StringValue group.GroupId⟩ USER
        (usersByGroup (StringValue group.GroupId)),
    groupLast regionN usersByGroup group⟩

/-- One iteration of the policies loop (lines 150-195): the attachment loops declare their
own `t`, so the outer `t` is left as the edge from the region. -/
def policySegment (regionN : Node) (access : AwsAccess) (policy : IamPolicy) : Segment :=
  ⟨nodeStatements POLICY (StringValue policy.PolicyId) policy.record,
    parentOf regionN ⟨POLICY, StringValue policy.PolicyId⟩ ::
      attachmentStatements access (StringValue policy.PolicyId),
    parentOf regionN ⟨POLICY, StringValue policy.PolicyId⟩⟩

/-- The iterations of a successful access pass, in order: users, roles, groups,
policies. -/
def accessSegments (region : String) (access : AwsAccess) : List Segment :=
  access.Users.map (userSegment ⟨REGION, region⟩) ++
  access.Roles.map (roleSegment ⟨REGION, region⟩) ++
  access.Groups.map (groupSegment ⟨REGION, region⟩ access.UsersByGroup) ++
  access.LocalPolicies.map (policySegment ⟨REGION, region⟩ access)

/-- The statements of a run of iterations entered with outer variable `t`: each
iteration appends its block, re-appends `t`, appends its edges. -/
def weave : Triple → List Segment → List Triple
  | _, [] => []
  | t, s :: rest => s.block ++ t :: s.tail ++ weave s.next rest

/-- The statements that a run of iterations entered with outer variable `t` re-appends,
one per iteration. -/
def reappended : Triple → List Segment → List Triple
  | _, [] => []
  | t, s :: rest => t :: reappended s.next rest

/-- The outer variable `t` after a run of iterations. -/
def nextAfter : Triple → List Segment → Triple
  | t, [] => t
  | _, s :: rest => nextAfter s.next rest

/-- The number of mapped attributes of a record with a non-empty string value. -/
def nonEmptyAttributes (nodeType : String) (awsNode : AwsRecord) : Nat :=
  ((destType nodeType).getD []).countP fun field =>
    match FieldByName awsNode field.2 with
    | some sourceField => decide (StringValue sourceField ≠ "")
    | none => false

/-- The subnet names the id of some vpc record. -/
def hasVpc (infra : AwsInfra) (subnet : Ec2Subnet) : Bool :=
  decide (StringValue subnet.VpcId ∈ infra.Vpcs.map fun vpc => StringValue vpc.VpcId)

/-- The instance names the id of some subnet record. -/
def hasSubnet (infra : AwsInfra) (inst : Ec2Instance) : Bool :=
  decide (StringValue inst.SubnetId ∈
    infra.Subnets.map fun subnet => StringValue subnet.SubnetId)

/-- The node a statement is about: the object node of a `ParentOf` statement, the subject
of any other statement. -/
def owner (t : Triple) : Node :=
  match t.p, t.o with
  | .parentOf, .node o => o
  | _, _ => t.s

/-! ## The access builder without the stale appends

The same construction as `buildAccessRdfTriples` with the four lines
`triples = append(triples, t)` that append the stale outer `t` (lines 95, 112, 129 and
156) removed; everything else is the source, line by line. The member loop and the
attachment loops contain none of the four lines and are shared. -/

/-- The loops over `access.Users` and `access.Roles` with line 95 resp. 112 removed. -/
def regionChildrenLoopNoStale (F : TermFactory) (regionN : Node) (kind : String) :
    List (String × AwsRecord) → AccessState → Except Abort AccessState
  | [], st => .ok st
  | (id, rec) :: rest, st =>
    match addNode F kind id rec st.triples with
    | (.error err, triples) => .error (triples, err)
    | (.ok n, triples) =>
      match F.New regionN .parentOf (.node n) with
      | .error err => .error (triples, err)
      | .ok t =>
        regionChildrenLoopNoStale F regionN kind rest ⟨triples ++ [t], t, (id, n) :: st.index⟩

/-- The loop over `access.Groups` with line 129 removed. -/
def groupsLoopNoStale (F : TermFactory) (regionN : Node)
    (usersByGroup : String → List String) (usersIndex : Index) :
    List IamGroup → AccessState → Except Abort AccessState
  | [], st => .ok st
  | group :: rest, st =>
    let groupId := StringValue group.GroupId
    match addNode F GROUP groupId group.record st.triples with
    | (.error err, triples) => .error (triples, err)
    | (.ok n, triples) =>
      match F.New regionN .parentOf (.node n) with
      | .error err => .error (triples, err)
      | .ok t =>
        match groupUsersLoop F groupId n usersIndex (usersByGroup groupId)
            (triples ++ [t], t) with
        | .error r => .error r
        | .ok (triples, t) =>
          groupsLoopNoStale F regionN usersByGroup usersIndex rest
            ⟨triples, t, (groupId, n) :: st.index⟩

/-- The loop over `access.LocalPolicies` with line 156 removed. -/
def policiesLoopNoStale (F : TermFactory) (regionN : Node) (access : AwsAccess)
    (usersIndex rolesIndex groupsIndex : Index) :
    List IamPolicy → List Triple × Triple → Except Abort (List Triple × Triple)
  | [], st => .ok st
  | policy :: rest, (triples, _) =>
    let policyId := StringValue policy.PolicyId
    match addNode F POLICY policyId policy.record triples with
    | (.error err, triples) => .error (triples, err)
    | (.ok n, triples) =>
      match F.New regionN .parentOf (.node n) with
      | .error err => .error (triples, err)
      | .ok t =>
        let triples := triples ++ [t]
        match policyAttachLoop F policyId n usersIndex
            (access.UsersByLocalPolicies policyId) triples with
        | .error r => .error r
        | .ok triples =>
          match policyAttachLoop F policyId n groupsIndex
              (access.GroupsByLocalPolicies policyId) triples with
          | .error r => .error r
          | .ok triples =>
            match policyAttachLoop F policyId n rolesIndex
                (access.RolesByLocalPolicies policyId) triples with
            | .error r => .error r
            | .ok triples =>
              policiesLoopNoStale F regionN access usersIndex rolesIndex groupsIndex rest
                (triples, t)

/-- The function `buildAccessRdfTriples` with the four stale appends removed. -/
def buildAccessRdfTriplesNoStale (F : TermFactory) (region : String) (access : AwsAccess) :
    List Triple × Option String :=
  match F.NewNodeFromStrings REGION region with
  | .error err => ([], some err)
  | .ok regionN =>
    match F.New regionN .hasType (.literal regionL) with
    | .error err => ([], some err)
    | .ok t =>
      match regionChildrenLoopNoStale F regionN USER
          (access.Users.map fun user => (StringValue user.UserId, user.record))
          ⟨[t], t, []⟩ with
      | .error (triples, err) => (triples, some err)
      | .ok ⟨triples, t, usersIndex⟩ =>
        match regionChildrenLoopNoStale F regionN ROLE
            (access.Roles.map fun role => (StringValue role.RoleId, role.record))
            ⟨triples, t, []⟩ with
        | .error (triples, err) => (triples, some err)
        | .ok ⟨triples, t, rolesIndex⟩ =>
          match groupsLoopNoStale F regionN access.UsersByGroup usersIndex access.Groups
              ⟨triples, t, []⟩ with
          | .error (triples, err) => (triples, some err)
          | .ok ⟨triples, t, groupsIndex⟩ =>
            match policiesLoopNoStale F regionN access usersIndex rolesIndex groupsIndex
                access.LocalPolicies (triples, t) with
            | .error (triples, err) => (triples, some err)
            | .ok (triples, _) => (triples, none)

/-- The sequence `full` is the sequence `base` built up with, here and there, one more
append of a statement that already occurs earlier in `full`. -/
inductive Reappends : List Triple → List Triple → Prop
  | nil : Reappends [] []
  | append {base full : List Triple} (x : Triple) :
      Reappends base full → Reappends (base ++ [x]) (full ++ [x])
  | again {base full : List Triple} (x : Triple) :
      Reappends base full → x ∈ full → Reappends base (full ++ [x])

/-- Two loop outcomes, the first without and the second with the stale appends: both
continue, with states related by `rel`, or both return early, with the same error and
with sequences that differ by re-appended statements only. -/
def SameOutcome {σ : Type} (rel : σ → σ → Prop) : Except Abort σ → Except Abort σ → Prop
  | .ok base, .ok full => rel base full
  | .error (baseTriples, baseErr), .error (fullTriples, fullErr) =>
    Reappends baseTriples fullTriples ∧ baseErr = fullErr
  | _, _ => False

/-- The loop states without and with the stale appends agree on `t` and on the index,
their sequences differ by re-appended statements only, and `t` occurs in the sequence. -/
def SameState (base full : AccessState) : Prop :=
  Reappends base.triples full.triples ∧ full.t ∈ full.triples ∧ base.t = full.t ∧
    base.index = full.index

/-! ## Example inputs -/

/-- The instance record of the worked example. -/
def instanceI1 : Ec2Instance :=
  ⟨some "i-1", some "t2.micro", some "subnet-1", none, none, none, none⟩

/-- The infrastructure snapshot of the worked example: vpc `vpc-1`, subnet `subnet-1` in
it, instance `i-1` of type `t2.micro` in the subnet. -/
def exampleInfra : AwsInfra :=
  ⟨[⟨some "vpc-1"⟩], [⟨some "subnet-1", some "vpc-1"⟩], [instanceI1]⟩

/-- An access snapshot whose only group `g-1` lists a user `u-1` that has no record. -/
def danglingGroupAccess : AwsAccess :=
  ⟨[], [], [⟨some "g-1"⟩], [], fun k => if k = "g-1" then ["u-1"] else [],
    fun _ => [], fun _ => [], fun _ => []⟩

/-- The access snapshot of the worked example: policy `p-1` attached to group `g-1`, with
no group record. -/
def danglingPolicyAccess : AwsAccess :=
  ⟨[], [], [], [⟨some "p-1"⟩], fun _ => [], fun _ => [],
    fun k => if k = "p-1" then ["g-1"] else [], fun _ => []⟩

/-- A term factory that rejects the empty node id and nothing else. -/
def rejectEmptyId : TermFactory :=
  ⟨fun _ id => if id = "" then some "empty ID" else none, fun _ => none, fun _ => none,
    fun _ _ _ => none⟩

/-- An infrastructure snapshot whose subnet has no id. -/
def unnamedSubnetInfra : AwsInfra := ⟨[⟨some "vpc-1"⟩], [⟨none, some "vpc-1"⟩], []⟩

/-- An infrastructure snapshot with two subnet records of the same id `s`: the first in
vpc `vpc-1`, the second naming a vpc `vpc-x` that has no record. -/
def sharedIdInfra : AwsInfra :=
  ⟨[⟨some "vpc-1"⟩], [⟨some "s", some "vpc-1"⟩, ⟨some "s", some "vpc-x"⟩], []⟩

/-- An infrastructure snapshot with an orphan subnet and an orphan instance. -/
def orphanInfra : AwsInfra :=
  ⟨[⟨some "vpc-1"⟩], [⟨some "subnet-1", some "vpc-x"⟩],
    [⟨some "i-1", some "t2.micro", some "subnet-x", none, none, none, none⟩]⟩

/-- An access snapshot with one record of each kind: user `u-1` is a member of group
`g-1`, and policy `p-1` is attached to the user, the group and role `r-1`. -/
def exampleAccess : AwsAccess :=
  ⟨[⟨some "u-1"⟩], [⟨some "r-1"⟩], [⟨some "g-1"⟩], [⟨some "p-1"⟩],
    fun k => if k = "g-1" then ["u-1"] else [],
    fun k => if k = "p-1" then ["u-1"] else [],
    fun k => if k = "p-1" then ["g-1"] else [],
    fun k => if k = "p-1" then ["r-1"] else []⟩

/-- An access snapshot with two user records and nothing else. -/
def twoUsersAccess : AwsAccess :=
  ⟨[⟨some "u-1"⟩, ⟨some "u-2"⟩], [], [], [], fun _ => [], fun _ => [], fun _ => [],
    fun _ => []⟩

/-- The snapshot `exampleAccess` with further join-table entries at keys that are the id
of no group record resp. policy record, naming ids that have no record. -/
def strayEntriesAccess : AwsAccess :=
  ⟨[⟨some "u-1"⟩], [⟨some "r-1"⟩], [⟨some "g-1"⟩], [⟨some "p-1"⟩],
    fun k => if k = "g-1" then ["u-1"] else if k = "g-9" then ["nobody"] else [],
    fun k => if k = "p-1" then ["u-1"] else if k = "p-9" then ["nobody"] else [],
    fun k => if k = "p-1" then ["g-1"] else if k = "p-9" then ["nobody"] else [],
    fun k => if k = "p-1" then ["r-1"] else if k = "p-9" then ["nobody"] else []⟩

/-! ## Theorems -/

/-! ### The term constructors -/

theorem newNode_ok {F : TermFactory} {sT sID : String} {n : Node}
    (h : F.NewNodeFromStrings sT sID = .ok n) : n = ⟨sT, sID⟩ ∧ F.nodeErr sT sID = none := by
  unfold TermFactory.NewNodeFromStrings at h
  split at h
  · cases h
  · next hn => cases h; exact ⟨rfl, hn⟩

theorem build_ok {F : TermFactory} {text : String} {l : Literal}
    (h : F.Build text = .ok l) : l = ⟨text⟩ ∧ F.literalErr text = none := by
  unfold TermFactory.Build at h
  split at h
  · cases h
  · next hn => cases h; exact ⟨rfl, hn⟩

theorem newImmutable_ok {F : TermFactory} {name : String} {p : Predicate}
    (h : F.NewImmutable name = .ok p) : p = .prop name ∧ F.predicateErr name = none := by
  unfold TermFactory.NewImmutable at h
  split at h
  · cases h
  · next hn => cases h; exact ⟨rfl, hn⟩

theorem new_ok {F : TermFactory} {s : Node} {p : Predicate} {o : Object} {t : Triple}
    (h : F.New s p o = .ok t) : t = ⟨s, p, o⟩ := by
  unfold TermFactory.New at h
  split at h
  · cases h
  · cases h; rfl

theorem newNode_of_accepts {F : TermFactory} {sT sID : String} (h : F.nodeErr sT sID = none) :
    F.NewNodeFromStrings sT sID = .ok ⟨sT, sID⟩ := by
  simp [TermFactory.NewNodeFromStrings, h]

theorem build_of_accepts {F : TermFactory} {text : String} (h : F.literalErr text = none) :
    F.Build text = .ok ⟨text⟩ := by
  simp [TermFactory.Build, h]

theorem newImmutable_of_accepts {F : TermFactory} {name : String}
    (h : F.predicateErr name = none) : F.NewImmutable name = .ok (.prop name) := by
  simp [TermFactory.NewImmutable, h]

theorem new_of_accepts {F : TermFactory} (h : AcceptsTriples F) (s : Node) (p : Predicate)
    (o : Object) : F.New s p o = .ok ⟨s, p, o⟩ := by
  simp [TermFactory.New, h s p o]

/-! ### The function `addNode` -/

/-- The field loop only appends: the sequence it was given stays in front. -/
theorem addNodeFields_extends (F : TermFactory) (n : Node) (awsNode : AwsRecord)
    (fields : List (String × String)) (triples : List Triple) :
    ∃ block, (addNodeFields F n awsNode fields triples).2 = triples ++ block ∧
      (∀ t ∈ block, t.s = n ∧ ∃ name text, t.p = .prop name ∧ t.o = .literal ⟨text⟩ ∧ text ≠ "") ∧
      ∀ other, addNodeFields F n awsNode fields other =
        ((addNodeFields F n awsNode fields triples).1, other ++ block) := by
  induction fields generalizing triples with
  | nil => exact ⟨[], by simp [addNodeFields]⟩
  | cons f fields ih =>
    obtain ⟨name, awsTag⟩ := f
    unfold addNodeFields
    cases hP : F.NewImmutable name with
    | error err => exact ⟨[], by simp [addNodeFields, hP]⟩
    | ok propP =>
      cases hf : FieldByName awsNode awsTag with
      | none =>
        obtain ⟨block, h1, h2, h3⟩ := ih triples
        refine ⟨block, by simpa using h1, h2, fun other => ?_⟩
        simp only [addNodeFields, hP, hf]
        exact h3 other
      | some sourceField =>
        by_cases hs : StringValue sourceField = ""
        · obtain ⟨block, h1, h2, h3⟩ := ih triples
          refine ⟨block, by simpa [hs] using h1, h2, fun other => ?_⟩
          simp only [addNodeFields, hP, hf, hs, ne_eq, not_true_eq_false, if_false]
          exact h3 other
        · cases hL : F.Build (StringValue sourceField) with
          | error err => exact ⟨[], by simp [addNodeFields, hP, hf, hs, hL]⟩
          | ok propL =>
            cases hT : F.New n propP (.literal propL) with
            | error err => exact ⟨[], by simp [addNodeFields, hP, hf, hs, hL, hT]⟩
            | ok propT =>
              obtain ⟨block, h1, h2, h3⟩ := ih (triples ++ [propT])
              refine ⟨propT :: block, by simpa [hs, hL, hT] using h1, ?_, fun other => ?_⟩
              · intro t ht
                rcases List.mem_cons.1 ht with rfl | ht
                · rw [new_ok hT, (build_ok hL).1, (newImmutable_ok hP).1]
                  exact ⟨rfl, name, _, rfl, rfl, hs⟩
                · exact h2 t ht
              · simp only [addNodeFields, hP, hf, hs, hL, hT, ne_eq, not_false_eq_true, if_true]
                rw [h3 (other ++ [propT])]
                simp

/-- A successful field loop returns the node and appends the property statements. -/
theorem addNodeFields_ok {F : TermFactory} {n m : Node} {awsNode : AwsRecord}
    {fields : List (String × String)} {triples out : List Triple}
    (h : addNodeFields F n awsNode fields triples = (.ok m, out)) :
    m = n ∧ out = triples ++ propertyStatements n awsNode fields := by
  induction fields generalizing triples with
  | nil =>
    simp only [addNodeFields, Prod.mk.injEq, Except.ok.injEq] at h
    simp [propertyStatements, h.1.symm, h.2.symm]
  | cons f fields ih =>
    obtain ⟨name, awsTag⟩ := f
    unfold addNodeFields at h
    cases hP : F.NewImmutable name with
    | error err => simp [hP] at h
    | ok propP =>
      cases hf : FieldByName awsNode awsTag with
      | none =>
        simp only [hP, hf] at h
        obtain ⟨h1, h2⟩ := ih h
        exact ⟨h1, by simp [h2, propertyStatements, propertyOf, hf]⟩
      | some sourceField =>
        by_cases hs : StringValue sourceField = ""
        · simp only [hP, hf, hs, ne_eq, not_true_eq_false, if_false] at h
          obtain ⟨h1, h2⟩ := ih h
          exact ⟨h1, by simp [h2, propertyStatements, propertyOf, hf, hs]⟩
        · cases hL : F.Build (StringValue sourceField) with
          | error err => simp [hP, hf, hs, hL] at h
          | ok propL =>
            cases hT : F.New n propP (.literal propL) with
            | error err => simp [hP, hf, hs, hL, hT] at h
            | ok propT =>
              simp only [hP, hf, hs, hL, hT, ne_eq, not_false_eq_true, if_true] at h
              obtain ⟨h1, h2⟩ := ih h
              refine ⟨h1, ?_⟩
              rw [h2, new_ok hT, (build_ok hL).1, (newImmutable_ok hP).1]
              simp [propertyStatements, propertyOf, hf, hs]

/-- The field loop succeeds when the constructors accept every predicate and literal. -/
theorem addNodeFields_of_accepts {F : TermFactory} (hT : AcceptsTriples F) (n : Node)
    (awsNode : AwsRecord) (fields : List (String × String)) (triples : List Triple)
    (h : ∀ field ∈ fields, F.predicateErr field.1 = none ∧
      ∀ sourceField, FieldByName awsNode field.2 = some sourceField →
        StringValue sourceField ≠ "" → F.literalErr (StringValue sourceField) = none) :
    addNodeFields F n awsNode fields triples =
      (.ok n, triples ++ propertyStatements n awsNode fields) := by
  induction fields generalizing triples with
  | nil => simp [addNodeFields, propertyStatements]
  | cons f fields ih =>
    obtain ⟨name, awsTag⟩ := f
    have hf := h (name, awsTag) (List.mem_cons_self _ _)
    have ih2 := fun ts => ih ts (fun field hfield => h field (List.mem_cons_of_mem _ hfield))
    unfold addNodeFields
    rw [newImmutable_of_accepts hf.1]
    cases hv : FieldByName awsNode awsTag with
    | none => simp [ih2, propertyStatements, propertyOf, hv]
    | some sourceField =>
      by_cases hs : StringValue sourceField = ""
      · simp [ih2, propertyStatements, propertyOf, hv, hs]
      · simp [ih2, propertyStatements, propertyOf, hv, hs, build_of_accepts (hf.2 _ hv hs),
          new_of_accepts hT]

/-- A successful `addNode` returns the node of the kind and id, for a managed kind, and
appends the block of the record. -/
theorem addNode_ok {F : TermFactory} {nodeType id : String} {awsNode : AwsRecord}
    {triples out : List Triple} {n : Node}
    (h : addNode F nodeType id awsNode triples = (.ok n, out)) :
    n = ⟨nodeType, id⟩ ∧ (destType nodeType).isSome ∧
      out = triples ++ nodeStatements nodeType id awsNode := by
  unfold addNode at h
  cases hN : F.NewNodeFromStrings nodeType id with
  | error err => simp [hN] at h
  | ok n0 =>
    cases hL : F.Build nodeType with
    | error err => simp [hN, hL] at h
    | ok lit =>
      cases hT : F.New n0 .hasType (.literal lit) with
      | error err => simp [hN, hL, hT] at h
      | ok t =>
        cases hD : destType nodeType with
        | none => simp [hN, hL, hT, hD] at h
        | some fields =>
          simp only [hN, hL, hT, hD] at h
          obtain ⟨h1, h2⟩ := addNodeFields_ok h
          rw [(newNode_ok hN).1] at h1
          refine ⟨h1, rfl, ?_⟩
          rw [h2, new_ok hT, (build_ok hL).1, (newNode_ok hN).1]
          simp [nodeStatements, hD]

/-- The function `addNode` succeeds for a managed kind when the constructors accept the
terms of the record. -/
theorem addNode_of_accepts {F : TermFactory} (hT : AcceptsTriples F) {nodeType id : String}
    {awsNode : AwsRecord} (hD : (destType nodeType).isSome)
    (h : AcceptsRecord F nodeType id awsNode) (triples : List Triple) :
    addNode F nodeType id awsNode triples =
      (.ok ⟨nodeType, id⟩, triples ++ nodeStatements nodeType id awsNode) := by
  obtain ⟨fields, hfields⟩ := Option.isSome_iff_exists.1 hD
  obtain ⟨h1, h2, h3⟩ := h
  rw [hfields] at h3
  simp only [Option.getD_some] at h3
  unfold addNode
  simp only [newNode_of_accepts h1, build_of_accepts h2, new_of_accepts hT, hfields]
  rw [addNodeFields_of_accepts hT _ _ _ _ h3]
  simp [nodeStatements, hfields]

/-- The result of `addNode` does not depend on the sequence it is given, which stays in
front of the sequence after the call. -/
theorem addNode_extends (F : TermFactory) (nodeType id : String) (awsNode : AwsRecord)
    (triples : List Triple) :
    ∃ block, (addNode F nodeType id awsNode triples).2 = triples ++ block ∧
      ∀ other, addNode F nodeType id awsNode other =
        ((addNode F nodeType id awsNode triples).1, other ++ block) := by
  unfold addNode
  cases hN : F.NewNodeFromStrings nodeType id with
  | error err => exact ⟨[], by simp⟩
  | ok n0 =>
    cases hL : F.Build nodeType with
    | error err => exact ⟨[], by simp⟩
    | ok lit =>
      cases hT : F.New n0 .hasType (.literal lit) with
      | error err => exact ⟨[], by simp [hT]⟩
      | ok t =>
        cases hD : destType nodeType with
        | none => exact ⟨[t], by simp [hT, hD]⟩
        | some fields =>
          obtain ⟨block, h1, _, h3⟩ := addNodeFields_extends F n0 awsNode fields (triples ++ [t])
          refine ⟨t :: block, by simpa [hT, hD] using h1, fun other => ?_⟩
          simp only [hT, hD]
          rw [h3 (other ++ [t])]
          simp

/-- Whatever the outcome, the field loop has appended an initial part of the property
statements. -/
theorem addNodeFields_initial (F : TermFactory) (n : Node) (awsNode : AwsRecord)
    (fields : List (String × String)) (triples : List Triple) :
    ∃ block rest, (addNodeFields F n awsNode fields triples).2 = triples ++ block ∧
      propertyStatements n awsNode fields = block ++ rest := by
  induction fields generalizing triples with
  | nil => exact ⟨[], [], by simp [addNodeFields, propertyStatements]⟩
  | cons f fields ih =>
    obtain ⟨name, awsTag⟩ := f
    unfold addNodeFields
    cases hP : F.NewImmutable name with
    | error err => exact ⟨[], _, by simp, rfl⟩
    | ok propP =>
      cases hf : FieldByName awsNode awsTag with
      | none =>
        obtain ⟨block, rest, h1, h2⟩ := ih triples
        exact ⟨block, rest, by simpa using h1, by simpa [propertyStatements, propertyOf, hf] using h2⟩
      | some sourceField =>
        by_cases hs : StringValue sourceField = ""
        · obtain ⟨block, rest, h1, h2⟩ := ih triples
          exact ⟨block, rest, by simpa [hs] using h1,
            by simpa [propertyStatements, propertyOf, hf, hs] using h2⟩
        · cases hL : F.Build (StringValue sourceField) with
          | error err => exact ⟨[], _, by simp [hs, hL], rfl⟩
          | ok propL =>
            cases hT : F.New n propP (.literal propL) with
            | error err => exact ⟨[], _, by simp [hs, hL, hT], rfl⟩
            | ok propT =>
              obtain ⟨block, rest, h1, h2⟩ := ih (triples ++ [propT])
              refine ⟨propT :: block, rest, by simpa [hs, hL, hT] using h1, ?_⟩
              rw [new_ok hT, (build_ok hL).1, (newImmutable_ok hP).1]
              simpa [propertyStatements, propertyOf, hf, hs] using h2

/-- The field names of every mapping struct are pairwise distinct. -/
theorem destType_names_nodup {nodeType : String} {fields : StructType}
    (h : destType nodeType = some fields) : (fields.map Prod.fst).Nodup := by
  unfold destType at h
  repeat' split at h
  all_goals first
    | (cases h; decide)
    | cases h

theorem mem_propertyStatements {n : Node} {awsNode : AwsRecord} {fields : StructType}
    {t : Triple} :
    t ∈ propertyStatements n awsNode fields ↔
      ∃ field ∈ fields, ∃ sourceField, FieldByName awsNode field.2 = some sourceField ∧
        StringValue sourceField ≠ "" ∧
        t = ⟨n, .prop field.1, .literal ⟨StringValue sourceField⟩⟩ := by
  unfold propertyStatements
  rw [List.mem_filterMap]
  constructor
  · rintro ⟨field, hf, ht⟩
    unfold propertyOf at ht
    split at ht
    · next sourceField hs =>
      split at ht
      · next hne => exact ⟨field, hf, sourceField, hs, hne, by cases ht; rfl⟩
      · cases ht
    · cases ht
  · rintro ⟨field, hf, sourceField, hs, hne, rfl⟩
    exact ⟨field, hf, by simp [propertyOf, hs, hne]⟩

theorem newNode_error {F : TermFactory} {sT sID err : String}
    (h : F.NewNodeFromStrings sT sID = .error err) : F.nodeErr sT sID = some err := by
  unfold TermFactory.NewNodeFromStrings at h
  split at h
  · next hn => cases h; exact hn
  · cases h

theorem build_error {F : TermFactory} {text err : String}
    (h : F.Build text = .error err) : F.literalErr text = some err := by
  unfold TermFactory.Build at h
  split at h
  · next hn => cases h; exact hn
  · cases h

theorem new_error {F : TermFactory} {s : Node} {p : Predicate} {o : Object} {err : String}
    (h : F.New s p o = .error err) : F.tripleErr s p o = some err := by
  unfold TermFactory.New at h
  split at h
  · next hn => cases h; exact hn
  · cases h

theorem new_ok_accepts {F : TermFactory} {s : Node} {p : Predicate} {o : Object} {t : Triple}
    (h : F.New s p o = .ok t) : F.tripleErr s p o = none := by
  unfold TermFactory.New at h
  split at h
  · cases h
  · next hn => exact hn

/-- C8: on every successful `addNode` the kind is managed and the sequence grows by the
`HasType` statement followed by the property statements in field declaration order
(`propertyStatements` keeps, field by field, the statement of `propertyOf`); a field of
the mapping struct has a property statement exactly when the record has the attribute
named by its `aws` tag with a non-empty string value, which is then the literal of the
statement; no appended property statement has an empty literal. -/
theorem addNode_property_statements (F : TermFactory) (nodeType id : String)
    (awsNode : AwsRecord) (triples out : List Triple) (n : Node)
    (h : addNode F nodeType id awsNode triples = (.ok n, out)) :
    ∃ fields, destType nodeType = some fields ∧
      out = triples ++
        ⟨n, .hasType, .literal ⟨nodeType⟩⟩ :: propertyStatements n awsNode fields ∧
      (∀ field ∈ fields, ∀ text,
        (⟨n, .prop field.1, .literal ⟨text⟩⟩ : Triple) ∈ propertyStatements n awsNode fields ↔
          ∃ sourceField, FieldByName awsNode field.2 = some sourceField ∧
            StringValue sourceField ≠ "" ∧ text = StringValue sourceField) ∧
      (∀ t ∈ propertyStatements n awsNode fields,
        t.s = n ∧ ∃ name text, t.p = .prop name ∧ t.o = .literal ⟨text⟩ ∧ text ≠ "") := by
  obtain ⟨hn, hD, hout⟩ := addNode_ok h
  obtain ⟨fields, hfields⟩ := Option.isSome_iff_exists.1 hD
  refine ⟨fields, hfields, ?_, ?_, ?_⟩
  · rw [hout, hn]; simp [nodeStatements, hfields]
  · intro field hfield text
    rw [mem_propertyStatements]
    constructor
    · rintro ⟨field2, hfield2, sourceField, hs, hne, heq⟩
      have hname : field2.1 = field.1 := by
        have := congrArg Triple.p heq
        simp only [Predicate.prop.injEq] at this
        exact this.symm
      have hsame : field2 = field :=
        List.inj_on_of_nodup_map (destType_names_nodup hfields) hfield2 hfield hname
      subst hsame
      refine ⟨sourceField, hs, hne, ?_⟩
      have := congrArg Triple.o heq
      simpa using this
    · rintro ⟨sourceField, hs, hne, rfl⟩
      exact ⟨field, hfield, sourceField, hs, hne, rfl⟩
  · intro t ht
    obtain ⟨field, _, sourceField, _, hne, rfl⟩ := mem_propertyStatements.1 ht
    exact ⟨rfl, field.1, _, rfl, rfl, hne⟩

theorem addNode_property_statements_witness :
    addNode acceptAll INSTANCE "i-1" instanceI1.record [] =
        (.ok ⟨INSTANCE, "i-1"⟩,
          [⟨⟨INSTANCE, "i-1"⟩, .hasType, .literal ⟨INSTANCE⟩⟩,
           ⟨⟨INSTANCE, "i-1"⟩, .prop "Id", .literal ⟨"i-1"⟩⟩,
           ⟨⟨INSTANCE, "i-1"⟩, .prop "Type", .literal ⟨"t2.micro"⟩⟩,
           ⟨⟨INSTANCE, "i-1"⟩, .prop "SubnetId", .literal ⟨"subnet-1"⟩⟩]) ∧
      ∃ fields, destType INSTANCE = some fields ∧
        ∀ t ∈ propertyStatements ⟨INSTANCE, "i-1"⟩ instanceI1.record fields,
          t.s = ⟨INSTANCE, "i-1"⟩ ∧
            ∃ name text, t.p = .prop name ∧ t.o = .literal ⟨text⟩ ∧ text ≠ "" :=
  ⟨rfl,
    (addNode_property_statements acceptAll INSTANCE "i-1" instanceI1.record [] _ _
      rfl).imp fun _ h => ⟨h.1, h.2.2.2⟩⟩

/-- C9, as stated, fails: for an unmanaged kind `addNode` returns the error after it has
appended the `HasType` statement to the sequence. -/
theorem addNode_error_changes_sequence :
    addNode acceptAll "/foo" "x" [] [] =
      (.error "type /foo is not managed",
        [⟨⟨"/foo", "x"⟩, .hasType, .literal ⟨"/foo"⟩⟩]) ∧
    ¬ ∀ (F : TermFactory) (nodeType id : String) (awsNode : AwsRecord)
        (triples out : List Triple) (err : String),
        addNode F nodeType id awsNode triples = (.error err, out) → out = triples := by
  refine ⟨rfl, fun h => ?_⟩
  have := h acceptAll "/foo" "x" [] [] _ _ rfl
  exact absurd this (by decide)

/-- C9, amended: when `addNode` returns an error, the sequence after the call is the
sequence it was given followed by an initial part of the block of the record (its
`HasType` statement, then property statements); nothing has been appended exactly when
the node, its type literal or its `HasType` statement was rejected. -/
theorem addNode_error_initial (F : TermFactory) (nodeType id : String) (awsNode : AwsRecord)
    (triples out : List Triple) (err : String)
    (h : addNode F nodeType id awsNode triples = (.error err, out)) :
    ∃ block rest, out = triples ++ block ∧
      nodeStatements nodeType id awsNode = block ++ rest ∧
      (block = [] ↔ (F.nodeErr nodeType id ≠ none ∨ F.literalErr nodeType ≠ none ∨
        F.tripleErr ⟨nodeType, id⟩ .hasType (.literal ⟨nodeType⟩) ≠ none)) := by
  unfold addNode at h
  cases hN : F.NewNodeFromStrings nodeType id with
  | error e =>
    simp only [hN, Prod.mk.injEq] at h
    exact ⟨[], _, by simp [h.2], rfl, by simp [newNode_error hN]⟩
  | ok n0 =>
    obtain ⟨rfl, hn⟩ := newNode_ok hN
    cases hL : F.Build nodeType with
    | error e =>
      simp only [hN, hL, Prod.mk.injEq] at h
      exact ⟨[], _, by simp [h.2], rfl, by simp [build_error hL]⟩
    | ok lit =>
      obtain ⟨rfl, hl⟩ := build_ok hL
      cases hT : F.New ⟨nodeType, id⟩ .hasType (.literal ⟨nodeType⟩) with
      | error e =>
        simp only [hN, hL, hT, Prod.mk.injEq] at h
        exact ⟨[], _, by simp [h.2], rfl, by simp [new_error hT]⟩
      | ok t =>
        have ht := new_ok hT
        have hacc := new_ok_accepts hT
        subst ht
        cases hD : destType nodeType with
        | none =>
          simp only [hN, hL, hT, hD, Prod.mk.injEq] at h
          exact ⟨[_], [], h.2.symm, by simp [nodeStatements, hD, propertyStatements],
            by simp [hn, hl, hacc]⟩
        | some fields =>
          simp only [hN, hL, hT, hD] at h
          obtain ⟨block, rest, h1, h2⟩ :=
            addNodeFields_initial F ⟨nodeType, id⟩ awsNode fields (triples ++ [_])
          rw [h] at h1
          exact ⟨_ :: block, rest, by simpa using h1, by simp [nodeStatements, hD, h2],
            by simp [hn, hl, hacc]⟩

theorem addNode_error_initial_witness :
    addNode acceptAll "/foo" "x" [] [] =
        (.error "type /foo is not managed",
          [⟨⟨"/foo", "x"⟩, .hasType, .literal ⟨"/foo"⟩⟩]) ∧
      ∃ block rest, [(⟨⟨"/foo", "x"⟩, .hasType, .literal ⟨"/foo"⟩⟩ : Triple)] = [] ++ block ∧
        nodeStatements "/foo" "x" [] = block ++ rest ∧
        (block = [] ↔ (acceptAll.nodeErr "/foo" "x" ≠ none ∨ acceptAll.literalErr "/foo" ≠ none ∨
          acceptAll.tripleErr ⟨"/foo", "x"⟩ .hasType (.literal ⟨"/foo"⟩) ≠ none)) :=
  ⟨rfl, addNode_error_initial acceptAll "/foo" "x" [] [] _ _ rfl⟩

/-! ### The infrastructure builder -/

theorem destType_VPC : (destType VPC).isSome := by decide
theorem destType_SUBNET : (destType SUBNET).isSome := by decide
theorem destType_INSTANCE : (destType INSTANCE).isSome := by decide
theorem destType_USER : (destType USER).isSome := by decide
theorem destType_ROLE : (destType ROLE).isSome := by decide
theorem destType_GROUP : (destType GROUP).isSome := by decide
theorem destType_POLICY : (destType POLICY).isSome := by decide

/-- A successful vpcs loop appends the block and region edge of each vpc. -/
theorem vpcsLoop_ok {F : TermFactory} {regionN : Node} {vpcs : List Ec2Vpc}
    {triples out : List Triple} {vpcNodes nodes : List Node}
    (h : vpcsLoop F regionN vpcs (triples, vpcNodes) = .ok (out, nodes)) :
    out = triples ++ vpcs.flatMap (vpcStatements regionN) ∧
      nodes = vpcNodes ++ vpcs.map fun vpc => ⟨VPC, StringValue vpc.VpcId⟩ := by
  induction vpcs generalizing triples vpcNodes with
  | nil =>
    simp only [vpcsLoop, Except.ok.injEq, Prod.mk.injEq] at h
    simp [h.1, h.2]
  | cons vpc rest ih =>
    unfold vpcsLoop at h
    rcases hA : addNode F VPC (StringValue vpc.VpcId) vpc.record triples with ⟨r, ts⟩
    cases r with
    | error err => simp [hA] at h
    | ok n =>
      obtain ⟨rfl, -, rfl⟩ := addNode_ok hA
      cases hT : F.New regionN .parentOf (.node ⟨VPC, StringValue vpc.VpcId⟩) with
      | error err => simp [hA, hT] at h
      | ok t =>
        simp only [hA, hT] at h
        obtain ⟨h1, h2⟩ := ih h
        rw [new_ok hT] at h1
        simp [h1, h2, vpcStatements, parentOf]

theorem vpcsLoop_of_accepts {F : TermFactory} (hT : AcceptsTriples F) (regionN : Node)
    (vpcs : List Ec2Vpc) (triples : List Triple) (vpcNodes : List Node)
    (h : ∀ vpc ∈ vpcs, AcceptsRecord F VPC (StringValue vpc.VpcId) vpc.record) :
    vpcsLoop F regionN vpcs (triples, vpcNodes) =
      .ok (triples ++ vpcs.flatMap (vpcStatements regionN),
        vpcNodes ++ vpcs.map fun vpc => ⟨VPC, StringValue vpc.VpcId⟩) := by
  induction vpcs generalizing triples vpcNodes with
  | nil => simp [vpcsLoop]
  | cons vpc rest ih =>
    unfold vpcsLoop
    simp only [addNode_of_accepts hT destType_VPC (h vpc (List.mem_cons_self _ _)),
      new_of_accepts hT]
    rw [ih _ _ fun v hv => h v (List.mem_cons_of_mem _ hv)]
    simp [vpcStatements, parentOf]

/-- The function `findNodeById` returns a node of the slice with the id it was asked
for. -/
theorem findNodeById_some {nodes : List Node} {id : String} {n : Node}
    (h : findNodeById nodes id = some n) : n ∈ nodes ∧ n.id = id := by
  induction nodes with
  | nil => simp [findNodeById] at h
  | cons m nodes ih =>
    unfold findNodeById at h
    split at h
    · next hid => cases h; exact ⟨List.mem_cons_self _ _, hid.symm⟩
    · exact ⟨List.mem_cons_of_mem _ (ih h).1, (ih h).2⟩

theorem findNodeById_none {nodes : List Node} {id : String} :
    findNodeById nodes id = none ↔ ∀ n ∈ nodes, n.id ≠ id := by
  induction nodes with
  | nil => simp [findNodeById]
  | cons m nodes ih =>
    unfold findNodeById
    by_cases hid : id = m.id
    · simp [hid]
    · simp [hid, ih, Ne.symm hid]

/-- Among nodes of one kind, `findNodeById` finds the node of that kind and id exactly
when the id is among the ids. -/
theorem findNodeById_map (kind : String) (ids : List String) (id : String) :
    findNodeById (ids.map fun i => ⟨kind, i⟩) id =
      if id ∈ ids then some ⟨kind, id⟩ else none := by
  induction ids with
  | nil => simp [findNodeById]
  | cons i ids ih =>
    simp only [List.map_cons, findNodeById, List.mem_cons]
    by_cases hid : id = i
    · simp [hid]
    · simp [hid, ih]

theorem subnetsLoop_ok {F : TermFactory} {vpcNodes : List Node} {subnets : List Ec2Subnet}
    {triples out : List Triple} {subnetNodes nodes : List Node}
    (h : subnetsLoop F vpcNodes subnets (triples, subnetNodes) = .ok (out, nodes)) :
    out = triples ++ subnets.flatMap (subnetStatements vpcNodes) ∧
      nodes = subnetNodes ++ subnets.map fun subnet => ⟨SUBNET, StringValue subnet.SubnetId⟩ := by
  induction subnets generalizing triples subnetNodes with
  | nil =>
    simp only [subnetsLoop, Except.ok.injEq, Prod.mk.injEq] at h
    simp [h.1, h.2]
  | cons subnet rest ih =>
    unfold subnetsLoop at h
    rcases hA : addNode F SUBNET (StringValue subnet.SubnetId) subnet.record triples with ⟨r, ts⟩
    cases r with
    | error err => simp [hA] at h
    | ok n =>
      obtain ⟨rfl, -, rfl⟩ := addNode_ok hA
      cases hf : findNodeById vpcNodes (StringValue subnet.VpcId) with
      | none =>
        simp only [hA, hf] at h
        obtain ⟨h1, h2⟩ := ih h
        simp [h1, h2, subnetStatements, parentStatements, hf]
      | some vpcN =>
        cases hT : F.New vpcN .parentOf (.node ⟨SUBNET, StringValue subnet.SubnetId⟩) with
        | error err => simp [hA, hf, hT] at h
        | ok t =>
          simp only [hA, hf, hT] at h
          obtain ⟨h1, h2⟩ := ih h
          rw [new_ok hT] at h1
          simp [h1, h2, subnetStatements, parentStatements, hf, parentOf]

theorem subnetsLoop_of_accepts {F : TermFactory} (hT : AcceptsTriples F) (vpcNodes : List Node)
    (subnets : List Ec2Subnet) (triples : List Triple) (subnetNodes : List Node)
    (h : ∀ subnet ∈ subnets,
      AcceptsRecord F SUBNET (StringValue subnet.SubnetId) subnet.record) :
    subnetsLoop F vpcNodes subnets (triples, subnetNodes) =
      .ok (triples ++ subnets.flatMap (subnetStatements vpcNodes),
        subnetNodes ++ subnets.map fun subnet => ⟨SUBNET, StringValue subnet.SubnetId⟩) := by
  induction subnets generalizing triples subnetNodes with
  | nil => simp [subnetsLoop]
  | cons subnet rest ih =>
    unfold subnetsLoop
    simp only [addNode_of_accepts hT destType_SUBNET (h subnet (List.mem_cons_self _ _)),
      new_of_accepts hT]
    cases hf : findNodeById vpcNodes (StringValue subnet.VpcId) with
    | none =>
      simp only []
      rw [ih _ _ fun v hv => h v (List.mem_cons_of_mem _ hv)]
      simp [subnetStatements, parentStatements, hf]
    | some vpcN =>
      simp only []
      rw [ih _ _ fun v hv => h v (List.mem_cons_of_mem _ hv)]
      simp [subnetStatements, parentStatements, hf, parentOf]

theorem instancesLoop_ok {F : TermFactory} {subnetNodes : List Node}
    {instances : List Ec2Instance} {triples out : List Triple}
    (h : instancesLoop F subnetNodes instances triples = .ok out) :
    out = triples ++ instances.flatMap (instanceStatements subnetNodes) := by
  induction instances generalizing triples with
  | nil =>
    simp only [instancesLoop, Except.ok.injEq] at h
    simp [h]
  | cons inst rest ih =>
    unfold instancesLoop at h
    rcases hA : addNode F INSTANCE (StringValue inst.InstanceId) inst.record triples with ⟨r, ts⟩
    cases r with
    | error err => simp [hA] at h
    | ok n =>
      obtain ⟨rfl, -, rfl⟩ := addNode_ok hA
      cases hf : findNodeById subnetNodes (StringValue inst.SubnetId) with
      | none =>
        simp only [hA, hf] at h
        simp [ih h, instanceStatements, parentStatements, hf]
      | some subnetN =>
        cases hT : F.New subnetN .parentOf (.node ⟨INSTANCE, StringValue inst.InstanceId⟩) with
        | error err => simp [hA, hf, hT] at h
        | ok t =>
          simp only [hA, hf, hT] at h
          have h1 := ih h
          rw [new_ok hT] at h1
          simp [h1, instanceStatements, parentStatements, hf, parentOf]

theorem instancesLoop_of_accepts {F : TermFactory} (hT : AcceptsTriples F)
    (subnetNodes : List Node) (instances : List Ec2Instance) (triples : List Triple)
    (h : ∀ inst ∈ instances,
      AcceptsRecord F INSTANCE (StringValue inst.InstanceId) inst.record) :
    instancesLoop F subnetNodes instances triples =
      .ok (triples ++ instances.flatMap (instanceStatements subnetNodes)) := by
  induction instances generalizing triples with
  | nil => simp [instancesLoop]
  | cons inst rest ih =>
    unfold instancesLoop
    simp only [addNode_of_accepts hT destType_INSTANCE (h inst (List.mem_cons_self _ _)),
      new_of_accepts hT]
    cases hf : findNodeById subnetNodes (StringValue inst.SubnetId) with
    | none =>
      simp only []
      rw [ih _ fun v hv => h v (List.mem_cons_of_mem _ hv)]
      simp [instanceStatements, parentStatements, hf]
    | some subnetN =>
      simp only []
      rw [ih _ fun v hv => h v (List.mem_cons_of_mem _ hv)]
      simp [instanceStatements, parentStatements, hf, parentOf]

/-- A successful infrastructure pass returns the closed-form sequence. -/
theorem buildInfraRdfTriples_ok {F : TermFactory} {region : String} {infra : AwsInfra}
    {triples : List Triple} (h : buildInfraRdfTriples F region infra = (triples, none)) :
    triples = infraStatements region infra := by
  unfold buildInfraRdfTriples at h
  split at h
  · simp at h
  · next regionN hN =>
    obtain ⟨rfl, -⟩ := newNode_ok hN
    split at h
    · simp at h
    · next t hT =>
      have ht := new_ok hT
      subst ht
      split at h
      · simp at h
      · next ts1 vpcNodes hV =>
        obtain ⟨rfl, rfl⟩ := vpcsLoop_ok hV
        split at h
        · simp at h
        · next ts2 subnetNodes hS =>
          obtain ⟨rfl, rfl⟩ := subnetsLoop_ok hS
          split at h
          · simp at h
          · next ts3 hI =>
            have h3 := instancesLoop_ok hI
            simp only [Prod.mk.injEq, and_true] at h
            rw [← h, h3]
            simp [infraStatements, regionStatement, vpcNodesOf, subnetNodesOf]

/-- The infrastructure pass succeeds when the constructors accept its terms. -/
theorem buildInfraRdfTriples_of_accepts {F : TermFactory} {region : String} {infra : AwsInfra}
    (h : AcceptsInfra F region infra) :
    buildInfraRdfTriples F region infra = (infraStatements region infra, none) := by
  obtain ⟨hR, hT, hV, hS, hI⟩ := h
  unfold buildInfraRdfTriples
  simp only [newNode_of_accepts hR, new_of_accepts hT, vpcsLoop_of_accepts hT _ _ _ _ hV,
    subnetsLoop_of_accepts hT _ _ _ _ hS, instancesLoop_of_accepts hT _ _ _ hI]
  simp [infraStatements, regionStatement, vpcNodesOf, subnetNodesOf]

/-! ### The access builder -/

theorem lookup_indexOf (kind : String) (ids : List String) (id : String) :
    (indexOf kind ids).lookup id = if id ∈ ids then some ⟨kind, id⟩ else none := by
  unfold indexOf
  induction ids using List.reverseRecOn with
  | nil => simp
  | append_singleton ids i ih =>
    simp only [List.map_append, List.map_cons, List.map_nil, List.reverse_append,
      List.reverse_cons, List.reverse_nil, List.nil_append, List.singleton_append,
      List.lookup_cons, List.mem_append, List.mem_singleton]
    by_cases hid : id = i
    · simp [hid]
    · have hne : (id == i) = false := by simpa using hid
      simp [hid, hne, ih]

theorem getLast?_getD_cons {α : Type} (x : α) (l : List α) (d e : α) :
    ((x :: l).getLast?).getD d = ((x :: l).getLast?).getD e := by
  cases h : (x :: l).getLast? with
  | none => simp at h
  | some y => rfl

theorem indexOf_append (kind : String) (ids more : List String) :
    indexOf kind (ids ++ more) = indexOf kind more ++ indexOf kind ids := by
  simp [indexOf]

/-- A successful users resp. roles loop: what it appends, the outer `t` and the index
after it. -/
theorem regionChildrenLoop_ok {F : TermFactory} {regionN : Node} {kind : String}
    {records : List (String × AwsRecord)} {st out : AccessState}
    (h : regionChildrenLoop F regionN kind records st = .ok out) :
    out.triples = st.triples ++ regionChildrenStatements regionN kind records st.t ∧
      out.t = regionChildrenLast regionN kind records st.t ∧
      out.index = indexOf kind (records.map Prod.fst) ++ st.index := by
  induction records generalizing st with
  | nil =>
    simp only [regionChildrenLoop, Except.ok.injEq] at h
    simp [← h, regionChildrenStatements, regionChildrenLast, indexOf]
  | cons r rest ih =>
    obtain ⟨id, rec⟩ := r
    unfold regionChildrenLoop at h
    rcases hA : addNode F kind id rec st.triples with ⟨r, ts⟩
    cases r with
    | error err => simp [hA] at h
    | ok n =>
      obtain ⟨rfl, -, rfl⟩ := addNode_ok hA
      cases hT : F.New regionN .parentOf (.node ⟨kind, id⟩) with
      | error err => simp [hA, hT] at h
      | ok t =>
        simp only [hA, hT] at h
        obtain ⟨h1, h2, h3⟩ := ih h
        rw [new_ok hT] at h1 h2
        refine ⟨?_, ?_, ?_⟩
        · simp [h1, regionChildrenStatements, parentOf]
        · simp [h2, regionChildrenLast, parentOf]
        · simp [h3, indexOf]

theorem regionChildrenLoop_of_accepts {F : TermFactory} (hT : AcceptsTriples F)
    (regionN : Node) {kind : String} (hD : (destType kind).isSome)
    (records : List (String × AwsRecord)) (st : AccessState)
    (h : ∀ r ∈ records, AcceptsRecord F kind r.1 r.2) :
    regionChildrenLoop F regionN kind records st =
      .ok ⟨st.triples ++ regionChildrenStatements regionN kind records st.t,
        regionChildrenLast regionN kind records st.t,
        indexOf kind (records.map Prod.fst) ++ st.index⟩ := by
  induction records generalizing st with
  | nil => simp [regionChildrenLoop, regionChildrenStatements, regionChildrenLast, indexOf]
  | cons r rest ih =>
    obtain ⟨id, rec⟩ := r
    unfold regionChildrenLoop
    simp only [addNode_of_accepts hT hD (h (id, rec) (List.mem_cons_self _ _)),
      new_of_accepts hT]
    rw [ih _ fun v hv => h v (List.mem_cons_of_mem _ hv)]
    simp [regionChildrenStatements, regionChildrenLast, indexOf, parentOf]

/-- A successful membership loop found every id and appended one edge per id. -/
theorem groupUsersLoop_ok {F : TermFactory} {groupId kind : String} {n : Node}
    {ids : List String} {userIds : List String} {triples out : List Triple} {t last : Triple}
    (h : groupUsersLoop F groupId n (indexOf kind userIds) ids (triples, t) = .ok (out, last)) :
    out = triples ++ memberStatements n kind ids ∧
      last = ((memberStatements n kind ids).getLast?).getD t ∧
      ∀ id ∈ ids, id ∈ userIds := by
  induction ids generalizing triples t with
  | nil =>
    simp only [groupUsersLoop, Except.ok.injEq, Prod.mk.injEq] at h
    simp [← h.1, ← h.2, memberStatements]
  | cons id rest ih =>
    unfold groupUsersLoop at h
    rw [lookup_indexOf] at h
    by_cases hid : id ∈ userIds
    · simp only [hid, if_true] at h
      cases hT : F.New n .parentOf (.node ⟨kind, id⟩) with
      | error err => simp [hT] at h
      | ok e =>
        simp only [hT] at h
        obtain ⟨h1, h2, h3⟩ := ih h
        rw [new_ok hT] at h1 h2
        refine ⟨by simp [h1, memberStatements, parentOf], ?_, ?_⟩
        · rw [h2]
          cases rest with
          | nil => simp [memberStatements, parentOf]
          | cons a b =>
            simp only [memberStatements, List.map_cons, List.getLast?_cons_cons]
            exact getLast?_getD_cons _ _ _ _
        · intro x hx
          rcases List.mem_cons.1 hx with rfl | hx
          · exact hid
          · exact h3 x hx
    · simp [hid] at h

theorem groupUsersLoop_of_found {F : TermFactory} (hT : AcceptsTriples F)
    (groupId kind : String) (n : Node) (userIds : List String) (ids : List String)
    (triples : List Triple) (t : Triple) (h : ∀ id ∈ ids, id ∈ userIds) :
    groupUsersLoop F groupId n (indexOf kind userIds) ids (triples, t) =
      .ok (triples ++ memberStatements n kind ids,
        ((memberStatements n kind ids).getLast?).getD t) := by
  induction ids generalizing triples t with
  | nil => simp [groupUsersLoop, memberStatements]
  | cons id rest ih =>
    unfold groupUsersLoop
    rw [lookup_indexOf]
    simp only [h id (List.mem_cons_self _ _), if_true, new_of_accepts hT]
    rw [ih _ _ fun x hx => h x (List.mem_cons_of_mem _ hx)]
    cases rest with
    | nil => simp [memberStatements, parentOf]
    | cons a b =>
      simp only [memberStatements, List.map_cons, List.getLast?_cons_cons, parentOf,
        Except.ok.injEq, Prod.mk.injEq, List.append_assoc, List.singleton_append, true_and]
      exact getLast?_getD_cons _ _ _ _

theorem policyAttachLoop_ok {F : TermFactory} {policyId kind : String} {n : Node}
    {ids : List String} {memberIds : List String} {triples out : List Triple}
    (h : policyAttachLoop F policyId n (indexOf kind memberIds) ids triples = .ok out) :
    out = triples ++ memberStatements n kind ids ∧ ∀ id ∈ ids, id ∈ memberIds := by
  induction ids generalizing triples with
  | nil =>
    simp only [policyAttachLoop, Except.ok.injEq] at h
    simp [← h, memberStatements]
  | cons id rest ih =>
    unfold policyAttachLoop at h
    rw [lookup_indexOf] at h
    by_cases hid : id ∈ memberIds
    · simp only [hid, if_true] at h
      cases hT : F.New n .parentOf (.node ⟨kind, id⟩) with
      | error err => simp [hT] at h
      | ok e =>
        simp only [hT] at h
        obtain ⟨h1, h3⟩ := ih h
        rw [new_ok hT] at h1
        refine ⟨by simp [h1, memberStatements, parentOf], ?_⟩
        intro x hx
        rcases List.mem_cons.1 hx with rfl | hx
        · exact hid
        · exact h3 x hx
    · simp [hid] at h

theorem policyAttachLoop_of_found {F : TermFactory} (hT : AcceptsTriples F)
    (policyId kind : String) (n : Node) (memberIds : List String) (ids : List String)
    (triples : List Triple) (h : ∀ id ∈ ids, id ∈ memberIds) :
    policyAttachLoop F policyId n (indexOf kind memberIds) ids triples =
      .ok (triples ++ memberStatements n kind ids) := by
  induction ids generalizing triples with
  | nil => simp [policyAttachLoop, memberStatements]
  | cons id rest ih =>
    unfold policyAttachLoop
    rw [lookup_indexOf]
    simp only [h id (List.mem_cons_self _ _), if_true, new_of_accepts hT]
    rw [ih _ fun x hx => h x (List.mem_cons_of_mem _ hx)]
    simp [memberStatements, parentOf]

/-- A successful groups loop: what it appends, the outer `t` and the index after it; no
listed member is missing. -/
theorem groupsLoop_ok {F : TermFactory} {regionN : Node} {usersByGroup : String → List String}
    {userIds : List String} {groups : List IamGroup} {st out : AccessState}
    (h : groupsLoop F regionN usersByGroup (indexOf USER userIds) groups st = .ok out) :
    out.triples = st.triples ++ groupsStatements regionN usersByGroup groups st.t ∧
      out.t = groupsLast regionN usersByGroup groups st.t ∧
      out.index = indexOf GROUP (groups.map fun g => StringValue g.GroupId) ++ st.index ∧
      ∀ group ∈ groups, ∀ userId ∈ usersByGroup (StringValue group.GroupId),
        userId ∈ userIds := by
  induction groups generalizing st with
  | nil =>
    simp only [groupsLoop, Except.ok.injEq] at h
    simp [← h, groupsStatements, groupsLast, indexOf]
  | cons group rest ih =>
    unfold groupsLoop at h
    rcases hA : addNode F GROUP (StringValue group.GroupId) group.record st.triples with ⟨r, ts⟩
    cases r with
    | error err => simp [hA] at h
    | ok n =>
      obtain ⟨rfl, -, rfl⟩ := addNode_ok hA
      cases hT : F.New regionN .parentOf (.node ⟨GROUP, StringValue group.GroupId⟩) with
      | error err => simp [hA, hT] at h
      | ok t =>
        have ht := new_ok hT
        subst ht
        simp only [hA, hT] at h
        split at h
        · simp at h
        · next ts2 t2 hU =>
          obtain ⟨rfl, rfl, hmem⟩ := groupUsersLoop_ok hU
          obtain ⟨h1, h2, h3, h4⟩ := ih h
          refine ⟨?_, ?_, ?_, ?_⟩
          · simp [h1, groupsStatements, groupLast, parentOf]
          · simp [h2, groupsLast, groupLast, parentOf]
          · simp [h3, indexOf]
          · intro g hg
            rcases List.mem_cons.1 hg with rfl | hg
            · exact hmem
            · exact h4 g hg

theorem groupsLoop_of_accepts {F : TermFactory} (hT : AcceptsTriples F) (regionN : Node)
    (usersByGroup : String → List String) (userIds : List String) (groups : List IamGroup)
    (st : AccessState)
    (h : ∀ group ∈ groups, AcceptsRecord F GROUP (StringValue group.GroupId) group.record)
    (hmem : ∀ group ∈ groups, ∀ userId ∈ usersByGroup (StringValue group.GroupId),
      userId ∈ userIds) :
    groupsLoop F regionN usersByGroup (indexOf USER userIds) groups st =
      .ok ⟨st.triples ++ groupsStatements regionN usersByGroup groups st.t,
        groupsLast regionN usersByGroup groups st.t,
        indexOf GROUP (groups.map fun g => StringValue g.GroupId) ++ st.index⟩ := by
  induction groups generalizing st with
  | nil => simp [groupsLoop, groupsStatements, groupsLast, indexOf]
  | cons group rest ih =>
    unfold groupsLoop
    simp only [addNode_of_accepts hT destType_GROUP (h group (List.mem_cons_self _ _)),
      new_of_accepts hT,
      groupUsersLoop_of_found hT _ USER _ userIds _ _ _ (hmem group (List.mem_cons_self _ _))]
    rw [ih _ (fun v hv => h v (List.mem_cons_of_mem _ hv))
      (fun v hv => hmem v (List.mem_cons_of_mem _ hv))]
    simp [groupsStatements, groupsLast, groupLast, indexOf, parentOf]

/-- A successful policies loop: what it appends; no attached id is missing. -/
theorem policiesLoop_ok {F : TermFactory} {regionN : Node} {access : AwsAccess}
    {uids rids gids : List String} {policies : List IamPolicy}
    {triples out : List Triple} {t last : Triple}
    (h : policiesLoop F regionN access (indexOf USER uids) (indexOf ROLE rids)
      (indexOf GROUP gids) policies (triples, t) = .ok (out, last)) :
    out = triples ++ policiesStatements regionN access policies t ∧
      ∀ policy ∈ policies,
        (∀ userId ∈ access.UsersByLocalPolicies (StringValue policy.PolicyId),
          userId ∈ uids) ∧
        (∀ groupId ∈ access.GroupsByLocalPolicies (StringValue policy.PolicyId),
          groupId ∈ gids) ∧
        (∀ roleId ∈ access.RolesByLocalPolicies (StringValue policy.PolicyId),
          roleId ∈ rids) := by
  induction policies generalizing triples t with
  | nil =>
    simp only [policiesLoop, Except.ok.injEq, Prod.mk.injEq] at h
    simp [← h.1, policiesStatements]
  | cons policy rest ih =>
    unfold policiesLoop at h
    rcases hA : addNode F POLICY (StringValue policy.PolicyId) policy.record triples with ⟨r, ts⟩
    cases r with
    | error err => simp [hA] at h
    | ok n =>
      obtain ⟨rfl, -, rfl⟩ := addNode_ok hA
      cases hT : F.New regionN .parentOf (.node ⟨POLICY, StringValue policy.PolicyId⟩) with
      | error err => simp [hA, hT] at h
      | ok e =>
        have ht := new_ok hT
        subst ht
        simp only [hA, hT] at h
        split at h
        · simp at h
        · next ts1 hU =>
          obtain ⟨rfl, hu⟩ := policyAttachLoop_ok hU
          split at h
          · simp at h
          · next ts2 hG =>
            obtain ⟨rfl, hg⟩ := policyAttachLoop_ok hG
            split at h
            · simp at h
            · next ts3 hR =>
              obtain ⟨rfl, hr⟩ := policyAttachLoop_ok hR
              obtain ⟨h1, h2⟩ := ih h
              refine ⟨?_, ?_⟩
              · simp [h1, policiesStatements, attachmentStatements, parentOf]
              · intro p hp
                rcases List.mem_cons.1 hp with rfl | hp
                · exact ⟨hu, hg, hr⟩
                · exact h2 p hp

theorem policiesLoop_of_accepts {F : TermFactory} (hT : AcceptsTriples F) (regionN : Node)
    (access : AwsAccess) (uids rids gids : List String) (policies : List IamPolicy)
    (triples : List Triple) (t : Triple)
    (h : ∀ policy ∈ policies,
      AcceptsRecord F POLICY (StringValue policy.PolicyId) policy.record)
    (hmem : ∀ policy ∈ policies,
        (∀ userId ∈ access.UsersByLocalPolicies (StringValue policy.PolicyId),
          userId ∈ uids) ∧
        (∀ groupId ∈ access.GroupsByLocalPolicies (StringValue policy.PolicyId),
          groupId ∈ gids) ∧
        (∀ roleId ∈ access.RolesByLocalPolicies (StringValue policy.PolicyId),
          roleId ∈ rids)) :
    ∃ last, policiesLoop F regionN access (indexOf USER uids) (indexOf ROLE rids)
      (indexOf GROUP gids) policies (triples, t) =
      .ok (triples ++ policiesStatements regionN access policies t, last) := by
  induction policies generalizing triples t with
  | nil => exact ⟨t, by simp [policiesLoop, policiesStatements]⟩
  | cons policy rest ih =>
    obtain ⟨hu, hg, hr⟩ := hmem policy (List.mem_cons_self _ _)
    obtain ⟨last, hlast⟩ := ih
      (triples ++ nodeStatements POLICY (StringValue policy.PolicyId) policy.record ++ [t] ++
        [parentOf regionN ⟨POLICY, StringValue policy.PolicyId⟩] ++
        attachmentStatements access (StringValue policy.PolicyId))
      (parentOf regionN ⟨POLICY, StringValue policy.PolicyId⟩)
      (fun v hv => h v (List.mem_cons_of_mem _ hv))
      (fun v hv => hmem v (List.mem_cons_of_mem _ hv))
    refine ⟨last, ?_⟩
    unfold policiesLoop
    simp only [addNode_of_accepts hT destType_POLICY (h policy (List.mem_cons_self _ _)),
      new_of_accepts hT,
      policyAttachLoop_of_found hT _ USER _ uids _ _ hu,
      policyAttachLoop_of_found hT _ GROUP _ gids _ _ hg,
      policyAttachLoop_of_found hT _ ROLE _ rids _ _ hr]
    simp only [attachmentStatements, parentOf, List.append_assoc] at hlast ⊢
    rw [hlast]
    simp [policiesStatements, attachmentStatements, parentOf]

theorem userRecords_ids (access : AwsAccess) :
    (userRecords access).map Prod.fst = userIds access := by
  simp [userRecords, userIds]

theorem roleRecords_ids (access : AwsAccess) :
    (roleRecords access).map Prod.fst = roleIds access := by
  simp [roleRecords, roleIds]

/-- A successful access pass returns the closed-form sequence, and no listed member or
attachment is missing. -/
theorem buildAccessRdfTriples_ok {F : TermFactory} {region : String} {access : AwsAccess}
    {triples : List Triple} (h : buildAccessRdfTriples F region access = (triples, none)) :
    triples = accessStatements region access ∧ NoDanglingGroups access ∧
      NoDanglingPolicies access := by
  unfold buildAccessRdfTriples at h
  split at h
  · simp at h
  · next regionN hN =>
    obtain ⟨rfl, -⟩ := newNode_ok hN
    split at h
    · simp at h
    · next t hT =>
      have ht := new_ok hT
      subst ht
      split at h
      · simp at h
      · next ts1 t1 usersIndex hU =>
        obtain ⟨h11, h12, h13⟩ := regionChildrenLoop_ok hU
        simp only [List.append_nil] at h11 h12 h13
        subst h11 h12 h13
        split at h
        · simp at h
        · next ts2 t2 rolesIndex hR =>
          obtain ⟨h21, h22, h23⟩ := regionChildrenLoop_ok hR
          simp only [List.append_nil] at h21 h22 h23
          subst h21 h22 h23
          split at h
          · simp at h
          · next ts3 t3 groupsIndex hG =>
            obtain ⟨h31, h32, h33, h34⟩ := groupsLoop_ok hG
            simp only [List.append_nil] at h31 h32 h33
            subst h31 h32 h33
            split at h
            · simp at h
            · next ts4 t4 hP =>
              obtain ⟨h41, h42⟩ := policiesLoop_ok hP
              simp only [Prod.mk.injEq, and_true] at h
              refine ⟨?_, ?_, ?_⟩
              · rw [← h, h41]
                simp [accessStatements, regionStatement, tAfterRoles, tAfterGroups,
                  userRecords, roleRecords]
              · intro g hg u hu
                have := h34 g hg u hu
                simpa [userIds] using this
              · intro p hp
                obtain ⟨a, b, c⟩ := h42 p hp
                refine ⟨?_, ?_, ?_⟩
                · intro u hu; simpa [userIds] using a u hu
                · intro u hu; simpa [groupIds] using b u hu
                · intro u hu; simpa [roleIds] using c u hu

/-- The access pass succeeds when the constructors accept its terms and no listed member
or attachment is missing. -/
theorem buildAccessRdfTriples_of_accepts {F : TermFactory} {region : String}
    {access : AwsAccess} (h : AcceptsAccess F region access) (hg : NoDanglingGroups access)
    (hp : NoDanglingPolicies access) :
    buildAccessRdfTriples F region access = (accessStatements region access, none) := by
  obtain ⟨hR, hT, hU, hRo, hG, hP⟩ := h
  have hU2 : ∀ r ∈ access.Users.map (fun user => (StringValue user.UserId, user.record)),
      AcceptsRecord F USER r.1 r.2 := by
    intro r hr
    obtain ⟨u, hu, rfl⟩ := List.mem_map.1 hr
    exact hU u hu
  have hRo2 : ∀ r ∈ access.Roles.map (fun role => (StringValue role.RoleId, role.record)),
      AcceptsRecord F ROLE r.1 r.2 := by
    intro r hr
    obtain ⟨u, hu, rfl⟩ := List.mem_map.1 hr
    exact hRo u hu
  have key : ∃ triples, buildAccessRdfTriples F region access = (triples, none) := by
    unfold buildAccessRdfTriples
    simp only [newNode_of_accepts hR, new_of_accepts hT]
    split
    · next ts err hl =>
      rw [regionChildrenLoop_of_accepts hT _ destType_USER _ _ hU2] at hl
      cases hl
    · next ts1 t1 usersIndex hl1 =>
      obtain ⟨-, -, h13⟩ := regionChildrenLoop_ok hl1
      simp only [List.append_nil, List.map_map, Function.comp_def] at h13
      subst h13
      split
      · next ts err hl =>
        rw [regionChildrenLoop_of_accepts hT _ destType_ROLE _ _ hRo2] at hl
        cases hl
      · next ts2 t2 rolesIndex hl2 =>
        obtain ⟨-, -, h23⟩ := regionChildrenLoop_ok hl2
        simp only [List.append_nil, List.map_map, Function.comp_def] at h23
        subst h23
        split
        · next ts err hl =>
          have hgl := groupsLoop_of_accepts hT ⟨REGION, region⟩ access.UsersByGroup
            (access.Users.map fun (x : IamUser) => StringValue x.UserId) access.Groups ⟨ts2, t2, []⟩ hG hg
          rw [hgl] at hl
          cases hl
        · next ts3 t3 groupsIndex hl3 =>
          obtain ⟨-, -, h33, -⟩ := groupsLoop_ok hl3
          simp only [List.append_nil] at h33
          subst h33
          split
          · next ts err hl =>
            obtain ⟨last, hlast⟩ := policiesLoop_of_accepts hT ⟨REGION, region⟩ access
              (access.Users.map fun (x : IamUser) => StringValue x.UserId)
              (access.Roles.map fun (x : IamRole) => StringValue x.RoleId)
              (access.Groups.map fun (x : IamGroup) => StringValue x.GroupId)
              access.LocalPolicies ts3 t3 hP hp
            rw [hlast] at hl
            cases hl
          · exact ⟨_, rfl⟩
  obtain ⟨triples, hts⟩ := key
  rw [hts, (buildAccessRdfTriples_ok hts).1]

/-! ### The public builders -/

theorem BuildAwsAccessGraph_ok {F : TermFactory} {region : String} {access : AwsAccess}
    {g : Graph} (h : BuildAwsAccessGraph F region access = (some g, none)) :
    buildAccessRdfTriples F region access = (g.triples, none) := by
  unfold BuildAwsAccessGraph at h
  rcases hb : buildAccessRdfTriples F region access with ⟨ts, e⟩
  cases e with
  | some err => simp [hb] at h
  | none =>
    simp only [hb, Prod.mk.injEq, Option.some.injEq, and_true] at h
    simp [← h, NewGraphFromTriples]

theorem BuildAwsInfraGraph_ok {F : TermFactory} {region : String} {infra : AwsInfra}
    {g : Graph} (h : BuildAwsInfraGraph F region infra = (some g, none)) :
    buildInfraRdfTriples F region infra = (g.triples, none) := by
  unfold BuildAwsInfraGraph at h
  rcases hb : buildInfraRdfTriples F region infra with ⟨ts, e⟩
  cases e with
  | some err => simp [hb] at h
  | none =>
    simp only [hb, Prod.mk.injEq, Option.some.injEq, and_true] at h
    simp [← h, NewGraphFromTriples]

/-- C7: each public builder returns either a graph and no error, the graph holding the
statements of the internal builder, or no graph and the error of the internal builder,
whatever statements the internal builder returns with that error; the internal builders
do return statements together with an error (a group with a missing member; a subnet
whose id is rejected). -/
theorem build_never_partial (F : TermFactory) (region : String) (access : AwsAccess)
    (infra : AwsInfra) :
    ((∃ g, BuildAwsAccessGraph F region access = (some g, none) ∧
        buildAccessRdfTriples F region access = (g.triples, none)) ∨
      (∃ err triples, BuildAwsAccessGraph F region access = (none, some err) ∧
        buildAccessRdfTriples F region access = (triples, some err))) ∧
    ((∃ g, BuildAwsInfraGraph F region infra = (some g, none) ∧
        buildInfraRdfTriples F region infra = (g.triples, none)) ∨
      (∃ err triples, BuildAwsInfraGraph F region infra = (none, some err) ∧
        buildInfraRdfTriples F region infra = (triples, some err))) ∧
    (buildAccessRdfTriples acceptAll "eu-west-1" danglingGroupAccess =
        ([regionStatement "eu-west-1",
          ⟨⟨GROUP, "g-1"⟩, .hasType, .literal ⟨GROUP⟩⟩,
          ⟨⟨GROUP, "g-1"⟩, .prop "Id", .literal ⟨"g-1"⟩⟩,
          regionStatement "eu-west-1",
          parentOf ⟨REGION, "eu-west-1"⟩ ⟨GROUP, "g-1"⟩],
         some "group g-1 has user u-1, but this user does not exist") ∧
      BuildAwsAccessGraph acceptAll "eu-west-1" danglingGroupAccess =
        (none, some "group g-1 has user u-1, but this user does not exist")) ∧
    (buildInfraRdfTriples rejectEmptyId "eu-west-1" unnamedSubnetInfra =
        ([regionStatement "eu-west-1",
          ⟨⟨VPC, "vpc-1"⟩, .hasType, .literal ⟨VPC⟩⟩,
          ⟨⟨VPC, "vpc-1"⟩, .prop "Id", .literal ⟨"vpc-1"⟩⟩,
          parentOf ⟨REGION, "eu-west-1"⟩ ⟨VPC, "vpc-1"⟩],
         some "subnet empty ID") ∧
      BuildAwsInfraGraph rejectEmptyId "eu-west-1" unnamedSubnetInfra =
        (none, some "subnet empty ID")) := by
  refine ⟨?_, ?_, ⟨rfl, rfl⟩, ⟨rfl, rfl⟩⟩
  · unfold BuildAwsAccessGraph
    rcases hb : buildAccessRdfTriples F region access with ⟨ts, e⟩
    cases e with
    | some err => exact Or.inr ⟨err, ts, rfl, rfl⟩
    | none => exact Or.inl ⟨_, rfl, rfl⟩
  · unfold BuildAwsInfraGraph
    rcases hb : buildInfraRdfTriples F region infra with ⟨ts, e⟩
    cases e with
    | some err => exact Or.inr ⟨err, ts, rfl, rfl⟩
    | none => exact Or.inl ⟨_, rfl, rfl⟩

/-- The public infrastructure builder succeeds when the constructors accept its terms. -/
theorem BuildAwsInfraGraph_of_accepts {F : TermFactory} {region : String} {infra : AwsInfra}
    (h : AcceptsInfra F region infra) :
    BuildAwsInfraGraph F region infra = (some ⟨infraStatements region infra⟩, none) := by
  unfold BuildAwsInfraGraph
  rw [buildInfraRdfTriples_of_accepts h]
  rfl

/-- C6, as stated, fails: whatever the term constructors accept, no statement of the
worked example has a predicate named `instanceType`; the instance type is the object of
the predicate named `Type`, the name of the field of the mapping struct `Instance`. -/
theorem example_infra_has_no_instanceType :
    BuildAwsInfraGraph acceptAll "eu-west-1" exampleInfra =
      (some ⟨[regionStatement "eu-west-1",
        ⟨⟨VPC, "vpc-1"⟩, .hasType, .literal ⟨VPC⟩⟩,
        ⟨⟨VPC, "vpc-1"⟩, .prop "Id", .literal ⟨"vpc-1"⟩⟩,
        parentOf ⟨REGION, "eu-west-1"⟩ ⟨VPC, "vpc-1"⟩,
        ⟨⟨SUBNET, "subnet-1"⟩, .hasType, .literal ⟨SUBNET⟩⟩,
        ⟨⟨SUBNET, "subnet-1"⟩, .prop "Id", .literal ⟨"subnet-1"⟩⟩,
        ⟨⟨SUBNET, "subnet-1"⟩, .prop "VpcId", .literal ⟨"vpc-1"⟩⟩,
        parentOf ⟨VPC, "vpc-1"⟩ ⟨SUBNET, "subnet-1"⟩,
        ⟨⟨INSTANCE, "i-1"⟩, .hasType, .literal ⟨INSTANCE⟩⟩,
        ⟨⟨INSTANCE, "i-1"⟩, .prop "Id", .literal ⟨"i-1"⟩⟩,
        ⟨⟨INSTANCE, "i-1"⟩, .prop "Type", .literal ⟨"t2.micro"⟩⟩,
        ⟨⟨INSTANCE, "i-1"⟩, .prop "SubnetId", .literal ⟨"subnet-1"⟩⟩,
        parentOf ⟨SUBNET, "subnet-1"⟩ ⟨INSTANCE, "i-1"⟩]⟩, none) ∧
    ¬ ∃ (F : TermFactory) (g : Graph),
        BuildAwsInfraGraph F "eu-west-1" exampleInfra = (some g, none) ∧
        ∃ t ∈ g.triples, t.p = .prop "instanceType" := by
  refine ⟨rfl, ?_⟩
  rintro ⟨F, g, h, t, ht, hp⟩
  have hg := buildInfraRdfTriples_ok (BuildAwsInfraGraph_ok h)
  rw [hg] at ht
  have hall : ∀ t ∈ infraStatements "eu-west-1" exampleInfra, t.p ≠ .prop "instanceType" := by
    decide
  exact hall t ht hp

/-- C6, amended: when the term constructors accept the terms of the worked example, the
builder succeeds and the sequence holds the three `ParentOf` statements region to `vpc-1`,
`vpc-1` to `subnet-1` and `subnet-1` to `i-1`, a `HasType` statement for each of the four
nodes, and on node `i-1` a property statement whose predicate is named `Type` and whose
object is the literal `t2.micro`. -/
theorem example_infra_graph (F : TermFactory) (h : AcceptsInfra F "eu-west-1" exampleInfra) :
    ∃ g, BuildAwsInfraGraph F "eu-west-1" exampleInfra = (some g, none) ∧
      parentOf ⟨REGION, "eu-west-1"⟩ ⟨VPC, "vpc-1"⟩ ∈ g.triples ∧
      parentOf ⟨VPC, "vpc-1"⟩ ⟨SUBNET, "subnet-1"⟩ ∈ g.triples ∧
      parentOf ⟨SUBNET, "subnet-1"⟩ ⟨INSTANCE, "i-1"⟩ ∈ g.triples ∧
      ⟨⟨REGION, "eu-west-1"⟩, .hasType, .literal ⟨REGION⟩⟩ ∈ g.triples ∧
      ⟨⟨VPC, "vpc-1"⟩, .hasType, .literal ⟨VPC⟩⟩ ∈ g.triples ∧
      ⟨⟨SUBNET, "subnet-1"⟩, .hasType, .literal ⟨SUBNET⟩⟩ ∈ g.triples ∧
      ⟨⟨INSTANCE, "i-1"⟩, .hasType, .literal ⟨INSTANCE⟩⟩ ∈ g.triples ∧
      ⟨⟨INSTANCE, "i-1"⟩, .prop "Type", .literal ⟨"t2.micro"⟩⟩ ∈ g.triples := by
  refine ⟨_, BuildAwsInfraGraph_of_accepts h, ?_⟩
  decide

theorem example_infra_graph_witness :
    AcceptsInfra acceptAll "eu-west-1" exampleInfra ∧
    ∃ g, BuildAwsInfraGraph acceptAll "eu-west-1" exampleInfra = (some g, none) ∧
      parentOf ⟨REGION, "eu-west-1"⟩ ⟨VPC, "vpc-1"⟩ ∈ g.triples ∧
      parentOf ⟨VPC, "vpc-1"⟩ ⟨SUBNET, "subnet-1"⟩ ∈ g.triples ∧
      parentOf ⟨SUBNET, "subnet-1"⟩ ⟨INSTANCE, "i-1"⟩ ∈ g.triples ∧
      ⟨⟨REGION, "eu-west-1"⟩, .hasType, .literal ⟨REGION⟩⟩ ∈ g.triples ∧
      ⟨⟨VPC, "vpc-1"⟩, .hasType, .literal ⟨VPC⟩⟩ ∈ g.triples ∧
      ⟨⟨SUBNET, "subnet-1"⟩, .hasType, .literal ⟨SUBNET⟩⟩ ∈ g.triples ∧
      ⟨⟨INSTANCE, "i-1"⟩, .hasType, .literal ⟨INSTANCE⟩⟩ ∈ g.triples ∧
      ⟨⟨INSTANCE, "i-1"⟩, .prop "Type", .literal ⟨"t2.micro"⟩⟩ ∈ g.triples :=
  ⟨by simp [AcceptsInfra, AcceptsRecord, AcceptsTriples, acceptAll],
    example_infra_graph acceptAll
      (by simp [AcceptsInfra, AcceptsRecord, AcceptsTriples, acceptAll])⟩

/-! ### Counting in the blocks -/

/-- The statements of a record's block: all about the record's node, the first its
`HasType` statement, the others property statements. -/
theorem mem_nodeStatements {nodeType id : String} {awsNode : AwsRecord} {t : Triple}
    (h : t ∈ nodeStatements nodeType id awsNode) :
    t.s = ⟨nodeType, id⟩ ∧
      ((t.p = .hasType ∧ t.o = .literal ⟨nodeType⟩) ∨
        ∃ name text, t.p = .prop name ∧ t.o = .literal ⟨text⟩ ∧ text ≠ "") := by
  unfold nodeStatements at h
  rcases List.mem_cons.1 h with rfl | h
  · exact ⟨rfl, Or.inl ⟨rfl, rfl⟩⟩
  · obtain ⟨field, _, sourceField, _, hne, rfl⟩ := mem_propertyStatements.1 h
    exact ⟨rfl, Or.inr ⟨field.1, _, rfl, rfl, hne⟩⟩

theorem countP_eq_zero_of_forall {p : Triple → Bool} {l : List Triple}
    (h : ∀ t ∈ l, p t = false) : l.countP p = 0 := by
  rw [List.countP_eq_zero]
  intro t ht
  simp [h t ht]

theorem countP_isHasTypeOf_nodeStatements (n : Node) (nodeType id : String)
    (awsNode : AwsRecord) :
    (nodeStatements nodeType id awsNode).countP (isHasTypeOf n) =
      if (⟨nodeType, id⟩ : Node) = n then 1 else 0 := by
  unfold nodeStatements
  rw [List.countP_cons, countP_eq_zero_of_forall]
  · simp [isHasTypeOf]
  · intro t ht
    obtain ⟨field, _, sourceField, _, _, rfl⟩ := mem_propertyStatements.1 ht
    simp [isHasTypeOf]

theorem countP_isParentOfInto_nodeStatements (n : Node) (nodeType id : String)
    (awsNode : AwsRecord) :
    (nodeStatements nodeType id awsNode).countP (isParentOfInto n) = 0 := by
  apply countP_eq_zero_of_forall
  intro t ht
  obtain ⟨_, h | ⟨name, text, h, _⟩⟩ := mem_nodeStatements ht
  · simp [isParentOfInto, h.1]
  · simp [isParentOfInto, h]

theorem countP_isParentOfFrom_nodeStatements (n : Node) (nodeType id : String)
    (awsNode : AwsRecord) :
    (nodeStatements nodeType id awsNode).countP (isParentOfFrom n) = 0 := by
  apply countP_eq_zero_of_forall
  intro t ht
  obtain ⟨_, h | ⟨name, text, h, _⟩⟩ := mem_nodeStatements ht
  · simp [isParentOfFrom, h.1]
  · simp [isParentOfFrom, h]

/-- Summing, over records with pairwise distinct keys, a quantity that vanishes off the
key of a given record gives the quantity at that record. -/
theorem sum_map_of_nodup {α : Type} (key : α → String) (c : α → Nat) (l : List α)
    (hnd : (l.map key).Nodup) (x : α) (hx : x ∈ l)
    (hc : ∀ y ∈ l, key y ≠ key x → c y = 0) : (l.map c).sum = c x := by
  induction l with
  | nil => cases hx
  | cons a l ih =>
    simp only [List.map_cons, List.nodup_cons, List.mem_map, not_exists, not_and] at hnd
    simp only [List.map_cons, List.sum_cons]
    rcases List.mem_cons.1 hx with rfl | hx
    · have hz : (l.map c).sum = 0 := by
        apply List.sum_eq_zero
        intro v hv
        obtain ⟨y, hy, rfl⟩ := List.mem_map.1 hv
        exact hc y (List.mem_cons_of_mem _ hy) (hnd.1 y hy)
      omega
    · have ha : c a = 0 := by
        apply hc a (List.mem_cons_self _ _)
        intro heq
        exact hnd.1 x hx heq.symm
      have := ih hnd.2 hx (fun y hy => hc y (List.mem_cons_of_mem _ hy))
      omega

/-- Summing a quantity that vanishes at every record gives zero. -/
theorem sum_map_eq_zero {α : Type} (c : α → Nat) (l : List α) (hc : ∀ y ∈ l, c y = 0) :
    (l.map c).sum = 0 := by
  apply List.sum_eq_zero
  intro v hv
  obtain ⟨y, hy, rfl⟩ := List.mem_map.1 hv
  exact hc y hy

/-! ### Counting in the infrastructure sequence -/

theorem countP_isParentOfInto_parentStatements (n : Node) (parents : List Node)
    (parentId : String) (m : Node) :
    (parentStatements parents parentId m).countP (isParentOfInto n) =
      if m = n ∧ (findNodeById parents parentId).isSome then 1 else 0 := by
  unfold parentStatements
  cases findNodeById parents parentId with
  | none => simp
  | some v => simp [isParentOfInto, parentOf, List.countP_cons]

theorem countP_isHasTypeOf_parentStatements (n : Node) (parents : List Node)
    (parentId : String) (m : Node) :
    (parentStatements parents parentId m).countP (isHasTypeOf n) = 0 := by
  unfold parentStatements
  cases findNodeById parents parentId with
  | none => simp
  | some v => simp [isHasTypeOf, parentOf, List.countP_cons]

/-- The number of `ParentOf` statements into a node in the infrastructure sequence. -/
theorem countP_isParentOfInto_infra (region : String) (infra : AwsInfra) (n : Node) :
    (infraStatements region infra).countP (isParentOfInto n) =
      (infra.Vpcs.map fun vpc =>
        if (⟨VPC, StringValue vpc.VpcId⟩ : Node) = n then 1 else 0).sum +
      (infra.Subnets.map fun subnet =>
        if (⟨SUBNET, StringValue subnet.SubnetId⟩ : Node) = n ∧
          (findNodeById (vpcNodesOf infra) (StringValue subnet.VpcId)).isSome
        then 1 else 0).sum +
      (infra.Instances.map fun inst =>
        if (⟨INSTANCE, StringValue inst.InstanceId⟩ : Node) = n ∧
          (findNodeById (subnetNodesOf infra) (StringValue inst.SubnetId)).isSome
        then 1 else 0).sum := by
  unfold infraStatements
  rw [List.countP_append, List.countP_append, List.countP_cons, List.countP_flatMap,
    List.countP_flatMap, List.countP_flatMap]
  have h0 : isParentOfInto n (regionStatement region) = false := by
    simp [isParentOfInto, regionStatement]
  have h1 : (List.countP (isParentOfInto n) ∘ vpcStatements ⟨REGION, region⟩) =
      fun vpc => if (⟨VPC, StringValue vpc.VpcId⟩ : Node) = n then 1 else 0 := by
    funext vpc
    simp [vpcStatements, List.countP_append, countP_isParentOfInto_nodeStatements,
      List.countP_cons, isParentOfInto, parentOf]
  have h2 : (List.countP (isParentOfInto n) ∘ subnetStatements (vpcNodesOf infra)) =
      fun subnet => if (⟨SUBNET, StringValue subnet.SubnetId⟩ : Node) = n ∧
          (findNodeById (vpcNodesOf infra) (StringValue subnet.VpcId)).isSome
        then 1 else 0 := by
    funext subnet
    simp [subnetStatements, List.countP_append, countP_isParentOfInto_nodeStatements,
      countP_isParentOfInto_parentStatements]
  have h3 : (List.countP (isParentOfInto n) ∘ instanceStatements (subnetNodesOf infra)) =
      fun inst => if (⟨INSTANCE, StringValue inst.InstanceId⟩ : Node) = n ∧
          (findNodeById (subnetNodesOf infra) (StringValue inst.SubnetId)).isSome
        then 1 else 0 := by
    funext inst
    simp [instanceStatements, List.countP_append, countP_isParentOfInto_nodeStatements,
      countP_isParentOfInto_parentStatements]
  rw [h1, h2, h3, h0]
  simp

/-- The number of `HasType` statements of a node other than the region node in the
infrastructure sequence. -/
theorem countP_isHasTypeOf_infra (region : String) (infra : AwsInfra) (n : Node)
    (hn : n.kind ≠ REGION) :
    (infraStatements region infra).countP (isHasTypeOf n) =
      (infra.Vpcs.map fun vpc =>
        if (⟨VPC, StringValue vpc.VpcId⟩ : Node) = n then 1 else 0).sum +
      (infra.Subnets.map fun subnet =>
        if (⟨SUBNET, StringValue subnet.SubnetId⟩ : Node) = n then 1 else 0).sum +
      (infra.Instances.map fun inst =>
        if (⟨INSTANCE, StringValue inst.InstanceId⟩ : Node) = n then 1 else 0).sum := by
  unfold infraStatements
  rw [List.countP_append, List.countP_append, List.countP_cons, List.countP_flatMap,
    List.countP_flatMap, List.countP_flatMap]
  have h0 : isHasTypeOf n (regionStatement region) = false := by
    have : (⟨REGION, region⟩ : Node) ≠ n := by
      rintro rfl
      exact hn rfl
    simp [isHasTypeOf, regionStatement, this]
  have h1 : (List.countP (isHasTypeOf n) ∘ vpcStatements ⟨REGION, region⟩) =
      fun vpc => if (⟨VPC, StringValue vpc.VpcId⟩ : Node) = n then 1 else 0 := by
    funext vpc
    simp [vpcStatements, List.countP_append, countP_isHasTypeOf_nodeStatements,
      List.countP_cons, isHasTypeOf, parentOf]
  have h2 : (List.countP (isHasTypeOf n) ∘ subnetStatements (vpcNodesOf infra)) =
      fun subnet => if (⟨SUBNET, StringValue subnet.SubnetId⟩ : Node) = n then 1 else 0 := by
    funext subnet
    simp [subnetStatements, List.countP_append, countP_isHasTypeOf_nodeStatements,
      countP_isHasTypeOf_parentStatements]
  have h3 : (List.countP (isHasTypeOf n) ∘ instanceStatements (subnetNodesOf infra)) =
      fun inst => if (⟨INSTANCE, StringValue inst.InstanceId⟩ : Node) = n then 1 else 0 := by
    funext inst
    simp [instanceStatements, List.countP_append, countP_isHasTypeOf_nodeStatements,
      countP_isHasTypeOf_parentStatements]
  rw [h1, h2, h3, h0]
  simp

theorem kinds_distinct :
    VPC ≠ SUBNET ∧ VPC ≠ INSTANCE ∧ SUBNET ≠ INSTANCE ∧ REGION ≠ VPC ∧ REGION ≠ SUBNET ∧
      REGION ≠ INSTANCE := by decide

/-- With pairwise distinct vpc ids, the vpc record of a node is counted once. -/
theorem sum_vpc_of_nodup (infra : AwsInfra)
    (hnd : (infra.Vpcs.map fun vpc => StringValue vpc.VpcId).Nodup) (vpc : Ec2Vpc)
    (hv : vpc ∈ infra.Vpcs) :
    (infra.Vpcs.map fun y =>
      if (⟨VPC, StringValue y.VpcId⟩ : Node) = ⟨VPC, StringValue vpc.VpcId⟩
      then 1 else 0).sum = 1 := by
  rw [sum_map_of_nodup (fun y : Ec2Vpc => StringValue y.VpcId) _ _ hnd vpc hv]
  · simp
  · intro y _ hne
    simp [hne]

theorem sum_subnet_of_nodup (infra : AwsInfra)
    (hnd : (infra.Subnets.map fun subnet => StringValue subnet.SubnetId).Nodup)
    (subnet : Ec2Subnet) (hs : subnet ∈ infra.Subnets) (c : Ec2Subnet → Prop)
    [DecidablePred c] :
    (infra.Subnets.map fun y =>
      if (⟨SUBNET, StringValue y.SubnetId⟩ : Node) = ⟨SUBNET, StringValue subnet.SubnetId⟩ ∧ c y
      then 1 else 0).sum = if c subnet then 1 else 0 := by
  rw [sum_map_of_nodup (fun y : Ec2Subnet => StringValue y.SubnetId) _ _ hnd subnet hs]
  · simp
  · intro y _ hne
    simp [hne]

theorem sum_instance_of_nodup (infra : AwsInfra)
    (hnd : (infra.Instances.map fun inst => StringValue inst.InstanceId).Nodup)
    (inst : Ec2Instance) (hi : inst ∈ infra.Instances) (c : Ec2Instance → Prop)
    [DecidablePred c] :
    (infra.Instances.map fun y =>
      if (⟨INSTANCE, StringValue y.InstanceId⟩ : Node) =
        ⟨INSTANCE, StringValue inst.InstanceId⟩ ∧ c y
      then 1 else 0).sum = if c inst then 1 else 0 := by
  rw [sum_map_of_nodup (fun y : Ec2Instance => StringValue y.InstanceId) _ _ hnd inst hi]
  · simp
  · intro y _ hne
    simp [hne]

/-- A sum of indicators of nodes of another kind vanishes. -/
theorem sum_other_kind {α : Type} (l : List α) (kind : String) (key : α → String) (n : Node)
    (c : α → Prop) [DecidablePred c] (hk : kind ≠ n.kind) :
    (l.map fun y => if (⟨kind, key y⟩ : Node) = n ∧ c y then 1 else 0).sum = 0 := by
  apply sum_map_eq_zero
  intro y _
  have : (⟨kind, key y⟩ : Node) ≠ n := by
    rintro rfl
    exact hk rfl
  simp [this]

theorem sum_other_kind_plain {α : Type} (l : List α) (kind : String) (key : α → String)
    (n : Node) (hk : kind ≠ n.kind) :
    (l.map fun y => if (⟨kind, key y⟩ : Node) = n then 1 else 0).sum = 0 := by
  apply sum_map_eq_zero
  intro y _
  have : (⟨kind, key y⟩ : Node) ≠ n := by
    rintro rfl
    exact hk rfl
  simp [this]

theorem mem_parentStatements {parents : List Node} {parentId : String} {m : Node}
    {t : Triple} :
    t ∈ parentStatements parents parentId m ↔
      ∃ v, findNodeById parents parentId = some v ∧ t = parentOf v m := by
  unfold parentStatements
  cases findNodeById parents parentId with
  | none => simp
  | some v => simp

theorem mem_infraStatements {region : String} {infra : AwsInfra} {t : Triple} :
    t ∈ infraStatements region infra ↔
      t = regionStatement region ∨
      (∃ vpc ∈ infra.Vpcs, t ∈ vpcStatements ⟨REGION, region⟩ vpc) ∨
      (∃ subnet ∈ infra.Subnets, t ∈ subnetStatements (vpcNodesOf infra) subnet) ∨
      (∃ inst ∈ infra.Instances, t ∈ instanceStatements (subnetNodesOf infra) inst) := by
  simp only [infraStatements, List.mem_append, List.mem_cons, List.mem_flatMap, or_assoc]

/-- The parent found for a subnet is the vpc node of the id the subnet names. -/
theorem findNodeById_vpcNodesOf {infra : AwsInfra} {id : String} {v : Node}
    (h : findNodeById (vpcNodesOf infra) id = some v) :
    v = ⟨VPC, id⟩ ∧ ∃ vpc ∈ infra.Vpcs, StringValue vpc.VpcId = id := by
  obtain ⟨hmem, hid⟩ := findNodeById_some h
  obtain ⟨vpc, hvpc, rfl⟩ := List.mem_map.1 hmem
  exact ⟨by simp at hid; simp [hid], vpc, hvpc, hid⟩

theorem findNodeById_subnetNodesOf {infra : AwsInfra} {id : String} {v : Node}
    (h : findNodeById (subnetNodesOf infra) id = some v) :
    v = ⟨SUBNET, id⟩ ∧ ∃ subnet ∈ infra.Subnets, StringValue subnet.SubnetId = id := by
  obtain ⟨hmem, hid⟩ := findNodeById_some h
  obtain ⟨subnet, hsubnet, rfl⟩ := List.mem_map.1 hmem
  exact ⟨by simp at hid; simp [hid], subnet, hsubnet, hid⟩

theorem findNodeById_vpcNodesOf_isSome {infra : AwsInfra} {vpc : Ec2Vpc}
    (h : vpc ∈ infra.Vpcs) :
    (findNodeById (vpcNodesOf infra) (StringValue vpc.VpcId)).isSome := by
  cases hf : findNodeById (vpcNodesOf infra) (StringValue vpc.VpcId) with
  | some v => rfl
  | none =>
    have := findNodeById_none.1 hf ⟨VPC, StringValue vpc.VpcId⟩
      (List.mem_map.2 ⟨vpc, h, rfl⟩)
    exact absurd rfl this

theorem findNodeById_subnetNodesOf_isSome {infra : AwsInfra} {subnet : Ec2Subnet}
    (h : subnet ∈ infra.Subnets) :
    (findNodeById (subnetNodesOf infra) (StringValue subnet.SubnetId)).isSome := by
  cases hf : findNodeById (subnetNodesOf infra) (StringValue subnet.SubnetId) with
  | some v => rfl
  | none =>
    have := findNodeById_none.1 hf ⟨SUBNET, StringValue subnet.SubnetId⟩
      (List.mem_map.2 ⟨subnet, h, rfl⟩)
    exact absurd rfl this

/-- Every `ParentOf` statement of the infrastructure sequence into a subnet node or an
instance node comes from a record of that id and leaves the node of the parent that the
record names. -/
theorem parentOfInto_infra {region : String} {infra : AwsInfra} {t : Triple} {n : Node}
    (ht : t ∈ infraStatements region infra) (hp : isParentOfInto n t = true) :
    (n.kind = VPC ∧ t.s = ⟨REGION, region⟩) ∨
    (∃ subnet ∈ infra.Subnets, n = ⟨SUBNET, StringValue subnet.SubnetId⟩ ∧
      t.s = ⟨VPC, StringValue subnet.VpcId⟩) ∨
    (∃ inst ∈ infra.Instances, n = ⟨INSTANCE, StringValue inst.InstanceId⟩ ∧
      t.s = ⟨SUBNET, StringValue inst.SubnetId⟩) := by
  simp only [isParentOfInto, decide_eq_true_eq] at hp
  obtain ⟨hp1, hp2⟩ := hp
  rcases mem_infraStatements.1 ht with rfl | ⟨vpc, hv, hm⟩ | ⟨subnet, hs, hm⟩ | ⟨inst, hi, hm⟩
  · simp [regionStatement] at hp1
  · rcases List.mem_append.1 hm with hm | hm
    · obtain ⟨_, h | ⟨_, _, h, _⟩⟩ := mem_nodeStatements hm <;> simp [hp1] at h
    · simp only [List.mem_singleton] at hm
      subst hm
      simp only [parentOf, Object.node.injEq] at hp2
      exact Or.inl ⟨by rw [← hp2], rfl⟩
  · rcases List.mem_append.1 hm with hm | hm
    · obtain ⟨_, h | ⟨_, _, h, _⟩⟩ := mem_nodeStatements hm <;> simp [hp1] at h
    · obtain ⟨v, hf, rfl⟩ := mem_parentStatements.1 hm
      simp only [parentOf, Object.node.injEq] at hp2
      exact Or.inr (Or.inl ⟨subnet, hs, hp2.symm, (findNodeById_vpcNodesOf hf).1⟩)
  · rcases List.mem_append.1 hm with hm | hm
    · obtain ⟨_, h | ⟨_, _, h, _⟩⟩ := mem_nodeStatements hm <;> simp [hp1] at h
    · obtain ⟨v, hf, rfl⟩ := mem_parentStatements.1 hm
      simp only [parentOf, Object.node.injEq] at hp2
      exact Or.inr (Or.inr ⟨inst, hi, hp2.symm, (findNodeById_subnetNodesOf hf).1⟩)

/-- C4: on every successful infrastructure pass, with pairwise distinct subnet ids and
pairwise distinct instance ids, a subnet record whose `VpcId` is the id of a vpc record is
the object of exactly one `ParentOf` statement, whose subject is the node of that vpc, and
the subject of exactly one `HasType` statement; likewise an instance record whose
`SubnetId` is the id of a subnet record, with the node of that subnet. -/
theorem infra_resolved_parents (F : TermFactory) (region : String) (infra : AwsInfra)
    (g : Graph) (h : BuildAwsInfraGraph F region infra = (some g, none))
    (hs : (infra.Subnets.map fun subnet => StringValue subnet.SubnetId).Nodup)
    (hi : (infra.Instances.map fun inst => StringValue inst.InstanceId).Nodup) :
    (∀ subnet ∈ infra.Subnets, ∀ vpc ∈ infra.Vpcs,
      StringValue subnet.VpcId = StringValue vpc.VpcId →
        g.triples.countP (isParentOfInto ⟨SUBNET, StringValue subnet.SubnetId⟩) = 1 ∧
        (∀ t ∈ g.triples, isParentOfInto ⟨SUBNET, StringValue subnet.SubnetId⟩ t = true →
          t.s = ⟨VPC, StringValue vpc.VpcId⟩) ∧
        g.triples.countP (isHasTypeOf ⟨SUBNET, StringValue subnet.SubnetId⟩) = 1) ∧
    (∀ inst ∈ infra.Instances, ∀ subnet ∈ infra.Subnets,
      StringValue inst.SubnetId = StringValue subnet.SubnetId →
        g.triples.countP (isParentOfInto ⟨INSTANCE, StringValue inst.InstanceId⟩) = 1 ∧
        (∀ t ∈ g.triples, isParentOfInto ⟨INSTANCE, StringValue inst.InstanceId⟩ t = true →
          t.s = ⟨SUBNET, StringValue subnet.SubnetId⟩) ∧
        g.triples.countP (isHasTypeOf ⟨INSTANCE, StringValue inst.InstanceId⟩) = 1) := by
  have hg := buildInfraRdfTriples_ok (BuildAwsInfraGraph_ok h)
  rw [hg]
  obtain ⟨k1, k2, k3, k4, k5, k6⟩ := kinds_distinct
  refine ⟨fun subnet hsub vpc hvpc heq => ⟨?_, ?_, ?_⟩, fun inst hinst subnet hsub heq => ⟨?_, ?_, ?_⟩⟩
  · rw [countP_isParentOfInto_infra, sum_other_kind_plain _ VPC _ _ k1,
      sum_subnet_of_nodup infra hs subnet hsub
        (fun y => (findNodeById (vpcNodesOf infra) (StringValue y.VpcId)).isSome),
      sum_other_kind _ INSTANCE _ _ _ (Ne.symm k3)]
    rw [heq]
    simp [findNodeById_vpcNodesOf_isSome hvpc]
  · intro t ht hp
    rcases parentOfInto_infra ht hp with ⟨hk, _⟩ | ⟨y, hy, hn, hsubj⟩ | ⟨y, _, hn, _⟩
    · exact absurd hk (Ne.symm k1)
    · simp only [Node.mk.injEq, true_and] at hn
      have hsame : subnet = y :=
        List.inj_on_of_nodup_map hs hsub hy hn
      subst hsame
      rw [hsubj, heq]
    · simp only [Node.mk.injEq] at hn
      exact absurd hn.1 k3
  · rw [countP_isHasTypeOf_infra _ _ _ (Ne.symm k5), sum_other_kind_plain _ VPC _ _ k1,
      sum_other_kind_plain _ INSTANCE _ _ (Ne.symm k3)]
    have := sum_subnet_of_nodup infra hs subnet hsub (fun _ => True)
    simpa using this
  · rw [countP_isParentOfInto_infra, sum_other_kind_plain _ VPC _ _ k2,
      sum_other_kind _ SUBNET _ _ _ k3,
      sum_instance_of_nodup infra hi inst hinst
        (fun y => (findNodeById (subnetNodesOf infra) (StringValue y.SubnetId)).isSome)]
    rw [heq]
    simp [findNodeById_subnetNodesOf_isSome hsub]
  · intro t ht hp
    rcases parentOfInto_infra ht hp with ⟨hk, _⟩ | ⟨y, _, hn, _⟩ | ⟨y, hy, hn, hsubj⟩
    · exact absurd hk (Ne.symm k2)
    · simp only [Node.mk.injEq] at hn
      exact absurd hn.1 (Ne.symm k3)
    · simp only [Node.mk.injEq, true_and] at hn
      have hsame : inst = y :=
        List.inj_on_of_nodup_map hi hinst hy hn
      subst hsame
      rw [hsubj, heq]
  · rw [countP_isHasTypeOf_infra _ _ _ (Ne.symm k6), sum_other_kind_plain _ VPC _ _ k2,
      sum_other_kind_plain _ SUBNET _ _ k3]
    have := sum_instance_of_nodup infra hi inst hinst (fun _ => True)
    simpa using this

theorem infra_resolved_parents_witness :
    ∃ g, BuildAwsInfraGraph acceptAll "eu-west-1" exampleInfra = (some g, none) ∧
      g.triples.countP (isParentOfInto ⟨SUBNET, "subnet-1"⟩) = 1 ∧
      (∀ t ∈ g.triples, isParentOfInto ⟨SUBNET, "subnet-1"⟩ t = true →
        t.s = ⟨VPC, "vpc-1"⟩) ∧
      g.triples.countP (isHasTypeOf ⟨SUBNET, "subnet-1"⟩) = 1 :=
  ⟨_, rfl,
    (infra_resolved_parents acceptAll "eu-west-1" exampleInfra _ rfl (by decide)
      (by decide)).1 ⟨some "subnet-1", some "vpc-1"⟩ (by decide) ⟨some "vpc-1"⟩ (by decide) rfl⟩

theorem findNodeById_vpcNodesOf_none {infra : AwsInfra} {id : String}
    (h : ∀ vpc ∈ infra.Vpcs, StringValue vpc.VpcId ≠ id) :
    findNodeById (vpcNodesOf infra) id = none := by
  rw [findNodeById_none]
  intro n hn
  obtain ⟨vpc, hvpc, rfl⟩ := List.mem_map.1 hn
  exact h vpc hvpc

theorem findNodeById_subnetNodesOf_none {infra : AwsInfra} {id : String}
    (h : ∀ subnet ∈ infra.Subnets, StringValue subnet.SubnetId ≠ id) :
    findNodeById (subnetNodesOf infra) id = none := by
  rw [findNodeById_none]
  intro n hn
  obtain ⟨subnet, hsubnet, rfl⟩ := List.mem_map.1 hn
  exact h subnet hsubnet

/-- C5, as stated, fails: two subnet records share the id `s`; the second names a vpc
that has no record, and the node of that subnet is still the object of one `ParentOf`
statement, the one of the first record. -/
theorem orphan_subnet_shared_id :
    AcceptsInfra acceptAll "eu-west-1" sharedIdInfra ∧
    ∃ g, BuildAwsInfraGraph acceptAll "eu-west-1" sharedIdInfra = (some g, none) ∧
      (⟨some "s", some "vpc-x"⟩ : Ec2Subnet) ∈ sharedIdInfra.Subnets ∧
      (∀ vpc ∈ sharedIdInfra.Vpcs, StringValue vpc.VpcId ≠ "vpc-x") ∧
      g.triples.countP (isParentOfInto ⟨SUBNET, "s"⟩) = 1 ∧
      parentOf ⟨VPC, "vpc-1"⟩ ⟨SUBNET, "s"⟩ ∈ g.triples :=
  ⟨by simp [AcceptsInfra, AcceptsRecord, AcceptsTriples, acceptAll],
    _, rfl, by decide, by decide, by decide, by decide⟩

/-- C5, amended: when the term constructors accept every term of the snapshot, the
builder succeeds whatever the parent references are; the block of a subnet whose `VpcId`
is the id of no vpc record (its `HasType` statement, then one property statement per
non-empty mapped attribute) is in the sequence, and when the subnet ids are pairwise
distinct its node is the object of no `ParentOf` statement; likewise for an instance
whose `SubnetId` is the id of no subnet record, with pairwise distinct instance ids. -/
theorem infra_orphans (F : TermFactory) (region : String) (infra : AwsInfra)
    (h : AcceptsInfra F region infra) :
    ∃ g, BuildAwsInfraGraph F region infra = (some g, none) ∧
      (∀ subnet ∈ infra.Subnets,
        (∀ vpc ∈ infra.Vpcs, StringValue vpc.VpcId ≠ StringValue subnet.VpcId) →
          (∃ before after, g.triples =
            before ++ nodeStatements SUBNET (StringValue subnet.SubnetId) subnet.record ++
              after) ∧
          ((infra.Subnets.map fun s => StringValue s.SubnetId).Nodup →
            g.triples.countP (isParentOfInto ⟨SUBNET, StringValue subnet.SubnetId⟩) = 0)) ∧
      (∀ inst ∈ infra.Instances,
        (∀ subnet ∈ infra.Subnets, StringValue subnet.SubnetId ≠ StringValue inst.SubnetId) →
          (∃ before after, g.triples =
            before ++ nodeStatements INSTANCE (StringValue inst.InstanceId) inst.record ++
              after) ∧
          ((infra.Instances.map fun i => StringValue i.InstanceId).Nodup →
            g.triples.countP (isParentOfInto ⟨INSTANCE, StringValue inst.InstanceId⟩) = 0)) := by
  refine ⟨_, BuildAwsInfraGraph_of_accepts h, ?_, ?_⟩
  · intro subnet hsub horphan
    have hnone := findNodeById_vpcNodesOf_none horphan
    obtain ⟨k1, k2, k3, k4, k5, k6⟩ := kinds_distinct
    constructor
    · obtain ⟨l1, l2, hl⟩ := List.append_of_mem hsub
      refine ⟨regionStatement region :: infra.Vpcs.flatMap (vpcStatements ⟨REGION, region⟩) ++
        l1.flatMap (subnetStatements (vpcNodesOf infra)),
        l2.flatMap (subnetStatements (vpcNodesOf infra)) ++
        infra.Instances.flatMap (instanceStatements (subnetNodesOf infra)), ?_⟩
      simp only [infraStatements, hl, List.flatMap_append, List.flatMap_cons,
        subnetStatements, parentStatements, hnone, List.append_nil, List.append_assoc,
        List.cons_append]
    · intro hs
      show (infraStatements region infra).countP _ = 0
      rw [countP_isParentOfInto_infra, sum_other_kind_plain _ VPC _ _ k1,
        sum_subnet_of_nodup infra hs subnet hsub
          (fun y => (findNodeById (vpcNodesOf infra) (StringValue y.VpcId)).isSome),
        sum_other_kind _ INSTANCE _ _ _ (Ne.symm k3)]
      simp [hnone]
  · intro inst hinst horphan
    have hnone := findNodeById_subnetNodesOf_none horphan
    obtain ⟨k1, k2, k3, k4, k5, k6⟩ := kinds_distinct
    constructor
    · obtain ⟨l1, l2, hl⟩ := List.append_of_mem hinst
      refine ⟨regionStatement region :: infra.Vpcs.flatMap (vpcStatements ⟨REGION, region⟩) ++
        infra.Subnets.flatMap (subnetStatements (vpcNodesOf infra)) ++
        l1.flatMap (instanceStatements (subnetNodesOf infra)),
        l2.flatMap (instanceStatements (subnetNodesOf infra)), ?_⟩
      simp only [infraStatements, hl, List.flatMap_append, List.flatMap_cons,
        instanceStatements, parentStatements, hnone, List.append_nil, List.append_assoc,
        List.cons_append]
    · intro hi
      show (infraStatements region infra).countP _ = 0
      rw [countP_isParentOfInto_infra, sum_other_kind_plain _ VPC _ _ k2,
        sum_other_kind _ SUBNET _ _ _ k3,
        sum_instance_of_nodup infra hi inst hinst
          (fun y => (findNodeById (subnetNodesOf infra) (StringValue y.SubnetId)).isSome)]
      simp [hnone]

theorem infra_orphans_witness :
    AcceptsInfra acceptAll "eu-west-1" orphanInfra ∧
    ∃ g, BuildAwsInfraGraph acceptAll "eu-west-1" orphanInfra = (some g, none) ∧
      (∀ subnet ∈ orphanInfra.Subnets,
        (∀ vpc ∈ orphanInfra.Vpcs, StringValue vpc.VpcId ≠ StringValue subnet.VpcId) →
          (∃ before after, g.triples =
            before ++ nodeStatements SUBNET (StringValue subnet.SubnetId) subnet.record ++
              after) ∧
          ((orphanInfra.Subnets.map fun s => StringValue s.SubnetId).Nodup →
            g.triples.countP (isParentOfInto ⟨SUBNET, StringValue subnet.SubnetId⟩) = 0)) ∧
      (∀ inst ∈ orphanInfra.Instances,
        (∀ subnet ∈ orphanInfra.Subnets,
          StringValue subnet.SubnetId ≠ StringValue inst.SubnetId) →
          (∃ before after, g.triples =
            before ++ nodeStatements INSTANCE (StringValue inst.InstanceId) inst.record ++
              after) ∧
          ((orphanInfra.Instances.map fun i => StringValue i.InstanceId).Nodup →
            g.triples.countP (isParentOfInto ⟨INSTANCE, StringValue inst.InstanceId⟩) = 0)) :=
  ⟨by simp [AcceptsInfra, AcceptsRecord, AcceptsTriples, acceptAll],
    infra_orphans acceptAll "eu-west-1" orphanInfra
      (by simp [AcceptsInfra, AcceptsRecord, AcceptsTriples, acceptAll])⟩

/-! ### Counting in the access sequence

The statements re-appended through the outer variable `t` are the region statement,
edges from the region, or edges from a group to a user. -/

theorem getLast?_getD_mem_or {α : Type} (l : List α) (d : α) :
    (l.getLast?).getD d = d ∨ (l.getLast?).getD d ∈ l := by
  cases h : l.getLast? with
  | none => exact Or.inl rfl
  | some y => exact Or.inr (List.mem_of_getLast?_eq_some h)

theorem mem_memberStatements {n : Node} {kind : String} {ids : List String} {t : Triple} :
    t ∈ memberStatements n kind ids ↔ ∃ id ∈ ids, t = parentOf n ⟨kind, id⟩ := by
  simp [memberStatements, eq_comm]

section Counting

variable (p : Triple → Bool) (regionN : Node)

theorem countP_regionChildrenStatements (kind : String) (records : List (String × AwsRecord))
    (t : Triple) (ht : p t = false) (hp2 : ∀ o, p (parentOf regionN o) = false) :
    (regionChildrenStatements regionN kind records t).countP p =
      (records.map fun r => (nodeStatements kind r.1 r.2).countP p).sum := by
  induction records generalizing t with
  | nil => simp [regionChildrenStatements]
  | cons r rest ih =>
    obtain ⟨id, rec⟩ := r
    simp [regionChildrenStatements, List.countP_append, List.countP_cons, ht, hp2,
      ih _ (hp2 _)]

theorem p_regionChildrenLast (kind : String) (records : List (String × AwsRecord))
    (t : Triple) (ht : p t = false) (hp2 : ∀ o, p (parentOf regionN o) = false) :
    p (regionChildrenLast regionN kind records t) = false := by
  induction records generalizing t with
  | nil => simpa [regionChildrenLast] using ht
  | cons r rest ih =>
    obtain ⟨id, rec⟩ := r
    simpa [regionChildrenLast] using ih _ (hp2 _)

theorem p_groupLast (usersByGroup : String → List String) (group : IamGroup)
    (hp2 : ∀ o, p (parentOf regionN o) = false)
    (hp3 : ∀ g u, p (parentOf ⟨GROUP, g⟩ ⟨USER, u⟩) = false) :
    p (groupLast regionN usersByGroup group) = false := by
  unfold groupLast
  rcases getLast?_getD_mem_or
    (memberStatements ⟨GROUP, StringValue group.GroupId⟩ USER
      (usersByGroup (StringValue group.GroupId)))
    (parentOf regionN ⟨GROUP, StringValue group.GroupId⟩) with h | h
  · rw [h]; exact hp2 _
  · obtain ⟨id, _, hid⟩ := mem_memberStatements.1 h
    rw [hid]; exact hp3 _ _

theorem countP_memberStatements_group (g : String) (ids : List String)
    (hp3 : ∀ g u, p (parentOf ⟨GROUP, g⟩ ⟨USER, u⟩) = false) :
    (memberStatements ⟨GROUP, g⟩ USER ids).countP p = 0 := by
  apply countP_eq_zero_of_forall
  intro t ht
  obtain ⟨id, _, rfl⟩ := mem_memberStatements.1 ht
  exact hp3 _ _

theorem countP_groupsStatements (usersByGroup : String → List String)
    (groups : List IamGroup) (t : Triple) (ht : p t = false)
    (hp2 : ∀ o, p (parentOf regionN o) = false)
    (hp3 : ∀ g u, p (parentOf ⟨GROUP, g⟩ ⟨USER, u⟩) = false) :
    (groupsStatements regionN usersByGroup groups t).countP p =
      (groups.map fun group =>
        (nodeStatements GROUP (StringValue group.GroupId) group.record).countP p).sum := by
  induction groups generalizing t with
  | nil => simp [groupsStatements]
  | cons group rest ih =>
    simp [groupsStatements, List.countP_append, List.countP_cons, ht, hp2,
      countP_memberStatements_group p _ _ hp3,
      ih _ (p_groupLast p regionN usersByGroup group hp2 hp3)]

theorem p_groupsLast (usersByGroup : String → List String) (groups : List IamGroup)
    (t : Triple) (ht : p t = false) (hp2 : ∀ o, p (parentOf regionN o) = false)
    (hp3 : ∀ g u, p (parentOf ⟨GROUP, g⟩ ⟨USER, u⟩) = false) :
    p (groupsLast regionN usersByGroup groups t) = false := by
  induction groups generalizing t with
  | nil => simpa [groupsLast] using ht
  | cons group rest ih =>
    simpa [groupsLast] using ih _ (p_groupLast p regionN usersByGroup group hp2 hp3)

theorem countP_policiesStatements (access : AwsAccess) (policies : List IamPolicy)
    (t : Triple) (ht : p t = false) (hp2 : ∀ o, p (parentOf regionN o) = false) :
    (policiesStatements regionN access policies t).countP p =
      (policies.map fun policy =>
        (nodeStatements POLICY (StringValue policy.PolicyId) policy.record).countP p +
        (attachmentStatements access (StringValue policy.PolicyId)).countP p).sum := by
  induction policies generalizing t with
  | nil => simp [policiesStatements]
  | cons policy rest ih =>
    simp only [policiesStatements, List.countP_append, List.countP_cons, ht, hp2,
      ih _ (hp2 _), List.map_cons, List.sum_cons]
    simp

end Counting

/-- Counting, in the sequence of a successful access pass, the statements with a property
that no re-appended statement has: the count splits over the records. -/
theorem countP_accessStatements (p : Triple → Bool) (region : String) (access : AwsAccess)
    (hp1 : p (regionStatement region) = false)
    (hp2 : ∀ o, p (parentOf ⟨REGION, region⟩ o) = false)
    (hp3 : ∀ g u, p (parentOf ⟨GROUP, g⟩ ⟨USER, u⟩) = false) :
    (accessStatements region access).countP p =
      (access.Users.map fun user =>
        (nodeStatements USER (StringValue user.UserId) user.record).countP p).sum +
      (access.Roles.map fun role =>
        (nodeStatements ROLE (StringValue role.RoleId) role.record).countP p).sum +
      (access.Groups.map fun group =>
        (nodeStatements GROUP (StringValue group.GroupId) group.record).countP p).sum +
      (access.LocalPolicies.map fun policy =>
        (nodeStatements POLICY (StringValue policy.PolicyId) policy.record).countP p +
        (attachmentStatements access (StringValue policy.PolicyId)).countP p).sum := by
  have h1 := p_regionChildrenLast p ⟨REGION, region⟩ USER (userRecords access) _ hp1 hp2
  have h2 : p (tAfterRoles region access) = false :=
    p_regionChildrenLast p ⟨REGION, region⟩ ROLE (roleRecords access) _ h1 hp2
  have h3 : p (tAfterGroups region access) = false :=
    p_groupsLast p ⟨REGION, region⟩ access.UsersByGroup access.Groups _ h2 hp2 hp3
  unfold accessStatements
  rw [List.countP_append, List.countP_append, List.countP_append, List.countP_cons,
    countP_regionChildrenStatements p _ USER _ _ hp1 hp2,
    countP_regionChildrenStatements p _ ROLE _ _ h1 hp2,
    countP_groupsStatements p _ _ _ _ h2 hp2 hp3,
    countP_policiesStatements p _ _ _ _ h3 hp2]
  simp [hp1, userRecords, roleRecords, Function.comp_def]

theorem BuildAwsAccessGraph_triples {F : TermFactory} {region : String} {access : AwsAccess}
    {g : Graph} (h : BuildAwsAccessGraph F region access = (some g, none)) :
    g.triples = accessStatements region access ∧ NoDanglingGroups access ∧
      NoDanglingPolicies access :=
  buildAccessRdfTriples_ok (BuildAwsAccessGraph_ok h)

theorem countP_isParentOfFrom_memberStatements (n m : Node) (kind : String)
    (ids : List String) :
    (memberStatements m kind ids).countP (isParentOfFrom n) =
      if m = n then ids.length else 0 := by
  unfold memberStatements
  by_cases hmn : m = n
  · subst hmn
    rw [if_pos rfl, List.countP_eq_length.2]
    · simp
    · intro t ht
      obtain ⟨id, _, rfl⟩ := List.mem_map.1 ht
      simp [isParentOfFrom, parentOf]
  · rw [if_neg hmn]
    apply countP_eq_zero_of_forall
    intro t ht
    obtain ⟨id, _, rfl⟩ := List.mem_map.1 ht
    simp [isParentOfFrom, parentOf, hmn]

theorem countP_isParentOfFrom_attachmentStatements (access : AwsAccess) (n : Node)
    (policyId : String) :
    (attachmentStatements access policyId).countP (isParentOfFrom n) =
      if (⟨POLICY, policyId⟩ : Node) = n then
        (access.UsersByLocalPolicies policyId).length +
        (access.GroupsByLocalPolicies policyId).length +
        (access.RolesByLocalPolicies policyId).length
      else 0 := by
  unfold attachmentStatements
  simp only [List.countP_append, countP_isParentOfFrom_memberStatements]
  split <;> rfl

theorem access_kinds_distinct :
    REGION ≠ USER ∧ REGION ≠ ROLE ∧ REGION ≠ GROUP ∧ REGION ≠ POLICY ∧ USER ≠ ROLE ∧
      USER ≠ GROUP ∧ USER ≠ POLICY ∧ ROLE ≠ GROUP ∧ ROLE ≠ POLICY ∧ GROUP ≠ POLICY := by
  decide

/-- C3: on every successful access pass with pairwise distinct policy ids, the number of
`ParentOf` statements whose subject is the node of a policy record is the number of user
ids plus the number of group ids plus the number of role ids attached to the id of the
policy. -/
theorem policy_attachment_count (F : TermFactory) (region : String) (access : AwsAccess)
    (g : Graph) (h : BuildAwsAccessGraph F region access = (some g, none))
    (hnd : (policyIds access).Nodup) (policy : IamPolicy)
    (hp : policy ∈ access.LocalPolicies) :
    g.triples.countP (isParentOfFrom ⟨POLICY, StringValue policy.PolicyId⟩) =
      (access.UsersByLocalPolicies (StringValue policy.PolicyId)).length +
      (access.GroupsByLocalPolicies (StringValue policy.PolicyId)).length +
      (access.RolesByLocalPolicies (StringValue policy.PolicyId)).length := by
  obtain ⟨k1, k2, k3, k4, k5, k6, k7, k8, k9, k10⟩ := access_kinds_distinct
  rw [(BuildAwsAccessGraph_triples h).1, countP_accessStatements]
  · simp only [countP_isParentOfFrom_nodeStatements, countP_isParentOfFrom_attachmentStatements,
      List.map_const', List.sum_replicate, smul_zero, zero_add]
    rw [sum_map_of_nodup (fun y : IamPolicy => StringValue y.PolicyId) _ _ hnd policy hp]
    · simp
    · intro y _ hne
      simp [hne]
  · simp [isParentOfFrom, regionStatement]
  · intro o
    simp [isParentOfFrom, parentOf, k4]
  · intro gr u
    simp [isParentOfFrom, parentOf, k10]

theorem policy_attachment_count_witness :
    ∃ g, BuildAwsAccessGraph acceptAll "eu-west-1" exampleAccess = (some g, none) ∧
      g.triples.countP (isParentOfFrom ⟨POLICY, "p-1"⟩) = 1 + 1 + 1 :=
  ⟨_, rfl,
    policy_attachment_count acceptAll "eu-west-1" exampleAccess _ rfl (by decide)
      ⟨some "p-1"⟩ (by decide)⟩

/-! ### Properties of every statement of the access sequence -/

section Forall

variable (Q : Triple → Prop) (regionN : Node)

theorem forall_regionChildrenStatements (kind : String) (records : List (String × AwsRecord))
    (t : Triple) (ht : Q t)
    (hQ : ∀ r ∈ records, (∀ x ∈ nodeStatements kind r.1 r.2, Q x) ∧
      Q (parentOf regionN ⟨kind, r.1⟩)) :
    (∀ x ∈ regionChildrenStatements regionN kind records t, Q x) ∧
      Q (regionChildrenLast regionN kind records t) := by
  induction records generalizing t with
  | nil => exact ⟨by simp [regionChildrenStatements], by simpa [regionChildrenLast] using ht⟩
  | cons r rest ih =>
    obtain ⟨id, rec⟩ := r
    obtain ⟨h1, h2⟩ := hQ (id, rec) (List.mem_cons_self _ _)
    obtain ⟨ih1, ih2⟩ := ih _ h2 fun v hv => hQ v (List.mem_cons_of_mem _ hv)
    refine ⟨?_, by simpa [regionChildrenLast] using ih2⟩
    intro x hx
    simp only [regionChildrenStatements, List.mem_append, List.mem_cons, or_assoc] at hx
    rcases hx with hx | rfl | rfl | hx
    · exact h1 x hx
    · exact ht
    · exact h2
    · exact ih1 x hx

theorem forall_groupsStatements (usersByGroup : String → List String)
    (groups : List IamGroup) (t : Triple) (ht : Q t)
    (hQ : ∀ group ∈ groups,
      (∀ x ∈ nodeStatements GROUP (StringValue group.GroupId) group.record, Q x) ∧
      Q (parentOf regionN ⟨GROUP, StringValue group.GroupId⟩) ∧
      ∀ x ∈ memberStatements ⟨GROUP, StringValue group.GroupId⟩ USER
        (usersByGroup (StringValue group.GroupId)), Q x) :
    (∀ x ∈ groupsStatements regionN usersByGroup groups t, Q x) ∧
      Q (groupsLast regionN usersByGroup groups t) := by
  induction groups generalizing t with
  | nil => exact ⟨by simp [groupsStatements], by simpa [groupsLast] using ht⟩
  | cons group rest ih =>
    obtain ⟨h1, h2, h3⟩ := hQ group (List.mem_cons_self _ _)
    have hlast : Q (groupLast regionN usersByGroup group) := by
      unfold groupLast
      rcases getLast?_getD_mem_or
        (memberStatements ⟨GROUP, StringValue group.GroupId⟩ USER
          (usersByGroup (StringValue group.GroupId)))
        (parentOf regionN ⟨GROUP, StringValue group.GroupId⟩) with h | h
      · rw [h]; exact h2
      · exact h3 _ h
    obtain ⟨ih1, ih2⟩ := ih _ hlast fun v hv => hQ v (List.mem_cons_of_mem _ hv)
    refine ⟨?_, by simpa [groupsLast] using ih2⟩
    intro x hx
    simp only [groupsStatements, List.mem_append, List.mem_cons, or_assoc] at hx
    rcases hx with hx | rfl | rfl | hx | hx
    · exact h1 x hx
    · exact ht
    · exact h2
    · exact h3 x hx
    · exact ih1 x hx

theorem forall_policiesStatements (access : AwsAccess) (policies : List IamPolicy)
    (t : Triple) (ht : Q t)
    (hQ : ∀ policy ∈ policies,
      (∀ x ∈ nodeStatements POLICY (StringValue policy.PolicyId) policy.record, Q x) ∧
      Q (parentOf regionN ⟨POLICY, StringValue policy.PolicyId⟩) ∧
      ∀ x ∈ attachmentStatements access (StringValue policy.PolicyId), Q x) :
    ∀ x ∈ policiesStatements regionN access policies t, Q x := by
  induction policies generalizing t with
  | nil => simp [policiesStatements]
  | cons policy rest ih =>
    obtain ⟨h1, h2, h3⟩ := hQ policy (List.mem_cons_self _ _)
    have ih1 := ih _ h2 fun v hv => hQ v (List.mem_cons_of_mem _ hv)
    intro x hx
    simp only [policiesStatements, List.mem_append, List.mem_cons, or_assoc] at hx
    rcases hx with hx | rfl | rfl | hx | hx
    · exact h1 x hx
    · exact ht
    · exact h2
    · exact h3 x hx
    · exact ih1 x hx

end Forall

/-- A property holds of every statement of the access sequence when it holds of the
region statement, of every block, of every edge from the region to a record, and of every
membership and attachment edge. -/
theorem forall_accessStatements (Q : Triple → Prop) (region : String) (access : AwsAccess)
    (h0 : Q (regionStatement region))
    (hU : ∀ user ∈ access.Users,
      (∀ x ∈ nodeStatements USER (StringValue user.UserId) user.record, Q x) ∧
      Q (parentOf ⟨REGION, region⟩ ⟨USER, StringValue user.UserId⟩))
    (hR : ∀ role ∈ access.Roles,
      (∀ x ∈ nodeStatements ROLE (StringValue role.RoleId) role.record, Q x) ∧
      Q (parentOf ⟨REGION, region⟩ ⟨ROLE, StringValue role.RoleId⟩))
    (hG : ∀ group ∈ access.Groups,
      (∀ x ∈ nodeStatements GROUP (StringValue group.GroupId) group.record, Q x) ∧
      Q (parentOf ⟨REGION, region⟩ ⟨GROUP, StringValue group.GroupId⟩) ∧
      ∀ x ∈ memberStatements ⟨GROUP, StringValue group.GroupId⟩ USER
        (access.UsersByGroup (StringValue group.GroupId)), Q x)
    (hP : ∀ policy ∈ access.LocalPolicies,
      (∀ x ∈ nodeStatements POLICY (StringValue policy.PolicyId) policy.record, Q x) ∧
      Q (parentOf ⟨REGION, region⟩ ⟨POLICY, StringValue policy.PolicyId⟩) ∧
      ∀ x ∈ attachmentStatements access (StringValue policy.PolicyId), Q x) :
    ∀ x ∈ accessStatements region access, Q x := by
  have hU2 : ∀ r ∈ userRecords access, (∀ x ∈ nodeStatements USER r.1 r.2, Q x) ∧
      Q (parentOf ⟨REGION, region⟩ ⟨USER, r.1⟩) := by
    intro r hr
    obtain ⟨u, hu, rfl⟩ := List.mem_map.1 hr
    exact hU u hu
  have hR2 : ∀ r ∈ roleRecords access, (∀ x ∈ nodeStatements ROLE r.1 r.2, Q x) ∧
      Q (parentOf ⟨REGION, region⟩ ⟨ROLE, r.1⟩) := by
    intro r hr
    obtain ⟨u, hu, rfl⟩ := List.mem_map.1 hr
    exact hR u hu
  obtain ⟨a1, a2⟩ := forall_regionChildrenStatements Q ⟨REGION, region⟩ USER
    (userRecords access) _ h0 hU2
  obtain ⟨b1, b2⟩ := forall_regionChildrenStatements Q ⟨REGION, region⟩ ROLE
    (roleRecords access) _ a2 hR2
  obtain ⟨c1, c2⟩ := forall_groupsStatements Q ⟨REGION, region⟩ access.UsersByGroup
    access.Groups _ b2 hG
  have d1 := forall_policiesStatements Q ⟨REGION, region⟩ access access.LocalPolicies _ c2 hP
  intro x hx
  simp only [accessStatements, List.mem_append, List.mem_cons, or_assoc] at hx
  rcases hx with rfl | hx | hx | hx | hx
  · exact h0
  · exact a1 x hx
  · exact b1 x hx
  · exact c1 x hx
  · exact d1 x hx

/-! ### Every node has one type statement -/

/-- With pairwise distinct keys, the record of a node is counted once. -/
theorem sum_node_indicator {α : Type} (l : List α) (kind : String) (key : α → String)
    (hnd : (l.map key).Nodup) (x : α) (hx : x ∈ l) :
    (l.map fun y => if (⟨kind, key y⟩ : Node) = ⟨kind, key x⟩ then 1 else 0).sum = 1 := by
  rw [sum_map_of_nodup key _ _ hnd x hx]
  · simp
  · intro y _ hne
    simp [hne]

theorem countP_isHasTypeOf_attachmentStatements (access : AwsAccess) (n : Node)
    (policyId : String) :
    (attachmentStatements access policyId).countP (isHasTypeOf n) = 0 := by
  apply countP_eq_zero_of_forall
  intro t ht
  simp only [attachmentStatements, List.mem_append, mem_memberStatements] at ht
  rcases ht with (⟨_, _, rfl⟩ | ⟨_, _, rfl⟩) | ⟨_, _, rfl⟩ <;> simp [isHasTypeOf, parentOf]

/-- The number of `HasType` statements of a node other than the region node in the access
sequence. -/
theorem countP_isHasTypeOf_access (region : String) (access : AwsAccess) (n : Node)
    (hn : n.kind ≠ REGION) :
    (accessStatements region access).countP (isHasTypeOf n) =
      (access.Users.map fun user =>
        if (⟨USER, StringValue user.UserId⟩ : Node) = n then 1 else 0).sum +
      (access.Roles.map fun role =>
        if (⟨ROLE, StringValue role.RoleId⟩ : Node) = n then 1 else 0).sum +
      (access.Groups.map fun group =>
        if (⟨GROUP, StringValue group.GroupId⟩ : Node) = n then 1 else 0).sum +
      (access.LocalPolicies.map fun policy =>
        if (⟨POLICY, StringValue policy.PolicyId⟩ : Node) = n then 1 else 0).sum := by
  rw [countP_accessStatements]
  · simp only [countP_isHasTypeOf_nodeStatements, countP_isHasTypeOf_attachmentStatements,
      Nat.add_zero]
  · have : (⟨REGION, region⟩ : Node) ≠ n := by
      rintro rfl
      exact hn rfl
    simp [isHasTypeOf, regionStatement, this]
  · intro o
    simp [isHasTypeOf, parentOf]
  · intro g u
    simp [isHasTypeOf, parentOf]

theorem mem_accessNodes {access : AwsAccess} {n : Node} :
    n ∈ accessNodes access ↔
      (∃ user ∈ access.Users, n = ⟨USER, StringValue user.UserId⟩) ∨
      (∃ role ∈ access.Roles, n = ⟨ROLE, StringValue role.RoleId⟩) ∨
      (∃ group ∈ access.Groups, n = ⟨GROUP, StringValue group.GroupId⟩) ∨
      (∃ policy ∈ access.LocalPolicies, n = ⟨POLICY, StringValue policy.PolicyId⟩) := by
  simp only [accessNodes, userIds, roleIds, groupIds, policyIds, List.mem_append, List.mem_map,
    List.map_map, Function.comp_def, or_assoc, eq_comm]

theorem mem_infraNodes {infra : AwsInfra} {n : Node} :
    n ∈ infraNodes infra ↔
      (∃ vpc ∈ infra.Vpcs, n = ⟨VPC, StringValue vpc.VpcId⟩) ∨
      (∃ subnet ∈ infra.Subnets, n = ⟨SUBNET, StringValue subnet.SubnetId⟩) ∨
      (∃ inst ∈ infra.Instances, n = ⟨INSTANCE, StringValue inst.InstanceId⟩) := by
  simp only [infraNodes, vpcNodesOf, subnetNodesOf, List.mem_append, List.mem_map, or_assoc,
    eq_comm]

/-- A node is the subject of exactly one `HasType` statement of the access sequence when it
is the node of a record and the ids are pairwise distinct within each kind. -/
theorem countP_isHasTypeOf_accessNodes (region : String) (access : AwsAccess) (n : Node)
    (hu : (userIds access).Nodup) (hr : (roleIds access).Nodup)
    (hg : (groupIds access).Nodup) (hp : (policyIds access).Nodup)
    (hn : n ∈ accessNodes access) :
    (accessStatements region access).countP (isHasTypeOf n) = 1 := by
  obtain ⟨k1, k2, k3, k4, k5, k6, k7, k8, k9, k10⟩ := access_kinds_distinct
  rcases mem_accessNodes.1 hn with ⟨x, hx, rfl⟩ | ⟨x, hx, rfl⟩ | ⟨x, hx, rfl⟩ | ⟨x, hx, rfl⟩
  · rw [countP_isHasTypeOf_access _ _ _ (Ne.symm k1),
      sum_node_indicator _ USER (fun y : IamUser => StringValue y.UserId) hu x hx,
      sum_other_kind_plain _ ROLE _ _ (Ne.symm k5), sum_other_kind_plain _ GROUP _ _ (Ne.symm k6),
      sum_other_kind_plain _ POLICY _ _ (Ne.symm k7)]
  · rw [countP_isHasTypeOf_access _ _ _ (Ne.symm k2),
      sum_node_indicator _ ROLE (fun y : IamRole => StringValue y.RoleId) hr x hx,
      sum_other_kind_plain _ USER _ _ k5, sum_other_kind_plain _ GROUP _ _ (Ne.symm k8),
      sum_other_kind_plain _ POLICY _ _ (Ne.symm k9)]
  · rw [countP_isHasTypeOf_access _ _ _ (Ne.symm k3),
      sum_node_indicator _ GROUP (fun y : IamGroup => StringValue y.GroupId) hg x hx,
      sum_other_kind_plain _ USER _ _ k6, sum_other_kind_plain _ ROLE _ _ k8,
      sum_other_kind_plain _ POLICY _ _ (Ne.symm k10)]
  · rw [countP_isHasTypeOf_access _ _ _ (Ne.symm k4),
      sum_node_indicator _ POLICY (fun y : IamPolicy => StringValue y.PolicyId) hp x hx,
      sum_other_kind_plain _ USER _ _ k7, sum_other_kind_plain _ ROLE _ _ k9,
      sum_other_kind_plain _ GROUP _ _ k10]

theorem countP_isHasTypeOf_infraNodes (region : String) (infra : AwsInfra) (n : Node)
    (hv : (infra.Vpcs.map fun vpc => StringValue vpc.VpcId).Nodup)
    (hs : (infra.Subnets.map fun subnet => StringValue subnet.SubnetId).Nodup)
    (hi : (infra.Instances.map fun inst => StringValue inst.InstanceId).Nodup)
    (hn : n ∈ infraNodes infra) :
    (infraStatements region infra).countP (isHasTypeOf n) = 1 := by
  obtain ⟨k1, k2, k3, k4, k5, k6⟩ := kinds_distinct
  rcases mem_infraNodes.1 hn with ⟨x, hx, rfl⟩ | ⟨x, hx, rfl⟩ | ⟨x, hx, rfl⟩
  · rw [countP_isHasTypeOf_infra _ _ _ (Ne.symm k4),
      sum_node_indicator _ VPC (fun y : Ec2Vpc => StringValue y.VpcId) hv x hx,
      sum_other_kind_plain _ SUBNET _ _ (Ne.symm k1),
      sum_other_kind_plain _ INSTANCE _ _ (Ne.symm k2)]
  · rw [countP_isHasTypeOf_infra _ _ _ (Ne.symm k5),
      sum_node_indicator _ SUBNET (fun y : Ec2Subnet => StringValue y.SubnetId) hs x hx,
      sum_other_kind_plain _ VPC _ _ k1, sum_other_kind_plain _ INSTANCE _ _ (Ne.symm k3)]
  · rw [countP_isHasTypeOf_infra _ _ _ (Ne.symm k6),
      sum_node_indicator _ INSTANCE (fun y : Ec2Instance => StringValue y.InstanceId) hi x hx,
      sum_other_kind_plain _ VPC _ _ k2, sum_other_kind_plain _ SUBNET _ _ k3]

/-- A node of the block of a record is the node of the record. -/
theorem occursIn_nodeStatements {nodeType id : String} {awsNode : AwsRecord} {t : Triple}
    {n : Node} (ht : t ∈ nodeStatements nodeType id awsNode) (hn : occursIn n t) :
    n = ⟨nodeType, id⟩ := by
  obtain ⟨hs, h | ⟨_, _, _, h, _⟩⟩ := mem_nodeStatements ht
  · rcases hn with hn | hn
    · rw [← hn, hs]
    · rw [h.2] at hn; cases hn
  · rcases hn with hn | hn
    · rw [← hn, hs]
    · rw [h] at hn; cases hn

theorem occursIn_parentOf {s o n : Node} (hn : occursIn n (parentOf s o)) : n = s ∨ n = o := by
  rcases hn with hn | hn
  · exact Or.inl hn.symm
  · simp only [parentOf, Object.node.injEq] at hn
    exact Or.inr hn.symm

/-- Every node other than the region node that occurs in the access sequence, when no
member or attachment is missing, is the node of a record. -/
theorem occursIn_accessStatements (region : String) (access : AwsAccess)
    (hg : NoDanglingGroups access) (hp : NoDanglingPolicies access) :
    ∀ t ∈ accessStatements region access, ∀ n, occursIn n t → n.kind ≠ REGION →
      n ∈ accessNodes access := by
  have hregion : ∀ (n o : Node), occursIn n (parentOf ⟨REGION, region⟩ o) → n.kind ≠ REGION →
      n = o := by
    intro n o hn hk
    rcases occursIn_parentOf hn with rfl | rfl
    · exact absurd rfl hk
    · rfl
  apply forall_accessStatements
  · intro n hn hk
    rcases hn with hn | hn
    · rw [← hn] at hk; exact absurd rfl hk
    · simp [regionStatement] at hn
  · intro user hu
    refine ⟨fun x hx n hn _ => ?_, fun n hn hk => ?_⟩
    · rw [occursIn_nodeStatements hx hn]
      exact mem_accessNodes.2 (Or.inl ⟨user, hu, rfl⟩)
    · rw [hregion n _ hn hk]
      exact mem_accessNodes.2 (Or.inl ⟨user, hu, rfl⟩)
  · intro role hr
    refine ⟨fun x hx n hn _ => ?_, fun n hn hk => ?_⟩
    · rw [occursIn_nodeStatements hx hn]
      exact mem_accessNodes.2 (Or.inr (Or.inl ⟨role, hr, rfl⟩))
    · rw [hregion n _ hn hk]
      exact mem_accessNodes.2 (Or.inr (Or.inl ⟨role, hr, rfl⟩))
  · intro group hgr
    have hself : (⟨GROUP, StringValue group.GroupId⟩ : Node) ∈ accessNodes access :=
      mem_accessNodes.2 (Or.inr (Or.inr (Or.inl ⟨group, hgr, rfl⟩)))
    refine ⟨fun x hx n hn _ => ?_, fun n hn hk => ?_, fun x hx n hn _ => ?_⟩
    · rw [occursIn_nodeStatements hx hn]; exact hself
    · rw [hregion n _ hn hk]; exact hself
    · obtain ⟨u, hu, rfl⟩ := mem_memberStatements.1 hx
      rcases occursIn_parentOf hn with rfl | rfl
      · exact hself
      · obtain ⟨user, huser, hid⟩ := List.mem_map.1 (hg group hgr u hu)
        exact mem_accessNodes.2 (Or.inl ⟨user, huser, by rw [hid]⟩)
  · intro policy hpol
    have hself : (⟨POLICY, StringValue policy.PolicyId⟩ : Node) ∈ accessNodes access :=
      mem_accessNodes.2 (Or.inr (Or.inr (Or.inr ⟨policy, hpol, rfl⟩)))
    obtain ⟨hpu, hpg, hpr⟩ := hp policy hpol
    refine ⟨fun x hx n hn _ => ?_, fun n hn hk => ?_, fun x hx n hn _ => ?_⟩
    · rw [occursIn_nodeStatements hx hn]; exact hself
    · rw [hregion n _ hn hk]; exact hself
    · simp only [attachmentStatements, List.mem_append, mem_memberStatements] at hx
      rcases hx with (⟨u, hu, rfl⟩ | ⟨u, hu, rfl⟩) | ⟨u, hu, rfl⟩
      · rcases occursIn_parentOf hn with rfl | rfl
        · exact hself
        · obtain ⟨y, hy, hid⟩ := List.mem_map.1 (hpu u hu)
          exact mem_accessNodes.2 (Or.inl ⟨y, hy, by rw [hid]⟩)
      · rcases occursIn_parentOf hn with rfl | rfl
        · exact hself
        · obtain ⟨y, hy, hid⟩ := List.mem_map.1 (hpg u hu)
          exact mem_accessNodes.2 (Or.inr (Or.inr (Or.inl ⟨y, hy, by rw [hid]⟩)))
      · rcases occursIn_parentOf hn with rfl | rfl
        · exact hself
        · obtain ⟨y, hy, hid⟩ := List.mem_map.1 (hpr u hu)
          exact mem_accessNodes.2 (Or.inr (Or.inl ⟨y, hy, by rw [hid]⟩))

/-- Every node other than the region node that occurs in the infrastructure sequence is
the node of a record. -/
theorem occursIn_infraStatements (region : String) (infra : AwsInfra) :
    ∀ t ∈ infraStatements region infra, ∀ n, occursIn n t → n.kind ≠ REGION →
      n ∈ infraNodes infra := by
  intro t ht n hn hk
  rcases mem_infraStatements.1 ht with rfl | ⟨vpc, hv, hm⟩ | ⟨subnet, hs, hm⟩ | ⟨inst, hi, hm⟩
  · rcases hn with hn | hn
    · rw [← hn] at hk; exact absurd rfl hk
    · simp [regionStatement] at hn
  · have hself : (⟨VPC, StringValue vpc.VpcId⟩ : Node) ∈ infraNodes infra :=
      mem_infraNodes.2 (Or.inl ⟨vpc, hv, rfl⟩)
    rcases List.mem_append.1 hm with hm | hm
    · rw [occursIn_nodeStatements hm hn]; exact hself
    · simp only [List.mem_singleton] at hm
      subst hm
      rcases occursIn_parentOf hn with rfl | rfl
      · exact absurd rfl hk
      · exact hself
  · have hself : (⟨SUBNET, StringValue subnet.SubnetId⟩ : Node) ∈ infraNodes infra :=
      mem_infraNodes.2 (Or.inr (Or.inl ⟨subnet, hs, rfl⟩))
    rcases List.mem_append.1 hm with hm | hm
    · rw [occursIn_nodeStatements hm hn]; exact hself
    · obtain ⟨v, hf, rfl⟩ := mem_parentStatements.1 hm
      rcases occursIn_parentOf hn with rfl | rfl
      · obtain ⟨rfl, vpc, hvpc, hid⟩ := findNodeById_vpcNodesOf hf
        exact mem_infraNodes.2 (Or.inl ⟨vpc, hvpc, by rw [hid]⟩)
      · exact hself
  · have hself : (⟨INSTANCE, StringValue inst.InstanceId⟩ : Node) ∈ infraNodes infra :=
      mem_infraNodes.2 (Or.inr (Or.inr ⟨inst, hi, rfl⟩))
    rcases List.mem_append.1 hm with hm | hm
    · rw [occursIn_nodeStatements hm hn]; exact hself
    · obtain ⟨v, hf, rfl⟩ := mem_parentStatements.1 hm
      rcases occursIn_parentOf hn with rfl | rfl
      · obtain ⟨rfl, subnet, hsubnet, hid⟩ := findNodeById_subnetNodesOf hf
        exact mem_infraNodes.2 (Or.inr (Or.inl ⟨subnet, hsubnet, by rw [hid]⟩))
      · exact hself

/-- The object of every `HasType` statement of the access sequence is the literal of the
kind of its subject. -/
theorem hasType_object_access (region : String) (access : AwsAccess) :
    ∀ t ∈ accessStatements region access, t.p = .hasType → t.o = .literal ⟨t.s.kind⟩ := by
  have hblock : ∀ (nodeType id : String) (awsNode : AwsRecord),
      ∀ x ∈ nodeStatements nodeType id awsNode, x.p = .hasType →
        x.o = .literal ⟨x.s.kind⟩ := by
    intro nodeType id awsNode x hx hp
    obtain ⟨hs, h | ⟨_, _, h, _⟩⟩ := mem_nodeStatements hx
    · rw [h.2, hs]
    · rw [h] at hp; cases hp
  have hmem : ∀ (m : Node) (kind : String) (ids : List String),
      ∀ x ∈ memberStatements m kind ids, x.p = .hasType → x.o = .literal ⟨x.s.kind⟩ := by
    intro m kind ids x hx hp
    obtain ⟨_, _, rfl⟩ := mem_memberStatements.1 hx
    cases hp
  apply forall_accessStatements
  · intro _; rfl
  · exact fun user _ => ⟨hblock _ _ _, fun h => by cases h⟩
  · exact fun role _ => ⟨hblock _ _ _, fun h => by cases h⟩
  · exact fun group _ => ⟨hblock _ _ _, (fun h => by cases h), hmem _ _ _⟩
  · intro policy _
    refine ⟨hblock _ _ _, (fun h => by cases h), fun x hx => ?_⟩
    simp only [attachmentStatements, List.mem_append] at hx
    rcases hx with (hx | hx) | hx <;> exact hmem _ _ _ x hx

theorem hasType_object_infra (region : String) (infra : AwsInfra) :
    ∀ t ∈ infraStatements region infra, t.p = .hasType → t.o = .literal ⟨t.s.kind⟩ := by
  have hblock : ∀ (nodeType id : String) (awsNode : AwsRecord),
      ∀ x ∈ nodeStatements nodeType id awsNode, x.p = .hasType →
        x.o = .literal ⟨x.s.kind⟩ := by
    intro nodeType id awsNode x hx hp
    obtain ⟨hs, h | ⟨_, _, h, _⟩⟩ := mem_nodeStatements hx
    · rw [h.2, hs]
    · rw [h] at hp; cases hp
  have hparent : ∀ (parents : List Node) (parentId : String) (m : Node),
      ∀ x ∈ parentStatements parents parentId m, x.p = .hasType →
        x.o = .literal ⟨x.s.kind⟩ := by
    intro parents parentId m x hx hp
    obtain ⟨_, _, rfl⟩ := mem_parentStatements.1 hx
    cases hp
  intro t ht hp
  rcases mem_infraStatements.1 ht with rfl | ⟨vpc, _, hm⟩ | ⟨subnet, _, hm⟩ | ⟨inst, _, hm⟩
  · rfl
  · rcases List.mem_append.1 hm with hm | hm
    · exact hblock _ _ _ t hm hp
    · simp only [List.mem_singleton] at hm
      subst hm
      cases hp
  · rcases List.mem_append.1 hm with hm | hm
    · exact hblock _ _ _ t hm hp
    · exact hparent _ _ _ t hm hp
  · rcases List.mem_append.1 hm with hm | hm
    · exact hblock _ _ _ t hm hp
    · exact hparent _ _ _ t hm hp

theorem accessNodes_kind {access : AwsAccess} {n : Node} (h : n ∈ accessNodes access) :
    n.kind ∈ managedKinds := by
  rcases mem_accessNodes.1 h with ⟨_, _, rfl⟩ | ⟨_, _, rfl⟩ | ⟨_, _, rfl⟩ | ⟨_, _, rfl⟩ <;>
    simp [managedKinds]

theorem infraNodes_kind {infra : AwsInfra} {n : Node} (h : n ∈ infraNodes infra) :
    n.kind ∈ managedKinds := by
  rcases mem_infraNodes.1 h with ⟨_, _, rfl⟩ | ⟨_, _, rfl⟩ | ⟨_, _, rfl⟩ <;>
    simp [managedKinds]

/-- C10: on every successful access pass resp. infrastructure pass over a snapshot whose
ids are pairwise distinct within each kind, every node whose kind is not `/region` and
that occurs in the sequence, as a subject or as an object, has one of the seven managed
kinds and is the subject of exactly one `HasType` statement, whose object is the literal
of the kind of the node. -/
theorem nodes_have_one_type (F : TermFactory) (region : String) (access : AwsAccess)
    (infra : AwsInfra) :
    (∀ g, BuildAwsAccessGraph F region access = (some g, none) →
      (userIds access).Nodup → (roleIds access).Nodup → (groupIds access).Nodup →
      (policyIds access).Nodup →
      ∀ n, n.kind ≠ REGION → (∃ t ∈ g.triples, occursIn n t) →
        n.kind ∈ managedKinds ∧ g.triples.countP (isHasTypeOf n) = 1 ∧
        ∀ t ∈ g.triples, isHasTypeOf n t = true → t.o = .literal ⟨n.kind⟩) ∧
    (∀ g, BuildAwsInfraGraph F region infra = (some g, none) →
      (infra.Vpcs.map fun vpc => StringValue vpc.VpcId).Nodup →
      (infra.Subnets.map fun subnet => StringValue subnet.SubnetId).Nodup →
      (infra.Instances.map fun inst => StringValue inst.InstanceId).Nodup →
      ∀ n, n.kind ≠ REGION → (∃ t ∈ g.triples, occursIn n t) →
        n.kind ∈ managedKinds ∧ g.triples.countP (isHasTypeOf n) = 1 ∧
        ∀ t ∈ g.triples, isHasTypeOf n t = true → t.o = .literal ⟨n.kind⟩) := by
  constructor
  · intro g h hu hr hg hp n hk ⟨t, ht, hn⟩
    obtain ⟨hts, hdg, hdp⟩ := BuildAwsAccessGraph_triples h
    rw [hts] at ht ⊢
    have hmem := occursIn_accessStatements region access hdg hdp t ht n hn hk
    refine ⟨accessNodes_kind hmem,
      countP_isHasTypeOf_accessNodes region access n hu hr hg hp hmem, ?_⟩
    intro x hx hxp
    simp only [isHasTypeOf, decide_eq_true_eq] at hxp
    rw [hasType_object_access region access x hx hxp.1, hxp.2]
  · intro g h hv hs hi n hk ⟨t, ht, hn⟩
    have hts := buildInfraRdfTriples_ok (BuildAwsInfraGraph_ok h)
    rw [hts] at ht ⊢
    have hmem := occursIn_infraStatements region infra t ht n hn hk
    refine ⟨infraNodes_kind hmem,
      countP_isHasTypeOf_infraNodes region infra n hv hs hi hmem, ?_⟩
    intro x hx hxp
    simp only [isHasTypeOf, decide_eq_true_eq] at hxp
    rw [hasType_object_infra region infra x hx hxp.1, hxp.2]

theorem nodes_have_one_type_witness :
    (∃ g, BuildAwsAccessGraph acceptAll "eu-west-1" exampleAccess = (some g, none) ∧
      g.triples.countP (isHasTypeOf ⟨USER, "u-1"⟩) = 1) ∧
    (∃ g, BuildAwsInfraGraph acceptAll "eu-west-1" exampleInfra = (some g, none) ∧
      g.triples.countP (isHasTypeOf ⟨SUBNET, "subnet-1"⟩) = 1) :=
  ⟨⟨_, rfl,
      ((nodes_have_one_type acceptAll "eu-west-1" exampleAccess exampleInfra).1 _ rfl
        (by decide) (by decide) (by decide) (by decide) ⟨USER, "u-1"⟩ (by decide)
        ⟨parentOf ⟨GROUP, "g-1"⟩ ⟨USER, "u-1"⟩, by decide, Or.inr rfl⟩).2.1⟩,
    ⟨_, rfl,
      ((nodes_have_one_type acceptAll "eu-west-1" exampleAccess exampleInfra).2 _ rfl
        (by decide) (by decide) (by decide) ⟨SUBNET, "subnet-1"⟩ (by decide)
        ⟨parentOf ⟨VPC, "vpc-1"⟩ ⟨SUBNET, "subnet-1"⟩, by decide, Or.inr rfl⟩).2.1⟩⟩

/-! ### Dangling references -/

/-- A list with an element of a given property splits at the first such element. -/
theorem exists_first {α : Type} (P : α → Prop) (l : List α) (h : ∃ x ∈ l, P x) :
    ∃ before x after, l = before ++ x :: after ∧ P x ∧ ∀ y ∈ before, ¬ P y := by
  induction l with
  | nil => obtain ⟨x, hx, _⟩ := h; cases hx
  | cons a l ih =>
    by_cases ha : P a
    · exact ⟨[], a, l, rfl, ha, by simp⟩
    · obtain ⟨x, hx, hP⟩ := h
      rcases List.mem_cons.1 hx with rfl | hx
      · exact absurd hP ha
      · obtain ⟨before, y, after, hl, hy, hb⟩ := ih ⟨x, hx, hP⟩
        refine ⟨a :: before, y, after, by simp [hl], hy, ?_⟩
        intro z hz
        rcases List.mem_cons.1 hz with rfl | hz
        · exact ha
        · exact hb z hz

theorem firstMissing_of_exists {ids known : List String} (h : ∃ id ∈ ids, id ∉ known) :
    ∃ missing, FirstMissing ids known missing := by
  obtain ⟨found, missing, rest, hl, hm, hf⟩ := exists_first (fun id => id ∉ known) ids h
  exact ⟨missing, found, rest, hl, fun id hid => not_not.1 (hf id hid), hm⟩

/-- The membership loop stops at the first id that has no user record. -/
theorem groupUsersLoop_missing {F : TermFactory} (hT : AcceptsTriples F) (groupId : String)
    (n : Node) (userIds : List String) (found : List String) (missing : String)
    (rest : List String) (triples : List Triple) (t : Triple)
    (hfound : ∀ id ∈ found, id ∈ userIds) (hmissing : missing ∉ userIds) :
    ∃ out, groupUsersLoop F groupId n (indexOf USER userIds) (found ++ missing :: rest)
      (triples, t) = .error (out, groupError groupId missing) := by
  induction found generalizing triples t with
  | nil =>
    refine ⟨triples, ?_⟩
    simp only [List.nil_append, groupUsersLoop, lookup_indexOf, hmissing, if_false, groupError]
  | cons id found ih =>
    obtain ⟨out, hout⟩ := ih (triples ++ [⟨n, .parentOf, .node ⟨USER, id⟩⟩])
      ⟨n, .parentOf, .node ⟨USER, id⟩⟩ fun x hx => hfound x (List.mem_cons_of_mem _ hx)
    refine ⟨out, ?_⟩
    simp only [List.cons_append, groupUsersLoop, lookup_indexOf,
      hfound id (List.mem_cons_self _ _), if_true, new_of_accepts hT]
    exact hout

/-- The groups loop stops at the first group that lists a member with no user record. -/
theorem groupsLoop_missing {F : TermFactory} (hT : AcceptsTriples F) (regionN : Node)
    (usersByGroup : String → List String) (userIds : List String)
    (before : List IamGroup) (group : IamGroup) (after : List IamGroup) (missing : String)
    (st : AccessState)
    (hacc : ∀ g ∈ before ++ [group], AcceptsRecord F GROUP (StringValue g.GroupId) g.record)
    (hbefore : ∀ g ∈ before, ∀ id ∈ usersByGroup (StringValue g.GroupId), id ∈ userIds)
    (hfirst : FirstMissing (usersByGroup (StringValue group.GroupId)) userIds missing) :
    ∃ out, groupsLoop F regionN usersByGroup (indexOf USER userIds)
      (before ++ group :: after) st =
        .error (out, groupError (StringValue group.GroupId) missing) := by
  induction before generalizing st with
  | nil =>
    obtain ⟨found, rest, hl, hfound, hmissing⟩ := hfirst
    obtain ⟨out, hout⟩ := groupUsersLoop_missing hT (StringValue group.GroupId)
      ⟨GROUP, StringValue group.GroupId⟩ userIds found missing rest
      (st.triples ++ nodeStatements GROUP (StringValue group.GroupId) group.record ++ [st.t] ++
        [⟨regionN, .parentOf, .node ⟨GROUP, StringValue group.GroupId⟩⟩])
      ⟨regionN, .parentOf, .node ⟨GROUP, StringValue group.GroupId⟩⟩ hfound hmissing
    refine ⟨out, ?_⟩
    simp only [List.nil_append, groupsLoop,
      addNode_of_accepts hT destType_GROUP (hacc group (by simp)), new_of_accepts hT, hl]
    rw [hout]
  | cons b before ih =>
    obtain ⟨out, hout⟩ := ih
      ⟨st.triples ++ nodeStatements GROUP (StringValue b.GroupId) b.record ++ [st.t] ++
        [⟨regionN, .parentOf, .node ⟨GROUP, StringValue b.GroupId⟩⟩] ++
        memberStatements ⟨GROUP, StringValue b.GroupId⟩ USER
          (usersByGroup (StringValue b.GroupId)),
        ((memberStatements ⟨GROUP, StringValue b.GroupId⟩ USER
          (usersByGroup (StringValue b.GroupId))).getLast?).getD
          ⟨regionN, .parentOf, .node ⟨GROUP, StringValue b.GroupId⟩⟩,
        (StringValue b.GroupId, ⟨GROUP, StringValue b.GroupId⟩) :: st.index⟩
      (fun g hg => hacc g (List.mem_cons_of_mem _ hg))
      (fun g hg => hbefore g (List.mem_cons_of_mem _ hg))
    refine ⟨out, ?_⟩
    simp only [List.cons_append, groupsLoop,
      addNode_of_accepts hT destType_GROUP (hacc b (by simp)), new_of_accepts hT,
      groupUsersLoop_of_found hT _ USER _ userIds _ _ _ (hbefore b (List.mem_cons_self _ _))]
    exact hout

/-- The access pass ends with the error of the first missing group member when the terms
of the users, the roles and the groups up to that group are accepted. -/
theorem buildAccessRdfTriples_group_error {F : TermFactory} {region : String}
    {access : AwsAccess} {before after : List IamGroup} {group : IamGroup} {missing : String}
    (hgroups : access.Groups = before ++ group :: after)
    (hbefore : ∀ g ∈ before, ∀ id ∈ access.UsersByGroup (StringValue g.GroupId),
      id ∈ userIds access)
    (hfirst : FirstMissing (access.UsersByGroup (StringValue group.GroupId)) (userIds access)
      missing)
    (hacc : AcceptsAccessRecords F region access.Users access.Roles (before ++ [group]) []) :
    ∃ out, buildAccessRdfTriples F region access =
      (out, some (groupError (StringValue group.GroupId) missing)) := by
  obtain ⟨hR, hT, hU, hRo, hG, -⟩ := hacc
  have hU2 : ∀ r ∈ access.Users.map (fun user => (StringValue user.UserId, user.record)),
      AcceptsRecord F USER r.1 r.2 := by
    intro r hr
    obtain ⟨u, hu, rfl⟩ := List.mem_map.1 hr
    exact hU u hu
  have hRo2 : ∀ r ∈ access.Roles.map (fun role => (StringValue role.RoleId, role.record)),
      AcceptsRecord F ROLE r.1 r.2 := by
    intro r hr
    obtain ⟨u, hu, rfl⟩ := List.mem_map.1 hr
    exact hRo u hu
  unfold buildAccessRdfTriples
  simp only [newNode_of_accepts hR, new_of_accepts hT]
  split
  · next ts err hl =>
    rw [regionChildrenLoop_of_accepts hT _ destType_USER _ _ hU2] at hl
    cases hl
  · next ts1 t1 usersIndex hl1 =>
    obtain ⟨-, -, h13⟩ := regionChildrenLoop_ok hl1
    simp only [List.append_nil, List.map_map, Function.comp_def] at h13
    subst h13
    split
    · next ts err hl =>
      rw [regionChildrenLoop_of_accepts hT _ destType_ROLE _ _ hRo2] at hl
      cases hl
    · next ts2 t2 rolesIndex hl2 =>
      obtain ⟨out, hout⟩ := groupsLoop_missing hT ⟨REGION, region⟩ access.UsersByGroup
        (access.Users.map fun (x : IamUser) => StringValue x.UserId) before group after missing
        ⟨ts2, t2, []⟩ hG hbefore hfirst
      rw [← hgroups] at hout
      split
      · next ts err hl =>
        rw [hout] at hl
        cases hl
        exact ⟨_, rfl⟩
      · next ts3 t3 groupsIndex hl3 =>
        rw [hout] at hl3
        cases hl3

/-- The access pass fails when a group record lists a member that has no user record. -/
theorem BuildAwsAccessGraph_fails_of_dangling_group {F : TermFactory} {region : String}
    {access : AwsAccess} (h : ¬ NoDanglingGroups access) :
    ∃ err, BuildAwsAccessGraph F region access = (none, some err) := by
  unfold BuildAwsAccessGraph
  rcases hb : buildAccessRdfTriples F region access with ⟨ts, e⟩
  cases e with
  | some err => exact ⟨err, rfl⟩
  | none => exact absurd (buildAccessRdfTriples_ok hb).2.1 h

/-- C1: when some group record lists a user id that is the id of no user record, there is
a first such group in iteration order and a first missing id in its member list, the
builder returns no graph and an error, and when the term constructors accept the terms of
the region, of every user, of every role and of every group up to that group, the error
text is `group <groupId> has user <userId>, but this user does not exist` for that group
and that id. -/
theorem group_dangling_member (F : TermFactory) (region : String) (access : AwsAccess)
    (h : ∃ group ∈ access.Groups, ∃ userId ∈ access.UsersByGroup (StringValue group.GroupId),
      userId ∉ userIds access) :
    ∃ before group after missing,
      access.Groups = before ++ group :: after ∧
      (∀ g ∈ before, ∀ id ∈ access.UsersByGroup (StringValue g.GroupId),
        id ∈ userIds access) ∧
      FirstMissing (access.UsersByGroup (StringValue group.GroupId)) (userIds access)
        missing ∧
      (∃ err, BuildAwsAccessGraph F region access = (none, some err)) ∧
      (AcceptsAccessRecords F region access.Users access.Roles (before ++ [group]) [] →
        BuildAwsAccessGraph F region access =
          (none, some ("group " ++ StringValue group.GroupId ++ " has user " ++ missing ++
            ", but this user does not exist"))) := by
  obtain ⟨before, group, after, hgroups, hdang, hbefore⟩ :=
    exists_first (fun g : IamGroup => ∃ userId ∈ access.UsersByGroup (StringValue g.GroupId),
      userId ∉ userIds access) access.Groups h
  obtain ⟨missing, hfirst⟩ := firstMissing_of_exists hdang
  have hbefore2 : ∀ g ∈ before, ∀ id ∈ access.UsersByGroup (StringValue g.GroupId),
      id ∈ userIds access := by
    intro g hg id hid
    by_contra hne
    exact hbefore g hg ⟨id, hid, hne⟩
  refine ⟨before, group, after, missing, hgroups, hbefore2, hfirst, ?_, ?_⟩
  · apply BuildAwsAccessGraph_fails_of_dangling_group
    intro hno
    obtain ⟨g, hg, u, hu, hne⟩ := h
    exact hne (hno g hg u hu)
  · intro hacc
    obtain ⟨out, hout⟩ := buildAccessRdfTriples_group_error hgroups hbefore2 hfirst hacc
    unfold BuildAwsAccessGraph
    rw [hout]
    rfl

theorem group_dangling_member_witness :
    BuildAwsAccessGraph acceptAll "eu-west-1" danglingGroupAccess =
      (none, some "group g-1 has user u-1, but this user does not exist") ∧
    ∃ before group after missing,
      danglingGroupAccess.Groups = before ++ group :: after ∧
      (∀ g ∈ before, ∀ id ∈ danglingGroupAccess.UsersByGroup (StringValue g.GroupId),
        id ∈ userIds danglingGroupAccess) ∧
      FirstMissing (danglingGroupAccess.UsersByGroup (StringValue group.GroupId))
        (userIds danglingGroupAccess) missing ∧
      (∃ err, BuildAwsAccessGraph acceptAll "eu-west-1" danglingGroupAccess =
        (none, some err)) ∧
      (AcceptsAccessRecords acceptAll "eu-west-1" danglingGroupAccess.Users
          danglingGroupAccess.Roles (before ++ [group]) [] →
        BuildAwsAccessGraph acceptAll "eu-west-1" danglingGroupAccess =
          (none, some ("group " ++ StringValue group.GroupId ++ " has user " ++ missing ++
            ", but this user does not exist"))) :=
  ⟨rfl,
    group_dangling_member acceptAll "eu-west-1" danglingGroupAccess
      ⟨⟨some "g-1"⟩, by decide, "u-1", by decide, by decide⟩⟩

/-- An attachment loop stops at the first id that has no record. -/
theorem policyAttachLoop_missing {F : TermFactory} (hT : AcceptsTriples F)
    (policyId kind : String) (n : Node) (known ids : List String) (missing : String)
    (triples : List Triple) (hfirst : FirstMissing ids known missing) :
    ∃ out, policyAttachLoop F policyId n (indexOf kind known) ids triples =
      .error (out, policyError policyId missing) := by
  obtain ⟨found, rest, rfl, hfound, hmissing⟩ := hfirst
  induction found generalizing triples with
  | nil =>
    refine ⟨triples, ?_⟩
    simp only [List.nil_append, policyAttachLoop, lookup_indexOf, hmissing, if_false,
      policyError]
  | cons id found ih =>
    obtain ⟨out, hout⟩ := ih (triples ++ [⟨n, .parentOf, .node ⟨kind, id⟩⟩])
      fun x hx => hfound x (List.mem_cons_of_mem _ hx)
    refine ⟨out, ?_⟩
    simp only [List.cons_append, policyAttachLoop, lookup_indexOf,
      hfound id (List.mem_cons_self _ _), if_true, new_of_accepts hT]
    exact hout

/-- The policies loop stops at the first policy with a missing attachment. -/
theorem policiesLoop_missing {F : TermFactory} (hT : AcceptsTriples F) (regionN : Node)
    (access : AwsAccess) (uids rids gids : List String)
    (before : List IamPolicy) (policy : IamPolicy) (after : List IamPolicy) (missing : String)
    (triples : List Triple) (t : Triple)
    (hacc : ∀ q ∈ before ++ [policy],
      AcceptsRecord F POLICY (StringValue q.PolicyId) q.record)
    (hbefore : ∀ q ∈ before,
      (∀ id ∈ access.UsersByLocalPolicies (StringValue q.PolicyId), id ∈ uids) ∧
      (∀ id ∈ access.GroupsByLocalPolicies (StringValue q.PolicyId), id ∈ gids) ∧
      (∀ id ∈ access.RolesByLocalPolicies (StringValue q.PolicyId), id ∈ rids))
    (hfirst :
      FirstMissing (access.UsersByLocalPolicies (StringValue policy.PolicyId)) uids missing ∨
      ((∀ id ∈ access.UsersByLocalPolicies (StringValue policy.PolicyId), id ∈ uids) ∧
        FirstMissing (access.GroupsByLocalPolicies (StringValue policy.PolicyId)) gids
          missing) ∨
      ((∀ id ∈ access.UsersByLocalPolicies (StringValue policy.PolicyId), id ∈ uids) ∧
        (∀ id ∈ access.GroupsByLocalPolicies (StringValue policy.PolicyId), id ∈ gids) ∧
        FirstMissing (access.RolesByLocalPolicies (StringValue policy.PolicyId)) rids
          missing)) :
    ∃ out, policiesLoop F regionN access (indexOf USER uids) (indexOf ROLE rids)
      (indexOf GROUP gids) (before ++ policy :: after) (triples, t) =
        .error (out, policyError (StringValue policy.PolicyId) missing) := by
  induction before generalizing triples t with
  | nil =>
    simp only [List.nil_append, policiesLoop,
      addNode_of_accepts hT destType_POLICY (hacc policy (by simp)), new_of_accepts hT]
    rcases hfirst with hu | ⟨hu, hg⟩ | ⟨hu, hg, hr⟩
    · obtain ⟨out, hout⟩ := policyAttachLoop_missing hT (StringValue policy.PolicyId) USER
        ⟨POLICY, StringValue policy.PolicyId⟩ uids _ missing
        (triples ++ nodeStatements POLICY (StringValue policy.PolicyId) policy.record ++ [t] ++
          [⟨regionN, .parentOf, .node ⟨POLICY, StringValue policy.PolicyId⟩⟩]) hu
      exact ⟨out, by rw [hout]⟩
    · rw [policyAttachLoop_of_found hT _ USER _ uids _ _ hu]
      obtain ⟨out, hout⟩ := policyAttachLoop_missing hT (StringValue policy.PolicyId) GROUP
        ⟨POLICY, StringValue policy.PolicyId⟩ gids _ missing
        (triples ++ nodeStatements POLICY (StringValue policy.PolicyId) policy.record ++ [t] ++
          [⟨regionN, .parentOf, .node ⟨POLICY, StringValue policy.PolicyId⟩⟩] ++
          memberStatements ⟨POLICY, StringValue policy.PolicyId⟩ USER
            (access.UsersByLocalPolicies (StringValue policy.PolicyId))) hg
      exact ⟨out, by simp only []; rw [hout]⟩
    · rw [policyAttachLoop_of_found hT _ USER _ uids _ _ hu]
      simp only []
      rw [policyAttachLoop_of_found hT _ GROUP _ gids _ _ hg]
      obtain ⟨out, hout⟩ := policyAttachLoop_missing hT (StringValue policy.PolicyId) ROLE
        ⟨POLICY, StringValue policy.PolicyId⟩ rids _ missing
        (triples ++ nodeStatements POLICY (StringValue policy.PolicyId) policy.record ++ [t] ++
          [⟨regionN, .parentOf, .node ⟨POLICY, StringValue policy.PolicyId⟩⟩] ++
          memberStatements ⟨POLICY, StringValue policy.PolicyId⟩ USER
            (access.UsersByLocalPolicies (StringValue policy.PolicyId)) ++
          memberStatements ⟨POLICY, StringValue policy.PolicyId⟩ GROUP
            (access.GroupsByLocalPolicies (StringValue policy.PolicyId))) hr
      exact ⟨out, by simp only []; rw [hout]⟩
  | cons b before ih =>
    obtain ⟨hu, hg, hr⟩ := hbefore b (List.mem_cons_self _ _)
    obtain ⟨out, hout⟩ := ih
      (triples ++ nodeStatements POLICY (StringValue b.PolicyId) b.record ++ [t] ++
        [⟨regionN, .parentOf, .node ⟨POLICY, StringValue b.PolicyId⟩⟩] ++
        memberStatements ⟨POLICY, StringValue b.PolicyId⟩ USER
          (access.UsersByLocalPolicies (StringValue b.PolicyId)) ++
        memberStatements ⟨POLICY, StringValue b.PolicyId⟩ GROUP
          (access.GroupsByLocalPolicies (StringValue b.PolicyId)) ++
        memberStatements ⟨POLICY, StringValue b.PolicyId⟩ ROLE
          (access.RolesByLocalPolicies (StringValue b.PolicyId)))
      ⟨regionN, .parentOf, .node ⟨POLICY, StringValue b.PolicyId⟩⟩
      (fun q hq => hacc q (List.mem_cons_of_mem _ hq))
      (fun q hq => hbefore q (List.mem_cons_of_mem _ hq))
    refine ⟨out, ?_⟩
    simp only [List.cons_append, policiesLoop,
      addNode_of_accepts hT destType_POLICY (hacc b (by simp)), new_of_accepts hT,
      policyAttachLoop_of_found hT _ USER _ uids _ _ hu,
      policyAttachLoop_of_found hT _ GROUP _ gids _ _ hg,
      policyAttachLoop_of_found hT _ ROLE _ rids _ _ hr]
    exact hout

/-- The access pass ends with the error of the first missing policy attachment when no
group member is missing and the terms of the users, the roles, the groups and the policies
up to that policy are accepted. -/
theorem buildAccessRdfTriples_policy_error {F : TermFactory} {region : String}
    {access : AwsAccess} {before after : List IamPolicy} {policy : IamPolicy}
    {missing : String} (hpolicies : access.LocalPolicies = before ++ policy :: after)
    (hbefore : ∀ q ∈ before, ¬ HasMissingAttachment access (StringValue q.PolicyId))
    (hfirst : FirstMissingAttachment access (StringValue policy.PolicyId) missing)
    (hg : NoDanglingGroups access)
    (hacc : AcceptsAccessRecords F region access.Users access.Roles access.Groups
      (before ++ [policy])) :
    ∃ out, buildAccessRdfTriples F region access =
      (out, some (policyError (StringValue policy.PolicyId) missing)) := by
  obtain ⟨hR, hT, hU, hRo, hG, hP⟩ := hacc
  have hU2 : ∀ r ∈ access.Users.map (fun user => (StringValue user.UserId, user.record)),
      AcceptsRecord F USER r.1 r.2 := by
    intro r hr
    obtain ⟨u, hu, rfl⟩ := List.mem_map.1 hr
    exact hU u hu
  have hRo2 : ∀ r ∈ access.Roles.map (fun role => (StringValue role.RoleId, role.record)),
      AcceptsRecord F ROLE r.1 r.2 := by
    intro r hr
    obtain ⟨u, hu, rfl⟩ := List.mem_map.1 hr
    exact hRo u hu
  have hbefore2 : ∀ q ∈ before,
      (∀ id ∈ access.UsersByLocalPolicies (StringValue q.PolicyId), id ∈ userIds access) ∧
      (∀ id ∈ access.GroupsByLocalPolicies (StringValue q.PolicyId), id ∈ groupIds access) ∧
      (∀ id ∈ access.RolesByLocalPolicies (StringValue q.PolicyId), id ∈ roleIds access) := by
    intro q hq
    have hno := hbefore q hq
    refine ⟨fun id hid => ?_, fun id hid => ?_, fun id hid => ?_⟩
    · by_contra hne; exact hno (Or.inl ⟨id, hid, hne⟩)
    · by_contra hne; exact hno (Or.inr (Or.inl ⟨id, hid, hne⟩))
    · by_contra hne; exact hno (Or.inr (Or.inr ⟨id, hid, hne⟩))
  unfold buildAccessRdfTriples
  simp only [newNode_of_accepts hR, new_of_accepts hT]
  split
  · next ts err hl =>
    rw [regionChildrenLoop_of_accepts hT _ destType_USER _ _ hU2] at hl
    cases hl
  · next ts1 t1 usersIndex hl1 =>
    obtain ⟨-, -, h13⟩ := regionChildrenLoop_ok hl1
    simp only [List.append_nil, List.map_map, Function.comp_def] at h13
    subst h13
    split
    · next ts err hl =>
      rw [regionChildrenLoop_of_accepts hT _ destType_ROLE _ _ hRo2] at hl
      cases hl
    · next ts2 t2 rolesIndex hl2 =>
      obtain ⟨-, -, h23⟩ := regionChildrenLoop_ok hl2
      simp only [List.append_nil, List.map_map, Function.comp_def] at h23
      subst h23
      split
      · next ts err hl =>
        have hgl := groupsLoop_of_accepts hT ⟨REGION, region⟩ access.UsersByGroup
          (access.Users.map fun (x : IamUser) => StringValue x.UserId) access.Groups
          ⟨ts2, t2, []⟩ hG hg
        rw [hgl] at hl
        cases hl
      · next ts3 t3 groupsIndex hl3 =>
        obtain ⟨-, -, h33, -⟩ := groupsLoop_ok hl3
        simp only [List.append_nil] at h33
        subst h33
        obtain ⟨out, hout⟩ := policiesLoop_missing hT ⟨REGION, region⟩ access
          (access.Users.map fun (x : IamUser) => StringValue x.UserId)
          (access.Roles.map fun (x : IamRole) => StringValue x.RoleId)
          (access.Groups.map fun (x : IamGroup) => StringValue x.GroupId)
          before policy after missing ts3 t3 hP hbefore2 hfirst
        rw [← hpolicies] at hout
        split
        · next ts err hl =>
          rw [hout] at hl
          cases hl
          exact ⟨_, rfl⟩
        · next ts4 t4 hl4 =>
          rw [hout] at hl4
          cases hl4

theorem BuildAwsAccessGraph_fails_of_dangling_policy {F : TermFactory} {region : String}
    {access : AwsAccess} (h : ¬ NoDanglingPolicies access) :
    ∃ err, BuildAwsAccessGraph F region access = (none, some err) := by
  unfold BuildAwsAccessGraph
  rcases hb : buildAccessRdfTriples F region access with ⟨ts, e⟩
  cases e with
  | some err => exact ⟨err, rfl⟩
  | none => exact absurd (buildAccessRdfTriples_ok hb).2.2 h

theorem firstMissingAttachment_of_has {access : AwsAccess} {policyId : String}
    (h : HasMissingAttachment access policyId) :
    ∃ missing, FirstMissingAttachment access policyId missing := by
  by_cases hu : ∃ id ∈ access.UsersByLocalPolicies policyId, id ∉ userIds access
  · obtain ⟨missing, hm⟩ := firstMissing_of_exists hu
    exact ⟨missing, Or.inl hm⟩
  · have hu2 : ∀ id ∈ access.UsersByLocalPolicies policyId, id ∈ userIds access := by
      intro id hid
      by_contra hne
      exact hu ⟨id, hid, hne⟩
    by_cases hg : ∃ id ∈ access.GroupsByLocalPolicies policyId, id ∉ groupIds access
    · obtain ⟨missing, hm⟩ := firstMissing_of_exists hg
      exact ⟨missing, Or.inr (Or.inl ⟨hu2, hm⟩)⟩
    · have hg2 : ∀ id ∈ access.GroupsByLocalPolicies policyId, id ∈ groupIds access := by
        intro id hid
        by_contra hne
        exact hg ⟨id, hid, hne⟩
      rcases h with h | h | h
      · exact absurd h hu
      · exact absurd h hg
      · obtain ⟨missing, hm⟩ := firstMissing_of_exists h
        exact ⟨missing, Or.inr (Or.inr ⟨hu2, hg2, hm⟩)⟩

theorem mentions_policyError (policyId id : String) :
    mentions (policyError policyId id) policyId ∧ mentions (policyError policyId id) id :=
  ⟨⟨"policy ", " has user " ++ id ++ ", but this user does not exist", by
      simp [policyError, String.append_assoc]⟩,
    ⟨"policy " ++ policyId ++ " has user ", ", but this user does not exist", by
      simp [policyError, String.append_assoc]⟩⟩

/-- C2: when some policy record is attached, through `UsersByLocalPolicies`,
`GroupsByLocalPolicies` or `RolesByLocalPolicies` at its id, to an id that has no record of
the matching kind, there is a first such policy in iteration order and a first missing id
among its attachments, and the builder returns no graph and an error; when no failure
occurs earlier (no group member is missing, and the term constructors accept the terms of
the region, the users, the roles, the groups and the policies up to that policy), the
error text is `policy <policyId> has user <id>, but this user does not exist` for that
policy and that id, so it contains both. -/
theorem policy_dangling_attachment (F : TermFactory) (region : String) (access : AwsAccess)
    (h : ∃ policy ∈ access.LocalPolicies,
      HasMissingAttachment access (StringValue policy.PolicyId)) :
    ∃ before policy after missing,
      access.LocalPolicies = before ++ policy :: after ∧
      (∀ q ∈ before, ¬ HasMissingAttachment access (StringValue q.PolicyId)) ∧
      FirstMissingAttachment access (StringValue policy.PolicyId) missing ∧
      (∃ err, BuildAwsAccessGraph F region access = (none, some err)) ∧
      (NoDanglingGroups access →
        AcceptsAccessRecords F region access.Users access.Roles access.Groups
          (before ++ [policy]) →
        ∃ err, BuildAwsAccessGraph F region access = (none, some err) ∧
          err = "policy " ++ StringValue policy.PolicyId ++ " has user " ++ missing ++
            ", but this user does not exist" ∧
          mentions err (StringValue policy.PolicyId) ∧ mentions err missing) := by
  obtain ⟨before, policy, after, hpolicies, hdang, hbefore⟩ :=
    exists_first (fun q : IamPolicy => HasMissingAttachment access (StringValue q.PolicyId))
      access.LocalPolicies h
  obtain ⟨missing, hfirst⟩ := firstMissingAttachment_of_has hdang
  refine ⟨before, policy, after, missing, hpolicies, hbefore, hfirst, ?_, ?_⟩
  · apply BuildAwsAccessGraph_fails_of_dangling_policy
    intro hno
    obtain ⟨q, hq, hq2⟩ := h
    obtain ⟨a, b, c⟩ := hno q hq
    rcases hq2 with ⟨id, hid, hne⟩ | ⟨id, hid, hne⟩ | ⟨id, hid, hne⟩
    · exact hne (a id hid)
    · exact hne (b id hid)
    · exact hne (c id hid)
  · intro hg hacc
    obtain ⟨out, hout⟩ := buildAccessRdfTriples_policy_error hpolicies hbefore hfirst hg hacc
    refine ⟨_, ?_, rfl, ?_⟩
    · unfold BuildAwsAccessGraph
      rw [hout]
      rfl
    · exact mentions_policyError _ _

theorem policy_dangling_attachment_witness :
    BuildAwsAccessGraph acceptAll "eu-west-1" danglingPolicyAccess =
      (none, some "policy p-1 has user g-1, but this user does not exist") ∧
    ∃ before policy after missing,
      danglingPolicyAccess.LocalPolicies = before ++ policy :: after ∧
      (∀ q ∈ before, ¬ HasMissingAttachment danglingPolicyAccess (StringValue q.PolicyId)) ∧
      FirstMissingAttachment danglingPolicyAccess (StringValue policy.PolicyId) missing ∧
      (∃ err, BuildAwsAccessGraph acceptAll "eu-west-1" danglingPolicyAccess =
        (none, some err)) ∧
      (NoDanglingGroups danglingPolicyAccess →
        AcceptsAccessRecords acceptAll "eu-west-1" danglingPolicyAccess.Users
          danglingPolicyAccess.Roles danglingPolicyAccess.Groups (before ++ [policy]) →
        ∃ err, BuildAwsAccessGraph acceptAll "eu-west-1" danglingPolicyAccess =
            (none, some err) ∧
          err = "policy " ++ StringValue policy.PolicyId ++ " has user " ++ missing ++
            ", but this user does not exist" ∧
          mentions err (StringValue policy.PolicyId) ∧ mentions err missing) :=
  ⟨rfl,
    policy_dangling_attachment acceptAll "eu-west-1" danglingPolicyAccess
      ⟨⟨some "p-1"⟩, by decide, Or.inr (Or.inl ⟨"g-1", by decide, by decide⟩)⟩⟩

/-! ### Compiling one record -/

/-- C13: for every kind, id and record and any two prior sequences, `addNode` returns the
same node or the same error, each prior sequence stays in front of the sequence after the
call, and the block appended to the one equals the block appended to the other (also when
the call fails). -/
theorem addNode_same_block (F : TermFactory) (nodeType id : String) (awsNode : AwsRecord)
    (s1 s2 : List Triple) :
    ∃ block,
      addNode F nodeType id awsNode s1 = ((addNode F nodeType id awsNode s1).1, s1 ++ block) ∧
      addNode F nodeType id awsNode s2 = ((addNode F nodeType id awsNode s1).1, s2 ++ block) ∧
      (addNode F nodeType id awsNode s1).1 = (addNode F nodeType id awsNode s2).1 := by
  obtain ⟨block, _, h2⟩ := addNode_extends F nodeType id awsNode s1
  refine ⟨block, h2 s1, h2 s2, ?_⟩
  rw [h2 s2]

theorem destType_isSome_iff (nodeType : String) :
    (destType nodeType).isSome ↔ nodeType ∈ managedKinds := by
  unfold destType managedKinds
  simp only [List.mem_cons, List.mem_singleton, List.not_mem_nil, or_false]
  constructor
  · intro h
    repeat' split at h
    all_goals first
      | (simp at h; done)
      | simp [*]
  · intro h
    rcases h with rfl | rfl | rfl | rfl | rfl | rfl | rfl <;> decide

/-- The function `addNode` fails with the text of line 343 for an unmanaged kind whose
node, type literal and `HasType` statement are accepted. -/
theorem addNode_unmanaged {F : TermFactory} (hT : AcceptsTriples F) {nodeType id : String}
    {awsNode : AwsRecord} (h : AcceptsRecord F nodeType id awsNode)
    (hD : destType nodeType = none) (triples : List Triple) :
    addNode F nodeType id awsNode triples =
      (.error ("type " ++ nodeType ++ " is not managed"),
        triples ++ [⟨⟨nodeType, id⟩, .hasType, .literal ⟨nodeType⟩⟩]) := by
  unfold addNode
  simp only [newNode_of_accepts h.1, build_of_accepts h.2.1, new_of_accepts hT, hD]

/-- C14, as stated, fails: `/region` is a kind of the data model, and `addNode` fails for
it with the unknown-kind error, also when every term is accepted. -/
theorem addNode_region_not_managed :
    REGION ∈ dataModelKinds ∧
    addNode acceptAll REGION "eu-west-1" [] [] =
      (.error "type /region is not managed",
        [⟨⟨REGION, "eu-west-1"⟩, .hasType, .literal ⟨REGION⟩⟩]) :=
  ⟨by decide, rfl⟩

/-- C14, amended: when the term constructors accept every statement and the terms of the
record, `addNode` fails with the error `type <kind> is not managed` exactly when the kind
is none of `/vpc`, `/subnet`, `/instance`, `/user`, `/role`, `/group`, `/policy`, and it
succeeds for each of these seven; of the eight kinds of the data model these are all but
`/region`, for which `addNode` fails with that error. -/
theorem addNode_unknown_kind (F : TermFactory) (nodeType id : String) (awsNode : AwsRecord)
    (triples : List Triple) (hT : AcceptsTriples F)
    (h : AcceptsRecord F nodeType id awsNode) :
    ((addNode F nodeType id awsNode triples).1 =
        .error ("type " ++ nodeType ++ " is not managed") ↔ nodeType ∉ managedKinds) ∧
    (nodeType ∈ managedKinds →
      (addNode F nodeType id awsNode triples).1 = .ok ⟨nodeType, id⟩) ∧
    (∀ kind ∈ dataModelKinds, kind ∈ managedKinds ↔ kind ≠ REGION) := by
  refine ⟨?_, ?_, by decide⟩
  · constructor
    · intro herr hmem
      rw [addNode_of_accepts hT ((destType_isSome_iff _).2 hmem) h] at herr
      cases herr
    · intro hmem
      have hD : destType nodeType = none := by
        cases hd : destType nodeType with
        | none => rfl
        | some fields =>
          exact absurd ((destType_isSome_iff _).1 (by simp [hd])) hmem
      rw [addNode_unmanaged hT h hD]
  · intro hmem
    rw [addNode_of_accepts hT ((destType_isSome_iff _).2 hmem) h]

theorem addNode_unknown_kind_witness :
    ((addNode acceptAll REGION "eu-west-1" [] []).1 =
        .error ("type " ++ REGION ++ " is not managed") ↔ REGION ∉ managedKinds) ∧
    (REGION ∈ managedKinds →
      (addNode acceptAll REGION "eu-west-1" [] []).1 = .ok ⟨REGION, "eu-west-1"⟩) ∧
    (∀ kind ∈ dataModelKinds, kind ∈ managedKinds ↔ kind ≠ REGION) :=
  addNode_unknown_kind acceptAll REGION "eu-west-1" [] []
    (by simp [AcceptsTriples, acceptAll]) (by simp [AcceptsRecord, acceptAll])

/-! ### The region node -/

theorem region_subject_nodeStatements {nodeType id : String} {awsNode : AwsRecord}
    {region : String} (hk : nodeType ≠ REGION) :
    ∀ x ∈ nodeStatements nodeType id awsNode, x.s.kind = REGION → x.s = ⟨REGION, region⟩ := by
  intro x hx h
  rw [(mem_nodeStatements hx).1] at h
  exact absurd h hk

theorem region_subject_memberStatements {m : Node} {kind : String} {ids : List String}
    {region : String} (hk : m.kind ≠ REGION) :
    ∀ x ∈ memberStatements m kind ids, x.s.kind = REGION → x.s = ⟨REGION, region⟩ := by
  intro x hx h
  obtain ⟨_, _, rfl⟩ := mem_memberStatements.1 hx
  exact absurd h hk

/-- Every statement of the access sequence whose subject has kind `/region` has the region
node as its subject. -/
theorem region_subject_access (region : String) (access : AwsAccess) :
    ∀ t ∈ accessStatements region access, t.s.kind = REGION → t.s = ⟨REGION, region⟩ := by
  obtain ⟨k1, k2, k3, k4, -⟩ := access_kinds_distinct
  apply forall_accessStatements
  · intro _; rfl
  · exact fun user _ => ⟨region_subject_nodeStatements (Ne.symm k1), fun _ => rfl⟩
  · exact fun role _ => ⟨region_subject_nodeStatements (Ne.symm k2), fun _ => rfl⟩
  · exact fun group _ => ⟨region_subject_nodeStatements (Ne.symm k3), (fun _ => rfl),
      region_subject_memberStatements (Ne.symm k3)⟩
  · intro policy _
    refine ⟨region_subject_nodeStatements (Ne.symm k4), (fun _ => rfl), fun x hx => ?_⟩
    simp only [attachmentStatements, List.mem_append] at hx
    rcases hx with (hx | hx) | hx <;>
      exact region_subject_memberStatements (Ne.symm k4) x hx

theorem region_subject_infra (region : String) (infra : AwsInfra) :
    ∀ t ∈ infraStatements region infra, t.s.kind = REGION → t.s = ⟨REGION, region⟩ := by
  obtain ⟨k1, k2, k3, k4, k5, k6⟩ := kinds_distinct
  intro t ht hk
  rcases mem_infraStatements.1 ht with rfl | ⟨vpc, _, hm⟩ | ⟨subnet, _, hm⟩ | ⟨inst, _, hm⟩
  · rfl
  · rcases List.mem_append.1 hm with hm | hm
    · exact region_subject_nodeStatements (Ne.symm k4) t hm hk
    · simp only [List.mem_singleton] at hm
      subst hm
      rfl
  · rcases List.mem_append.1 hm with hm | hm
    · exact region_subject_nodeStatements (Ne.symm k5) t hm hk
    · obtain ⟨v, hf, rfl⟩ := mem_parentStatements.1 hm
      obtain ⟨rfl, -⟩ := findNodeById_vpcNodesOf hf
      exact absurd hk (Ne.symm k4)
  · rcases List.mem_append.1 hm with hm | hm
    · exact region_subject_nodeStatements (Ne.symm k6) t hm hk
    · obtain ⟨v, hf, rfl⟩ := mem_parentStatements.1 hm
      obtain ⟨rfl, -⟩ := findNodeById_subnetNodesOf hf
      exact absurd hk (Ne.symm k5)

theorem head_accessStatements (region : String) (access : AwsAccess) :
    (accessStatements region access).head? = some (regionStatement region) := by
  simp [accessStatements]

theorem head_infraStatements (region : String) (infra : AwsInfra) :
    (infraStatements region infra).head? = some (regionStatement region) := by
  simp [infraStatements]

/-- C12: on every successful access pass resp. infrastructure pass, the first statement of
the sequence is `(node("/region", region), HasType, literal "/region")`, and every
statement whose subject has kind `/region` has exactly that node as its subject. -/
theorem region_node_once (F : TermFactory) (region : String) (access : AwsAccess)
    (infra : AwsInfra) :
    (∀ g, BuildAwsAccessGraph F region access = (some g, none) →
      g.triples.head? = some ⟨⟨REGION, region⟩, .hasType, .literal ⟨REGION⟩⟩ ∧
      ∀ t ∈ g.triples, t.s.kind = REGION → t.s = ⟨REGION, region⟩) ∧
    (∀ g, BuildAwsInfraGraph F region infra = (some g, none) →
      g.triples.head? = some ⟨⟨REGION, region⟩, .hasType, .literal ⟨REGION⟩⟩ ∧
      ∀ t ∈ g.triples, t.s.kind = REGION → t.s = ⟨REGION, region⟩) := by
  constructor
  · intro g h
    rw [(BuildAwsAccessGraph_triples h).1]
    exact ⟨head_accessStatements region access, region_subject_access region access⟩
  · intro g h
    rw [buildInfraRdfTriples_ok (BuildAwsInfraGraph_ok h)]
    exact ⟨head_infraStatements region infra, region_subject_infra region infra⟩

theorem region_node_once_witness :
    (∃ g, BuildAwsAccessGraph acceptAll "eu-west-1" exampleAccess = (some g, none) ∧
      g.triples.head? = some ⟨⟨REGION, "eu-west-1"⟩, .hasType, .literal ⟨REGION⟩⟩ ∧
      ∀ t ∈ g.triples, t.s.kind = REGION → t.s = ⟨REGION, "eu-west-1"⟩) ∧
    (∃ g, BuildAwsInfraGraph acceptAll "eu-west-1" exampleInfra = (some g, none) ∧
      g.triples.head? = some ⟨⟨REGION, "eu-west-1"⟩, .hasType, .literal ⟨REGION⟩⟩ ∧
      ∀ t ∈ g.triples, t.s.kind = REGION → t.s = ⟨REGION, "eu-west-1"⟩) :=
  ⟨⟨_, rfl, (region_node_once acceptAll "eu-west-1" exampleAccess exampleInfra).1 _ rfl⟩,
    ⟨_, rfl, (region_node_once acceptAll "eu-west-1" exampleAccess exampleInfra).2 _ rfl⟩⟩

/-! ### Referential completeness -/

theorem Typed.append {triples : List Triple} {n : Node} (h : Typed triples n)
    (ext : List Triple) : Typed (triples ++ ext) n := by
  obtain ⟨x, hx, hp⟩ := h
  exact ⟨x, List.mem_append_left _ hx, hp⟩

theorem Supported.extend {triples : List Triple} {t : Triple} (h : Supported triples t)
    (ext : List Triple) : Supported (triples ++ ext) t :=
  fun hp => ⟨(h hp).1.append ext, fun o ho => ((h hp).2 o ho).append ext⟩

theorem IndexTyped.grow {triples : List Triple} {index : Index}
    (h : IndexTyped triples index) (ext : List Triple) : IndexTyped (triples ++ ext) index :=
  fun e he => (h e he).append ext

theorem Complete.nil : Complete [] := by
  intro before t after h
  cases before <;> cases h

/-- Appending a supported statement keeps the sequence complete. -/
theorem Complete.snoc {triples : List Triple} {t : Triple} (h : Complete triples)
    (ht : Supported triples t) : Complete (triples ++ [t]) := by
  intro before x after hx hp
  rcases List.eq_nil_or_concat after with rfl | ⟨after2, y, rfl⟩
  · have h2 : triples ++ [t] = before ++ [x] := hx
    obtain ⟨rfl, h3⟩ := List.append_inj' h2 rfl
    cases h3
    exact ht hp
  · have h2 : triples ++ [t] = (before ++ x :: after2) ++ [y] := by
      rw [hx]; simp
    obtain ⟨rfl, -⟩ := List.append_inj' h2 rfl
    exact h before x after2 rfl hp

/-- Appending statements that are not `ParentOf` statements keeps the sequence
complete. -/
theorem Complete.append_plain {triples : List Triple} (h : Complete triples)
    (ext : List Triple) (hext : ∀ x ∈ ext, x.p ≠ .parentOf) : Complete (triples ++ ext) := by
  induction ext generalizing triples with
  | nil => simpa using h
  | cons x ext ih =>
    have h1 : Complete (triples ++ [x]) :=
      h.snoc fun hp => absurd hp (hext x (List.mem_cons_self _ _))
    have := ih h1 fun y hy => hext y (List.mem_cons_of_mem _ hy)
    simpa using this

theorem typed_nodeStatements (nodeType id : String) (awsNode : AwsRecord) :
    Typed (nodeStatements nodeType id awsNode) ⟨nodeType, id⟩ :=
  ⟨_, List.mem_cons_self _ _, rfl, rfl⟩

/-- Whatever its outcome, `addNode` appends statements that are not `ParentOf`
statements. -/
theorem addNode_plain (F : TermFactory) (nodeType id : String) (awsNode : AwsRecord)
    (triples : List Triple) :
    ∃ block, (addNode F nodeType id awsNode triples).2 = triples ++ block ∧
      ∀ x ∈ block, x.p ≠ .parentOf := by
  unfold addNode
  cases hN : F.NewNodeFromStrings nodeType id with
  | error err => exact ⟨[], by simp⟩
  | ok n0 =>
    cases hL : F.Build nodeType with
    | error err => exact ⟨[], by simp⟩
    | ok lit =>
      cases hT : F.New n0 .hasType (.literal lit) with
      | error err => exact ⟨[], by simp [hT]⟩
      | ok t =>
        have ht := new_ok hT
        cases hD : destType nodeType with
        | none => exact ⟨[t], by simp [hT, hD, ht]⟩
        | some fields =>
          obtain ⟨block, h1, h2, -⟩ := addNodeFields_extends F n0 awsNode fields (triples ++ [t])
          refine ⟨t :: block, by simpa [hT, hD] using h1, ?_⟩
          intro x hx
          rcases List.mem_cons.1 hx with rfl | hx
          · simp [ht]
          · obtain ⟨-, name, text, hp, -⟩ := h2 x hx
            simp [hp]

/-- The sequence after `addNode` is complete when the sequence before is, and on success
the node has its `HasType` statement in it. -/
theorem addNode_complete {F : TermFactory} {nodeType id : String} {awsNode : AwsRecord}
    {triples : List Triple} (h : Complete triples) :
    Complete (addNode F nodeType id awsNode triples).2 ∧
    (∃ ext, (addNode F nodeType id awsNode triples).2 = triples ++ ext) ∧
    ∀ n, (addNode F nodeType id awsNode triples).1 = .ok n →
      Typed (addNode F nodeType id awsNode triples).2 n := by
  obtain ⟨block, hb, hplain⟩ := addNode_plain F nodeType id awsNode triples
  refine ⟨by rw [hb]; exact h.append_plain block hplain, ⟨block, hb⟩, ?_⟩
  intro n hn
  have hpair : addNode F nodeType id awsNode triples =
      (.ok n, (addNode F nodeType id awsNode triples).2) := by
    rw [← hn]
  obtain ⟨rfl, -, hout⟩ := addNode_ok hpair
  rw [hout]
  obtain ⟨x, hx, hp⟩ := typed_nodeStatements nodeType id awsNode
  exact ⟨x, List.mem_append_right _ hx, hp⟩

theorem lookup_mem {index : Index} {id : String} {n : Node}
    (h : index.lookup id = some n) : (id, n) ∈ index := by
  induction index with
  | nil => simp at h
  | cons e index ih =>
    obtain ⟨k, v⟩ := e
    rw [List.lookup_cons] at h
    by_cases hk : id = k
    · subst hk
      simp at h
      simp [h]
    · have hne : (id == k) = false := by simpa using hk
      simp only [hne] at h
      exact List.mem_cons_of_mem _ (ih h)

theorem supported_parentOf {triples : List Triple} {s o : Node} (hs : Typed triples s)
    (ho : Typed triples o) : Supported triples ⟨s, .parentOf, .node o⟩ := by
  intro _
  refine ⟨hs, fun o2 h2 => ?_⟩
  cases h2
  exact ho

/-- The users loop resp. roles loop keeps the sequence complete, whether it ends normally
or with an error. -/
theorem regionChildrenLoop_complete {F : TermFactory} {regionN : Node} {kind : String}
    (records : List (String × AwsRecord)) (st : AccessState)
    (hc : Complete st.triples) (hr : Typed st.triples regionN)
    (ht : Supported st.triples st.t) (hi : IndexTyped st.triples st.index) :
    Complete (returnedTriples AccessState.triples
      (regionChildrenLoop F regionN kind records st)) ∧
    ∀ out, regionChildrenLoop F regionN kind records st = .ok out →
      Typed out.triples regionN ∧ Supported out.triples out.t ∧
      IndexTyped out.triples out.index ∧ ∃ ext, out.triples = st.triples ++ ext := by
  induction records generalizing st with
  | nil =>
    refine ⟨by simpa [regionChildrenLoop, returnedTriples] using hc, ?_⟩
    intro out hout
    simp only [regionChildrenLoop, Except.ok.injEq] at hout
    subst hout
    exact ⟨hr, ht, hi, [], by simp⟩
  | cons r rest ih =>
    obtain ⟨id, rec⟩ := r
    obtain ⟨hc1, ⟨ext1, he1⟩, hty⟩ :=
      @addNode_complete F kind id rec _ hc
    rcases hA : addNode F kind id rec st.triples with ⟨res, ts⟩
    rw [hA] at hc1 he1 hty
    simp only at hc1 he1 hty
    cases res with
    | error err =>
      simp only [regionChildrenLoop, hA, returnedTriples]
      exact ⟨hc1, fun out h => by cases h⟩
    | ok n =>
      have hn : Typed ts n := hty n rfl
      have hc2 : Complete (ts ++ [st.t]) := hc1.snoc (by rw [he1]; exact ht.extend ext1)
      cases hT : F.New regionN .parentOf (.node n) with
      | error err =>
        simp only [regionChildrenLoop, hA, hT, returnedTriples]
        exact ⟨hc2, fun out h => by cases h⟩
      | ok t =>
        have htt := new_ok hT
        subst htt
        have hr2 : Typed (ts ++ [st.t]) regionN := by
          rw [he1]; exact (hr.append ext1).append _
        have hsup : Supported (ts ++ [st.t]) ⟨regionN, .parentOf, .node n⟩ :=
          supported_parentOf hr2 (hn.append _)
        have hc3 := hc2.snoc hsup
        have hi3 : IndexTyped (ts ++ [st.t] ++ [⟨regionN, .parentOf, .node n⟩])
            ((id, n) :: st.index) := by
          intro e he
          rcases List.mem_cons.1 he with rfl | he
          · exact (hn.append _).append _
          · rw [he1]
            exact (((hi e he).append ext1).append _).append _
        obtain ⟨ih1, ih2⟩ := ih
          ⟨ts ++ [st.t] ++ [⟨regionN, .parentOf, .node n⟩], ⟨regionN, .parentOf, .node n⟩,
            (id, n) :: st.index⟩ hc3 (hr2.append _) (hsup.extend _) hi3
        simp only [regionChildrenLoop, hA, hT]
        refine ⟨ih1, fun out hout => ?_⟩
        obtain ⟨a, b, c, ext, hext⟩ := ih2 out hout
        refine ⟨a, b, c, ext1 ++ [st.t] ++ [⟨regionN, .parentOf, .node n⟩] ++ ext, ?_⟩
        rw [hext, he1]
        simp

theorem groupUsersLoop_complete {F : TermFactory} {groupId : String} {n : Node}
    {usersIndex : Index} (ids : List String) (triples : List Triple) (t : Triple)
    (hc : Complete triples) (hn : Typed triples n) (ht : Supported triples t)
    (hi : IndexTyped triples usersIndex) :
    Complete (returnedTriples Prod.fst
      (groupUsersLoop F groupId n usersIndex ids (triples, t))) ∧
    ∀ out last, groupUsersLoop F groupId n usersIndex ids (triples, t) = .ok (out, last) →
      Supported out last ∧ ∃ ext, out = triples ++ ext := by
  induction ids generalizing triples t with
  | nil =>
    refine ⟨by simpa [groupUsersLoop, returnedTriples] using hc, ?_⟩
    intro out last hout
    simp only [groupUsersLoop, Except.ok.injEq, Prod.mk.injEq] at hout
    obtain ⟨rfl, rfl⟩ := hout
    exact ⟨ht, [], by simp⟩
  | cons id rest ih =>
    cases hl : usersIndex.lookup id with
    | none =>
      simp only [groupUsersLoop, hl, returnedTriples]
      exact ⟨hc, fun out last h => by cases h⟩
    | some u =>
      have hu : Typed triples u := hi _ (lookup_mem hl)
      cases hT : F.New n .parentOf (.node u) with
      | error err =>
        simp only [groupUsersLoop, hl, hT, returnedTriples]
        exact ⟨hc, fun out last h => by cases h⟩
      | ok e =>
        have he := new_ok hT
        subst he
        have hsup : Supported triples ⟨n, .parentOf, .node u⟩ := supported_parentOf hn hu
        obtain ⟨ih1, ih2⟩ := ih (triples ++ [⟨n, .parentOf, .node u⟩])
          ⟨n, .parentOf, .node u⟩ (hc.snoc hsup) (hn.append _) (hsup.extend _) (hi.grow _)
        simp only [groupUsersLoop, hl, hT]
        refine ⟨ih1, fun out last hout => ?_⟩
        obtain ⟨a, ext, hext⟩ := ih2 out last hout
        exact ⟨a, [⟨n, .parentOf, .node u⟩] ++ ext, by rw [hext]; simp⟩

theorem policyAttachLoop_complete {F : TermFactory} {policyId : String} {n : Node}
    {index : Index} (ids : List String) (triples : List Triple)
    (hc : Complete triples) (hn : Typed triples n) (hi : IndexTyped triples index) :
    Complete (returnedTriples id (policyAttachLoop F policyId n index ids triples)) ∧
    ∀ out, policyAttachLoop F policyId n index ids triples = .ok out →
      ∃ ext, out = triples ++ ext := by
  induction ids generalizing triples with
  | nil =>
    refine ⟨by simpa [policyAttachLoop, returnedTriples] using hc, ?_⟩
    intro out hout
    simp only [policyAttachLoop, Except.ok.injEq] at hout
    exact ⟨[], by simp [hout]⟩
  | cons i rest ih =>
    cases hl : index.lookup i with
    | none =>
      simp only [policyAttachLoop, hl, returnedTriples]
      exact ⟨hc, fun out h => by cases h⟩
    | some u =>
      have hu : Typed triples u := hi _ (lookup_mem hl)
      cases hT : F.New n .parentOf (.node u) with
      | error err =>
        simp only [policyAttachLoop, hl, hT, returnedTriples]
        exact ⟨hc, fun out h => by cases h⟩
      | ok e =>
        have he := new_ok hT
        subst he
        have hsup : Supported triples ⟨n, .parentOf, .node u⟩ := supported_parentOf hn hu
        obtain ⟨ih1, ih2⟩ := ih (triples ++ [⟨n, .parentOf, .node u⟩])
          (hc.snoc hsup) (hn.append _) (hi.grow _)
        simp only [policyAttachLoop, hl, hT]
        refine ⟨ih1, fun out hout => ?_⟩
        obtain ⟨ext, hext⟩ := ih2 out hout
        exact ⟨[⟨n, .parentOf, .node u⟩] ++ ext, by rw [hext]; simp⟩

/-- The groups loop keeps the sequence complete, whether it ends normally or with an
error. -/
theorem groupsLoop_complete {F : TermFactory} {regionN : Node}
    {usersByGroup : String → List String} {usersIndex : Index}
    (groups : List IamGroup) (st : AccessState)
    (hc : Complete st.triples) (hr : Typed st.triples regionN)
    (ht : Supported st.triples st.t) (hi : IndexTyped st.triples st.index)
    (hu : IndexTyped st.triples usersIndex) :
    Complete (returnedTriples AccessState.triples
      (groupsLoop F regionN usersByGroup usersIndex groups st)) ∧
    ∀ out, groupsLoop F regionN usersByGroup usersIndex groups st = .ok out →
      Typed out.triples regionN ∧ Supported out.triples out.t ∧
      IndexTyped out.triples out.index ∧ ∃ ext, out.triples = st.triples ++ ext := by
  induction groups generalizing st with
  | nil =>
    refine ⟨by simpa [groupsLoop, returnedTriples] using hc, ?_⟩
    intro out hout
    simp only [groupsLoop, Except.ok.injEq] at hout
    subst hout
    exact ⟨hr, ht, hi, [], by simp⟩
  | cons group rest ih =>
    obtain ⟨hc1, ⟨ext1, he1⟩, hty⟩ :=
      @addNode_complete F GROUP (StringValue group.GroupId)
        group.record _ hc
    rcases hA : addNode F GROUP (StringValue group.GroupId) group.record st.triples
      with ⟨res, ts⟩
    rw [hA] at hc1 he1 hty
    simp only at hc1 he1 hty
    cases res with
    | error err =>
      simp only [groupsLoop, hA, returnedTriples]
      exact ⟨hc1, fun out h => by cases h⟩
    | ok n =>
      have hn : Typed ts n := hty n rfl
      have hc2 : Complete (ts ++ [st.t]) := hc1.snoc (by rw [he1]; exact ht.extend ext1)
      cases hT : F.New regionN .parentOf (.node n) with
      | error err =>
        simp only [groupsLoop, hA, hT, returnedTriples]
        exact ⟨hc2, fun out h => by cases h⟩
      | ok t =>
        have htt := new_ok hT
        subst htt
        have hr2 : Typed (ts ++ [st.t]) regionN := by
          rw [he1]; exact (hr.append ext1).append _
        have hsup : Supported (ts ++ [st.t]) ⟨regionN, .parentOf, .node n⟩ :=
          supported_parentOf hr2 (hn.append _)
        have hc3 := hc2.snoc hsup
        have hu3 : IndexTyped (ts ++ [st.t] ++ [⟨regionN, .parentOf, .node n⟩]) usersIndex := by
          rw [he1]
          exact ((hu.grow ext1).grow _).grow _
        obtain ⟨g1, g2⟩ := @groupUsersLoop_complete F
          (StringValue group.GroupId) n usersIndex
          (usersByGroup (StringValue group.GroupId))
          (ts ++ [st.t] ++ [⟨regionN, .parentOf, .node n⟩]) ⟨regionN, .parentOf, .node n⟩
          hc3 ((hn.append _).append _) (hsup.extend _) hu3
        cases hL : groupUsersLoop F (StringValue group.GroupId) n usersIndex
            (usersByGroup (StringValue group.GroupId))
            (ts ++ [st.t] ++ [⟨regionN, .parentOf, .node n⟩], ⟨regionN, .parentOf, .node n⟩) with
        | error r =>
          obtain ⟨rts, rerr⟩ := r
          rw [hL] at g1
          simp only [groupsLoop, hA, hT, hL, returnedTriples]
          exact ⟨g1, fun out h => by cases h⟩
        | ok r =>
          obtain ⟨ts4, t4⟩ := r
          rw [hL] at g1
          obtain ⟨hs4, ext4, he4⟩ := g2 ts4 t4 hL
          simp only [returnedTriples] at g1
          have hi4 : IndexTyped ts4 ((StringValue group.GroupId, n) :: st.index) := by
            intro e he
            rw [he4]
            rcases List.mem_cons.1 he with rfl | he
            · exact ((hn.append _).append _).append _
            · rw [he1]
              exact ((((hi e he).append ext1).append _).append _).append _
          have hu4 : IndexTyped ts4 usersIndex := by
            rw [he4]; exact hu3.grow _
          have hr4 : Typed ts4 regionN := by
            rw [he4]; exact (hr2.append _).append _
          obtain ⟨ih1, ih2⟩ := ih ⟨ts4, t4, (StringValue group.GroupId, n) :: st.index⟩
            g1 hr4 hs4 hi4 hu4
          simp only [groupsLoop, hA, hT, hL]
          refine ⟨ih1, fun out hout => ?_⟩
          obtain ⟨a, b, c, ext, hext⟩ := ih2 out hout
          refine ⟨a, b, c, ext1 ++ [st.t] ++ [⟨regionN, .parentOf, .node n⟩] ++ ext4 ++ ext, ?_⟩
          rw [hext, he4, he1]
          simp

/-- The policies loop keeps the sequence complete, whether it ends normally or with an
error. -/
theorem policiesLoop_complete {F : TermFactory} {regionN : Node} {access : AwsAccess}
    {usersIndex rolesIndex groupsIndex : Index}
    (policies : List IamPolicy) (triples : List Triple) (t : Triple)
    (hc : Complete triples) (hr : Typed triples regionN) (ht : Supported triples t)
    (hu : IndexTyped triples usersIndex) (hro : IndexTyped triples rolesIndex)
    (hg : IndexTyped triples groupsIndex) :
    Complete (returnedTriples Prod.fst
      (policiesLoop F regionN access usersIndex rolesIndex groupsIndex policies
        (triples, t))) := by
  induction policies generalizing triples t with
  | nil => simpa [policiesLoop, returnedTriples] using hc
  | cons policy rest ih =>
    obtain ⟨hc1, ⟨ext1, he1⟩, hty⟩ :=
      @addNode_complete F POLICY (StringValue policy.PolicyId)
        policy.record _ hc
    rcases hA : addNode F POLICY (StringValue policy.PolicyId) policy.record triples
      with ⟨res, ts⟩
    rw [hA] at hc1 he1 hty
    simp only at hc1 he1 hty
    cases res with
    | error err =>
      simp only [policiesLoop, hA, returnedTriples]
      exact hc1
    | ok n =>
      have hn : Typed ts n := hty n rfl
      have hc2 : Complete (ts ++ [t]) := hc1.snoc (by rw [he1]; exact ht.extend ext1)
      cases hT : F.New regionN .parentOf (.node n) with
      | error err =>
        simp only [policiesLoop, hA, hT, returnedTriples]
        exact hc2
      | ok e =>
        have htt := new_ok hT
        subst htt
        have hr2 : Typed (ts ++ [t]) regionN := by
          rw [he1]; exact (hr.append ext1).append _
        have hsup : Supported (ts ++ [t]) ⟨regionN, .parentOf, .node n⟩ :=
          supported_parentOf hr2 (hn.append _)
        have hc3 := hc2.snoc hsup
        have hn3 : Typed (ts ++ [t] ++ [⟨regionN, .parentOf, .node n⟩]) n :=
          (hn.append _).append _
        have lift : ∀ {index : Index}, IndexTyped triples index →
            IndexTyped (ts ++ [t] ++ [⟨regionN, .parentOf, .node n⟩]) index := by
          intro index h
          rw [he1]
          exact ((h.grow ext1).grow _).grow _
        obtain ⟨a1, a2⟩ := @policyAttachLoop_complete F
          (StringValue policy.PolicyId) n usersIndex
          (access.UsersByLocalPolicies (StringValue policy.PolicyId)) _ hc3 hn3 (lift hu)
        simp only [policiesLoop, hA, hT]
        cases hL1 : policyAttachLoop F (StringValue policy.PolicyId) n usersIndex
            (access.UsersByLocalPolicies (StringValue policy.PolicyId))
            (ts ++ [t] ++ [⟨regionN, .parentOf, .node n⟩]) with
        | error r =>
          obtain ⟨rts, rerr⟩ := r
          rw [hL1] at a1
          simpa [returnedTriples] using a1
        | ok ts5 =>
          rw [hL1] at a1
          simp only [returnedTriples, id] at a1
          obtain ⟨ext5, he5⟩ := a2 ts5 hL1
          obtain ⟨b1, b2⟩ := @policyAttachLoop_complete F
            (StringValue policy.PolicyId) n groupsIndex
            (access.GroupsByLocalPolicies (StringValue policy.PolicyId)) ts5 a1
            (by rw [he5]; exact hn3.append _) (by rw [he5]; exact (lift hg).grow _)
          simp only []
          cases hL2 : policyAttachLoop F (StringValue policy.PolicyId) n groupsIndex
              (access.GroupsByLocalPolicies (StringValue policy.PolicyId)) ts5 with
          | error r =>
            obtain ⟨rts, rerr⟩ := r
            rw [hL2] at b1
            simpa [returnedTriples] using b1
          | ok ts6 =>
            rw [hL2] at b1
            simp only [returnedTriples, id] at b1
            obtain ⟨ext6, he6⟩ := b2 ts6 hL2
            obtain ⟨c1, c2⟩ := @policyAttachLoop_complete F
              (StringValue policy.PolicyId) n rolesIndex
              (access.RolesByLocalPolicies (StringValue policy.PolicyId)) ts6 b1
              (by rw [he6, he5]; exact (hn3.append _).append _)
              (by rw [he6, he5]; exact ((lift hro).grow _).grow _)
            simp only []
            cases hL3 : policyAttachLoop F (StringValue policy.PolicyId) n rolesIndex
                (access.RolesByLocalPolicies (StringValue policy.PolicyId)) ts6 with
            | error r =>
              obtain ⟨rts, rerr⟩ := r
              rw [hL3] at c1
              simpa [returnedTriples] using c1
            | ok ts7 =>
              rw [hL3] at c1
              simp only [returnedTriples, id] at c1
              obtain ⟨ext7, he7⟩ := c2 ts7 hL3
              have lift7 : ∀ {index : Index}, IndexTyped triples index →
                  IndexTyped ts7 index := by
                intro index h
                rw [he7, he6, he5]
                exact (((lift h).grow _).grow _).grow _
              simp only []
              apply ih ts7 ⟨regionN, .parentOf, .node n⟩ c1
              · rw [he7, he6, he5]
                exact (((hr2.append _).append _).append _).append _
              · rw [he7, he6, he5]
                exact (((hsup.extend _).extend _).extend _).extend _
              · exact lift7 hu
              · exact lift7 hro
              · exact lift7 hg

theorem typed_singleton (s : Node) (o : Object) : Typed [⟨s, .hasType, o⟩] s :=
  ⟨_, List.mem_singleton.2 rfl, rfl, rfl⟩

theorem complete_singleton (s : Node) (o : Object) : Complete [⟨s, .hasType, o⟩] := by
  have := Complete.nil.snoc (t := ⟨s, .hasType, o⟩) (fun h => by cases h)
  simpa using this

/-- The sequence returned by the access builder is complete, on success and on error. -/
theorem buildAccessRdfTriples_complete (F : TermFactory) (region : String)
    (access : AwsAccess) : Complete (buildAccessRdfTriples F region access).1 := by
  unfold buildAccessRdfTriples
  split
  · exact Complete.nil
  · next regionN hN =>
    split
    · exact Complete.nil
    · next t hT =>
      have ht := new_ok hT
      subst ht
      have ht0 : Supported [(⟨regionN, .hasType, .literal regionL⟩ : Triple)]
          ⟨regionN, .hasType, .literal regionL⟩ := fun h => by cases h
      obtain ⟨u1, u2⟩ := @regionChildrenLoop_complete F regionN
        USER (access.Users.map fun user => (StringValue user.UserId, user.record))
        ⟨[⟨regionN, .hasType, .literal regionL⟩], ⟨regionN, .hasType, .literal regionL⟩, []⟩
        (complete_singleton _ _) (typed_singleton _ _) ht0 (fun e he => by cases he)
      split
      · next rts rerr hU =>
        rw [hU] at u1
        simpa [returnedTriples] using u1
      · next ts1 t1 usersIndex hU =>
        rw [hU] at u1
        simp only [returnedTriples] at u1
        obtain ⟨hr1, hs1, hi1, ext1, he1⟩ := u2 _ hU
        simp only at u1 hr1 hs1 hi1 he1
        obtain ⟨r1, r2⟩ := @regionChildrenLoop_complete F regionN
          ROLE (access.Roles.map fun role => (StringValue role.RoleId, role.record))
          ⟨ts1, t1, []⟩ u1 hr1 hs1 (fun e he => by cases he)
        split
        · next rts rerr hR =>
          rw [hR] at r1
          simpa [returnedTriples] using r1
        · next ts2 t2 rolesIndex hR =>
          rw [hR] at r1
          simp only [returnedTriples] at r1
          obtain ⟨hr2, hs2, hi2, ext2, he2⟩ := r2 _ hR
          simp only at r1 hr2 hs2 hi2 he2
          have hu2 : IndexTyped ts2 usersIndex := by
            rw [he2]; exact hi1.grow _
          obtain ⟨g1, g2⟩ := @groupsLoop_complete F regionN
            access.UsersByGroup usersIndex access.Groups
            ⟨ts2, t2, []⟩ r1 hr2 hs2 (fun e he => by cases he) hu2
          split
          · next rts rerr hG =>
            rw [hG] at g1
            simpa [returnedTriples] using g1
          · next ts3 t3 groupsIndex hG =>
            rw [hG] at g1
            simp only [returnedTriples] at g1
            obtain ⟨hr3, hs3, hi3, ext3, he3⟩ := g2 _ hG
            simp only at g1 hr3 hs3 hi3 he3
            have p1 := @policiesLoop_complete F regionN access
              usersIndex rolesIndex
              groupsIndex access.LocalPolicies ts3 t3 g1 hr3 hs3
              (by rw [he3]; exact hu2.grow _) (by rw [he3]; exact hi2.grow _) hi3
            split
            · next rts rerr hP =>
              rw [hP] at p1
              simpa [returnedTriples] using p1
            · next ts4 t4 hP =>
              rw [hP] at p1
              simpa [returnedTriples] using p1

theorem vpcsLoop_complete {F : TermFactory} {regionN : Node} (vpcs : List Ec2Vpc)
    (triples : List Triple) (vpcNodes : List Node)
    (hc : Complete triples) (hr : Typed triples regionN)
    (hv : ∀ v ∈ vpcNodes, Typed triples v) :
    Complete (returnedTriples Prod.fst (vpcsLoop F regionN vpcs (triples, vpcNodes))) ∧
    ∀ out nodes, vpcsLoop F regionN vpcs (triples, vpcNodes) = .ok (out, nodes) →
      ∀ v ∈ nodes, Typed out v := by
  induction vpcs generalizing triples vpcNodes with
  | nil =>
    refine ⟨by simpa [vpcsLoop, returnedTriples] using hc, ?_⟩
    intro out nodes hout
    simp only [vpcsLoop, Except.ok.injEq, Prod.mk.injEq] at hout
    obtain ⟨rfl, rfl⟩ := hout
    exact hv
  | cons vpc rest ih =>
    obtain ⟨hc1, ⟨ext1, he1⟩, hty⟩ :=
      @addNode_complete F VPC (StringValue vpc.VpcId)
        vpc.record _ hc
    rcases hA : addNode F VPC (StringValue vpc.VpcId) vpc.record triples with ⟨res, ts⟩
    rw [hA] at hc1 he1 hty
    simp only at hc1 he1 hty
    cases res with
    | error err =>
      simp only [vpcsLoop, hA, returnedTriples]
      exact ⟨hc1, fun out nodes h => by cases h⟩
    | ok n =>
      have hn : Typed ts n := hty n rfl
      cases hT : F.New regionN .parentOf (.node n) with
      | error err =>
        simp only [vpcsLoop, hA, hT, returnedTriples]
        exact ⟨hc1, fun out nodes h => by cases h⟩
      | ok t =>
        have htt := new_ok hT
        subst htt
        have hr1 : Typed ts regionN := by rw [he1]; exact hr.append _
        have hsup : Supported ts ⟨regionN, .parentOf, .node n⟩ := supported_parentOf hr1 hn
        have hv2 : ∀ v ∈ vpcNodes ++ [n], Typed (ts ++ [⟨regionN, .parentOf, .node n⟩]) v := by
          intro v hv2
          rcases List.mem_append.1 hv2 with h | h
          · rw [he1]; exact ((hv v h).append _).append _
          · simp only [List.mem_singleton] at h
            subst h
            exact hn.append _
        simp only [vpcsLoop, hA, hT]
        exact ih _ _ (hc1.snoc hsup) (hr1.append _) hv2

theorem subnetsLoop_complete {F : TermFactory} {vpcNodes : List Node}
    (subnets : List Ec2Subnet) (triples : List Triple) (subnetNodes : List Node)
    (hc : Complete triples) (hv : ∀ v ∈ vpcNodes, Typed triples v)
    (hs : ∀ v ∈ subnetNodes, Typed triples v) :
    Complete (returnedTriples Prod.fst
      (subnetsLoop F vpcNodes subnets (triples, subnetNodes))) ∧
    ∀ out nodes, subnetsLoop F vpcNodes subnets (triples, subnetNodes) = .ok (out, nodes) →
      ∀ v ∈ nodes, Typed out v := by
  induction subnets generalizing triples subnetNodes with
  | nil =>
    refine ⟨by simpa [subnetsLoop, returnedTriples] using hc, ?_⟩
    intro out nodes hout
    simp only [subnetsLoop, Except.ok.injEq, Prod.mk.injEq] at hout
    obtain ⟨rfl, rfl⟩ := hout
    exact hs
  | cons subnet rest ih =>
    obtain ⟨hc1, ⟨ext1, he1⟩, hty⟩ :=
      @addNode_complete F SUBNET (StringValue subnet.SubnetId)
        subnet.record _ hc
    rcases hA : addNode F SUBNET (StringValue subnet.SubnetId) subnet.record triples
      with ⟨res, ts⟩
    rw [hA] at hc1 he1 hty
    simp only at hc1 he1 hty
    cases res with
    | error err =>
      simp only [subnetsLoop, hA, returnedTriples]
      exact ⟨hc1, fun out nodes h => by cases h⟩
    | ok n =>
      have hn : Typed ts n := hty n rfl
      have hs2 : ∀ (ext : List Triple), ∀ v ∈ subnetNodes ++ [n], Typed (ts ++ ext) v := by
        intro ext v hv2
        rcases List.mem_append.1 hv2 with h | h
        · rw [he1]; exact ((hs v h).append _).append _
        · simp only [List.mem_singleton] at h
          subst h
          exact hn.append _
      have hv1 : ∀ (ext : List Triple), ∀ v ∈ vpcNodes, Typed (ts ++ ext) v := by
        intro ext v h
        rw [he1]; exact ((hv v h).append _).append _
      cases hf : findNodeById vpcNodes (StringValue subnet.VpcId) with
      | none =>
        simp only [subnetsLoop, hA, hf]
        have := ih ts (subnetNodes ++ [n]) hc1 (by simpa using hv1 [])
          (by simpa using hs2 [])
        exact this
      | some vpcN =>
        have hvn : Typed ts vpcN := by
          have := hv1 [] vpcN (findNodeById_some hf).1
          simpa using this
        cases hT : F.New vpcN .parentOf (.node n) with
        | error err =>
          simp only [subnetsLoop, hA, hf, hT, returnedTriples]
          exact ⟨hc1, fun out nodes h => by cases h⟩
        | ok t =>
          have htt := new_ok hT
          subst htt
          simp only [subnetsLoop, hA, hf, hT]
          exact ih _ _ (hc1.snoc (supported_parentOf hvn hn)) (hv1 _) (hs2 _)

theorem instancesLoop_complete {F : TermFactory} {subnetNodes : List Node}
    (instances : List Ec2Instance) (triples : List Triple)
    (hc : Complete triples) (hs : ∀ v ∈ subnetNodes, Typed triples v) :
    Complete (returnedTriples id (instancesLoop F subnetNodes instances triples)) := by
  induction instances generalizing triples with
  | nil => simpa [instancesLoop, returnedTriples] using hc
  | cons inst rest ih =>
    obtain ⟨hc1, ⟨ext1, he1⟩, hty⟩ :=
      @addNode_complete F INSTANCE (StringValue inst.InstanceId)
        inst.record _ hc
    rcases hA : addNode F INSTANCE (StringValue inst.InstanceId) inst.record triples
      with ⟨res, ts⟩
    rw [hA] at hc1 he1 hty
    simp only at hc1 he1 hty
    cases res with
    | error err =>
      simp only [instancesLoop, hA, returnedTriples]
      exact hc1
    | ok n =>
      have hn : Typed ts n := hty n rfl
      have hs1 : ∀ (ext : List Triple), ∀ v ∈ subnetNodes, Typed (ts ++ ext) v := by
        intro ext v h
        rw [he1]; exact ((hs v h).append _).append _
      cases hf : findNodeById subnetNodes (StringValue inst.SubnetId) with
      | none =>
        simp only [instancesLoop, hA, hf]
        exact ih ts hc1 (by simpa using hs1 [])
      | some subnetN =>
        have hsn : Typed ts subnetN := by
          have := hs1 [] subnetN (findNodeById_some hf).1
          simpa using this
        cases hT : F.New subnetN .parentOf (.node n) with
        | error err =>
          simp only [instancesLoop, hA, hf, hT, returnedTriples]
          exact hc1
        | ok t =>
          have htt := new_ok hT
          subst htt
          simp only [instancesLoop, hA, hf, hT]
          exact ih _ (hc1.snoc (supported_parentOf hsn hn)) (hs1 _)

/-- The sequence returned by the infrastructure builder is complete, on success and on
error. -/
theorem buildInfraRdfTriples_complete (F : TermFactory) (region : String)
    (infra : AwsInfra) : Complete (buildInfraRdfTriples F region infra).1 := by
  unfold buildInfraRdfTriples
  split
  · exact Complete.nil
  · next regionN hN =>
    split
    · exact Complete.nil
    · next t hT =>
      have ht := new_ok hT
      subst ht
      obtain ⟨v1, v2⟩ := @vpcsLoop_complete F regionN infra.Vpcs
        [⟨regionN, .hasType, .literal regionL⟩] [] (complete_singleton _ _)
        (typed_singleton _ _) (fun v hv => by cases hv)
      split
      · next rts rerr hV =>
        rw [hV] at v1
        simpa [returnedTriples] using v1
      · next ts1 vpcNodes hV =>
        rw [hV] at v1
        simp only [returnedTriples] at v1
        obtain ⟨s1, s2⟩ := @subnetsLoop_complete F vpcNodes infra.Subnets
          ts1 [] v1 (v2 _ _ hV) (fun v hv => by cases hv)
        split
        · next rts rerr hS =>
          rw [hS] at s1
          simpa [returnedTriples] using s1
        · next ts2 subnetNodes hS =>
          rw [hS] at s1
          simp only [returnedTriples] at s1
          have i1 := @instancesLoop_complete F subnetNodes
            infra.Instances ts2 s1 (s2 _ _ hS)
          split
          · next rts rerr hI =>
            rw [hI] at i1
            simpa [returnedTriples] using i1
          · next ts3 hI =>
            rw [hI] at i1
            simpa [returnedTriples] using i1

/-- C11: in every statement sequence returned by `buildAccessRdfTriples` or
`buildInfraRdfTriples`, on success or on error, wherever a `ParentOf` statement stands, a
`HasType` statement whose subject is the subject of the edge and a `HasType` statement
whose subject is the object node of the edge stand at earlier positions. -/
theorem referential_completeness (F : TermFactory) (region : String) (access : AwsAccess)
    (infra : AwsInfra) :
    (∀ before t after, (buildAccessRdfTriples F region access).1 = before ++ t :: after →
      t.p = .parentOf →
        (∃ h ∈ before, h.p = .hasType ∧ h.s = t.s) ∧
        ∀ o, t.o = .node o → ∃ h ∈ before, h.p = .hasType ∧ h.s = o) ∧
    (∀ before t after, (buildInfraRdfTriples F region infra).1 = before ++ t :: after →
      t.p = .parentOf →
        (∃ h ∈ before, h.p = .hasType ∧ h.s = t.s) ∧
        ∀ o, t.o = .node o → ∃ h ∈ before, h.p = .hasType ∧ h.s = o) :=
  ⟨buildAccessRdfTriples_complete F region access,
    buildInfraRdfTriples_complete F region infra⟩

theorem referential_completeness_witness :
    (buildAccessRdfTriples acceptAll "eu-west-1" danglingGroupAccess).1 =
      [regionStatement "eu-west-1",
        ⟨⟨GROUP, "g-1"⟩, .hasType, .literal ⟨GROUP⟩⟩,
        ⟨⟨GROUP, "g-1"⟩, .prop "Id", .literal ⟨"g-1"⟩⟩,
        regionStatement "eu-west-1"] ++
        parentOf ⟨REGION, "eu-west-1"⟩ ⟨GROUP, "g-1"⟩ :: [] ∧
    (∃ h ∈ [regionStatement "eu-west-1",
        ⟨⟨GROUP, "g-1"⟩, .hasType, .literal ⟨GROUP⟩⟩,
        ⟨⟨GROUP, "g-1"⟩, .prop "Id", .literal ⟨"g-1"⟩⟩,
        regionStatement "eu-west-1"],
      h.p = .hasType ∧ h.s = ⟨GROUP, "g-1"⟩) :=
  ⟨rfl,
    ((referential_completeness acceptAll "eu-west-1" danglingGroupAccess exampleInfra).1
      _ _ _ rfl rfl).2 ⟨GROUP, "g-1"⟩ rfl⟩

/-! ### The re-appended statements -/

theorem weave_append (t : Triple) (l1 l2 : List Segment) :
    weave t (l1 ++ l2) = weave t l1 ++ weave (nextAfter t l1) l2 := by
  induction l1 generalizing t with
  | nil => simp [weave, nextAfter]
  | cons s l1 ih => simp [weave, nextAfter, ih]

theorem nextAfter_append (t : Triple) (l1 l2 : List Segment) :
    nextAfter t (l1 ++ l2) = nextAfter (nextAfter t l1) l2 := by
  induction l1 generalizing t with
  | nil => simp [nextAfter]
  | cons s l1 ih => simp [nextAfter, ih]

theorem weave_users (regionN : Node) (users : List IamUser) (t : Triple) :
    weave t (users.map (userSegment regionN)) =
      regionChildrenStatements regionN USER
        (users.map fun user => (StringValue user.UserId, user.record)) t ∧
    nextAfter t (users.map (userSegment regionN)) =
      regionChildrenLast regionN USER
        (users.map fun user => (StringValue user.UserId, user.record)) t := by
  induction users generalizing t with
  | nil => simp [weave, nextAfter, regionChildrenStatements, regionChildrenLast]
  | cons user rest ih =>
    simp [weave, nextAfter, regionChildrenStatements, regionChildrenLast, userSegment,
      (ih _).1, (ih _).2]

theorem weave_roles (regionN : Node) (roles : List IamRole) (t : Triple) :
    weave t (roles.map (roleSegment regionN)) =
      regionChildrenStatements regionN ROLE
        (roles.map fun role => (StringValue role.RoleId, role.record)) t ∧
    nextAfter t (roles.map (roleSegment regionN)) =
      regionChildrenLast regionN ROLE
        (roles.map fun role => (StringValue role.RoleId, role.record)) t := by
  induction roles generalizing t with
  | nil => simp [weave, nextAfter, regionChildrenStatements, regionChildrenLast]
  | cons role rest ih =>
    simp [weave, nextAfter, regionChildrenStatements, regionChildrenLast, roleSegment,
      (ih _).1, (ih _).2]

theorem weave_groups (regionN : Node) (usersByGroup : String → List String)
    (groups : List IamGroup) (t : Triple) :
    weave t (groups.map (groupSegment regionN usersByGroup)) =
      groupsStatements regionN usersByGroup groups t ∧
    nextAfter t (groups.map (groupSegment regionN usersByGroup)) =
      groupsLast regionN usersByGroup groups t := by
  induction groups generalizing t with
  | nil => simp [weave, nextAfter, groupsStatements, groupsLast]
  | cons group rest ih =>
    simp [weave, nextAfter, groupsStatements, groupsLast, groupSegment, (ih _).1, (ih _).2]

theorem weave_policies (regionN : Node) (access : AwsAccess) (policies : List IamPolicy)
    (t : Triple) :
    weave t (policies.map (policySegment regionN access)) =
      policiesStatements regionN access policies t := by
  induction policies generalizing t with
  | nil => simp [weave, policiesStatements]
  | cons policy rest ih =>
    simp [weave, policiesStatements, policySegment, ih]

/-- The sequence of a successful access pass is the region statement followed by the
iterations, each re-appending the outer variable `t`. -/
theorem accessStatements_eq_weave (region : String) (access : AwsAccess) :
    accessStatements region access =
      regionStatement region :: weave (regionStatement region) (accessSegments region access) := by
  simp only [accessStatements, accessSegments, weave_append, nextAfter_append,
    (weave_users _ _ _).1, (weave_users _ _ _).2, (weave_roles _ _ _).1,
    (weave_roles _ _ _).2, (weave_groups _ _ _ _).1, (weave_groups _ _ _ _).2,
    weave_policies, tAfterRoles, tAfterGroups, userRecords, roleRecords, List.cons_append,
    List.append_assoc]

theorem reappended_eq (t : Triple) (segments : List Segment) :
    reappended t segments = (t :: segments.map Segment.next).take segments.length := by
  induction segments generalizing t with
  | nil => simp [reappended]
  | cons s rest ih => simp [reappended, ih]

theorem groupLast_parentOf (regionN : Node) (usersByGroup : String → List String)
    (group : IamGroup) : (groupLast regionN usersByGroup group).p = .parentOf := by
  unfold groupLast
  rcases getLast?_getD_mem_or
    (memberStatements ⟨GROUP, StringValue group.GroupId⟩ USER
      (usersByGroup (StringValue group.GroupId)))
    (parentOf regionN ⟨GROUP, StringValue group.GroupId⟩) with h | h
  · rw [h]; rfl
  · obtain ⟨_, _, hid⟩ := mem_memberStatements.1 h
    rw [hid]; rfl

theorem accessSegments_next (region : String) (access : AwsAccess) :
    ∀ s ∈ accessSegments region access, s.next.p = .parentOf ∧ s.next ∈ s.tail := by
  intro s hs
  simp only [accessSegments, List.mem_append, List.mem_map] at hs
  rcases hs with ((⟨x, _, rfl⟩ | ⟨x, _, rfl⟩) | ⟨x, _, rfl⟩) | ⟨x, _, rfl⟩
  · exact ⟨rfl, by simp [userSegment]⟩
  · exact ⟨rfl, by simp [roleSegment]⟩
  · refine ⟨groupLast_parentOf _ _ _, ?_⟩
    simp only [groupSegment, groupLast]
    rcases getLast?_getD_mem_or
      (memberStatements ⟨GROUP, StringValue x.GroupId⟩ USER
        (access.UsersByGroup (StringValue x.GroupId)))
      (parentOf ⟨REGION, region⟩ ⟨GROUP, StringValue x.GroupId⟩) with h | h
    · rw [h]; exact List.mem_cons_self _ _
    · exact List.mem_cons_of_mem _ h
  · exact ⟨rfl, by simp [policySegment]⟩

theorem accessSegments_length (region : String) (access : AwsAccess) :
    (accessSegments region access).length =
      access.Users.length + access.Roles.length + access.Groups.length +
        access.LocalPolicies.length := by
  simp only [accessSegments, List.length_append, List.length_map]

theorem reappended_length (t : Triple) (segments : List Segment) :
    (reappended t segments).length = segments.length := by
  induction segments generalizing t with
  | nil => rfl
  | cons s rest ih => simp [reappended, ih]

/-- C15 fails on the code: with two user records `u-1` and `u-2` and nothing else, the
pass succeeds and two statements are re-appended through the stale variable `t` (line 95);
the first is the region statement, but the second is the edge from the region to `u-1`,
which the iteration of the first user assigned to the outer `t` with `=` (line 96), and
which is not the region statement. -/
theorem second_reappended_is_an_edge :
    BuildAwsAccessGraph acceptAll "eu-west-1" twoUsersAccess =
      (some ⟨[regionStatement "eu-west-1",
        ⟨⟨USER, "u-1"⟩, .hasType, .literal ⟨USER⟩⟩,
        ⟨⟨USER, "u-1"⟩, .prop "Id", .literal ⟨"u-1"⟩⟩,
        regionStatement "eu-west-1",
        parentOf ⟨REGION, "eu-west-1"⟩ ⟨USER, "u-1"⟩,
        ⟨⟨USER, "u-2"⟩, .hasType, .literal ⟨USER⟩⟩,
        ⟨⟨USER, "u-2"⟩, .prop "Id", .literal ⟨"u-2"⟩⟩,
        parentOf ⟨REGION, "eu-west-1"⟩ ⟨USER, "u-1"⟩,
        parentOf ⟨REGION, "eu-west-1"⟩ ⟨USER, "u-2"⟩]⟩, none) ∧
    reappended (regionStatement "eu-west-1") (accessSegments "eu-west-1" twoUsersAccess) =
      [regionStatement "eu-west-1", parentOf ⟨REGION, "eu-west-1"⟩ ⟨USER, "u-1"⟩] ∧
    parentOf ⟨REGION, "eu-west-1"⟩ ⟨USER, "u-1"⟩ ≠ regionStatement "eu-west-1" :=
  ⟨rfl, rfl, by decide⟩

/-- What the code re-appends: on every successful access pass the sequence is the region
statement followed, for every entity record in order (users, roles, groups, policies), by
the block of the entity, the re-appended statement and the edges of the entity; there is
one re-appended statement per entity record; the first is the region statement, and each
later one is the statement the iteration of the previous entity left in `t`, a `ParentOf`
statement among the edges of that entity. -/
theorem reappended_statements (F : TermFactory) (region : String) (access : AwsAccess)
    (g : Graph) (h : BuildAwsAccessGraph F region access = (some g, none)) :
    g.triples =
      regionStatement region :: weave (regionStatement region) (accessSegments region access) ∧
    (reappended (regionStatement region) (accessSegments region access)).length =
      access.Users.length + access.Roles.length + access.Groups.length +
        access.LocalPolicies.length ∧
    reappended (regionStatement region) (accessSegments region access) =
      (regionStatement region :: (accessSegments region access).map Segment.next).take
        (accessSegments region access).length ∧
    ∀ s ∈ accessSegments region access, s.next.p = .parentOf ∧ s.next ∈ s.tail := by
  refine ⟨?_, ?_, reappended_eq _ _, accessSegments_next region access⟩
  · rw [(BuildAwsAccessGraph_triples h).1, accessStatements_eq_weave]
  · rw [reappended_length, accessSegments_length]

theorem reappended_statements_witness :
    ∃ g, BuildAwsAccessGraph acceptAll "eu-west-1" twoUsersAccess = (some g, none) ∧
      g.triples = regionStatement "eu-west-1" ::
        weave (regionStatement "eu-west-1") (accessSegments "eu-west-1" twoUsersAccess) ∧
      (reappended (regionStatement "eu-west-1")
        (accessSegments "eu-west-1" twoUsersAccess)).length = 2 + 0 + 0 + 0 :=
  ⟨_, rfl,
    (reappended_statements acceptAll "eu-west-1" twoUsersAccess _ rfl).1,
    (reappended_statements acceptAll "eu-west-1" twoUsersAccess _ rfl).2.1⟩

/-- C16 fails on the code: with user `u-1`, role `r-1`, group `g-1` whose only member is
`u-1`, and policy `p-1`, the pass succeeds, the group ids and the member list have no
duplicate, and the statement `(g-1, ParentOf, u-1)` occurs twice: once from the membership
loop (line 146) and once re-appended through the stale variable `t` when the policy is
compiled (line 156). -/
theorem group_member_edge_repeated :
    ∃ g, BuildAwsAccessGraph acceptAll "eu-west-1" exampleAccess = (some g, none) ∧
      (groupIds exampleAccess).Nodup ∧ (exampleAccess.UsersByGroup "g-1").Nodup ∧
      (⟨some "g-1"⟩ : IamGroup) ∈ exampleAccess.Groups ∧
      exampleAccess.UsersByGroup "g-1" = ["u-1"] ∧
      g.triples.count (parentOf ⟨GROUP, "g-1"⟩ ⟨USER, "u-1"⟩) = 2 ∧
      g.triples.countP (isParentOfFrom ⟨GROUP, "g-1"⟩) = 2 :=
  ⟨_, rfl, by decide, by decide, by decide, rfl, by decide, by decide⟩

/-! ### What the access builder reads of the join tables -/

/-- The groups loop reads `UsersByGroup` only at the ids of the group records. -/
theorem groupsLoop_congr (F : TermFactory) (regionN : Node)
    (usersByGroup usersByGroup2 : String → List String) (usersIndex : Index)
    (groups : List IamGroup) (st : AccessState)
    (h : ∀ group ∈ groups,
      usersByGroup2 (StringValue group.GroupId) = usersByGroup (StringValue group.GroupId)) :
    groupsLoop F regionN usersByGroup2 usersIndex groups st =
      groupsLoop F regionN usersByGroup usersIndex groups st := by
  induction groups generalizing st with
  | nil => simp [groupsLoop]
  | cons group rest ih =>
    have ih2 := fun st => ih st fun g hg => h g (List.mem_cons_of_mem _ hg)
    simp only [groupsLoop, h group (List.mem_cons_self _ _), ih2]

/-- The policies loop reads the three attachment tables only at the ids of the policy
records. -/
theorem policiesLoop_congr (F : TermFactory) (regionN : Node) (access access2 : AwsAccess)
    (usersIndex rolesIndex groupsIndex : Index) (policies : List IamPolicy)
    (st : List Triple × Triple)
    (h : ∀ policy ∈ policies,
      access2.UsersByLocalPolicies (StringValue policy.PolicyId) =
        access.UsersByLocalPolicies (StringValue policy.PolicyId) ∧
      access2.GroupsByLocalPolicies (StringValue policy.PolicyId) =
        access.GroupsByLocalPolicies (StringValue policy.PolicyId) ∧
      access2.RolesByLocalPolicies (StringValue policy.PolicyId) =
        access.RolesByLocalPolicies (StringValue policy.PolicyId)) :
    policiesLoop F regionN access2 usersIndex rolesIndex groupsIndex policies st =
      policiesLoop F regionN access usersIndex rolesIndex groupsIndex policies st := by
  induction policies generalizing st with
  | nil => simp [policiesLoop]
  | cons policy rest ih =>
    obtain ⟨triples, t⟩ := st
    have ih2 := fun st => ih st fun p hp => h p (List.mem_cons_of_mem _ hp)
    obtain ⟨h1, h2, h3⟩ := h policy (List.mem_cons_self _ _)
    simp only [policiesLoop, h1, h2, h3, ih2]

/-- The access builder reads the join tables only at the ids of the group records resp.
policy records. -/
theorem buildAccessRdfTriples_congr (F : TermFactory) (region : String)
    (access access2 : AwsAccess)
    (hu : access2.Users = access.Users) (hr : access2.Roles = access.Roles)
    (hg : access2.Groups = access.Groups)
    (hp : access2.LocalPolicies = access.LocalPolicies)
    (hgroups : ∀ group ∈ access.Groups,
      access2.UsersByGroup (StringValue group.GroupId) =
        access.UsersByGroup (StringValue group.GroupId))
    (hpolicies : ∀ policy ∈ access.LocalPolicies,
      access2.UsersByLocalPolicies (StringValue policy.PolicyId) =
        access.UsersByLocalPolicies (StringValue policy.PolicyId) ∧
      access2.GroupsByLocalPolicies (StringValue policy.PolicyId) =
        access.GroupsByLocalPolicies (StringValue policy.PolicyId) ∧
      access2.RolesByLocalPolicies (StringValue policy.PolicyId) =
        access.RolesByLocalPolicies (StringValue policy.PolicyId)) :
    buildAccessRdfTriples F region access2 = buildAccessRdfTriples F region access := by
  have k1 := fun ui st => groupsLoop_congr F ⟨REGION, region⟩ access.UsersByGroup
    access2.UsersByGroup ui access.Groups st hgroups
  have k2 := fun rn ui ri gi st => policiesLoop_congr F rn access access2 ui ri gi
    access.LocalPolicies st hpolicies
  have k3 := fun rn ui st => groupsLoop_congr F rn access.UsersByGroup
    access2.UsersByGroup ui access.Groups st hgroups
  unfold buildAccessRdfTriples
  simp only [hu, hr, hg, hp, k2, k3]

/-- C18: when the term constructors accept every term of the pass, the builder succeeds
exactly when every id listed in `UsersByGroup` at the id of a group record is the id of a
user record and every id attached to the id of a policy record is the id of a record of
the matching kind; and the result of the builder, statements and error alike, does not
change when the join tables are changed at keys that are the id of no group record resp.
policy record. -/
theorem access_success_iff (F : TermFactory) (region : String) (access : AwsAccess) :
    (AcceptsAccess F region access →
      ((∃ g, BuildAwsAccessGraph F region access = (some g, none)) ↔
        NoDanglingGroups access ∧ NoDanglingPolicies access)) ∧
    (∀ access2 : AwsAccess,
      access2.Users = access.Users → access2.Roles = access.Roles →
      access2.Groups = access.Groups → access2.LocalPolicies = access.LocalPolicies →
      (∀ group ∈ access.Groups,
        access2.UsersByGroup (StringValue group.GroupId) =
          access.UsersByGroup (StringValue group.GroupId)) →
      (∀ policy ∈ access.LocalPolicies,
        access2.UsersByLocalPolicies (StringValue policy.PolicyId) =
          access.UsersByLocalPolicies (StringValue policy.PolicyId) ∧
        access2.GroupsByLocalPolicies (StringValue policy.PolicyId) =
          access.GroupsByLocalPolicies (StringValue policy.PolicyId) ∧
        access2.RolesByLocalPolicies (StringValue policy.PolicyId) =
          access.RolesByLocalPolicies (StringValue policy.PolicyId)) →
      buildAccessRdfTriples F region access2 = buildAccessRdfTriples F region access ∧
      BuildAwsAccessGraph F region access2 = BuildAwsAccessGraph F region access) := by
  constructor
  · intro hacc
    constructor
    · rintro ⟨g, hg⟩
      exact (BuildAwsAccessGraph_triples hg).2
    · rintro ⟨hg, hp⟩
      refine ⟨⟨accessStatements region access⟩, ?_⟩
      unfold BuildAwsAccessGraph
      rw [buildAccessRdfTriples_of_accepts hacc hg hp]
      rfl
  · intro access2 hu hr hg hp hgroups hpolicies
    have := buildAccessRdfTriples_congr F region access access2 hu hr hg hp hgroups hpolicies
    exact ⟨this, by unfold BuildAwsAccessGraph; rw [this]⟩

theorem access_success_iff_witness :
    (AcceptsAccess acceptAll "eu-west-1" exampleAccess ∧
      ((∃ g, BuildAwsAccessGraph acceptAll "eu-west-1" exampleAccess = (some g, none)) ↔
        NoDanglingGroups exampleAccess ∧ NoDanglingPolicies exampleAccess)) ∧
    buildAccessRdfTriples acceptAll "eu-west-1" strayEntriesAccess =
      buildAccessRdfTriples acceptAll "eu-west-1" exampleAccess :=
  ⟨⟨by simp [AcceptsAccess, AcceptsAccessRecords, AcceptsRecord, AcceptsTriples, acceptAll],
      (access_success_iff acceptAll "eu-west-1" exampleAccess).1
        (by simp [AcceptsAccess, AcceptsAccessRecords, AcceptsRecord, AcceptsTriples,
          acceptAll])⟩,
    ((access_success_iff acceptAll "eu-west-1" exampleAccess).2 strayEntriesAccess
      rfl rfl rfl rfl (by decide) (by decide)).1⟩

/-! ### Length of the infrastructure sequence -/

theorem length_propertyStatements (n : Node) (awsNode : AwsRecord) (fields : StructType) :
    (propertyStatements n awsNode fields).length =
      fields.countP fun field =>
        match FieldByName awsNode field.2 with
        | some sourceField => decide (StringValue sourceField ≠ "")
        | none => false := by
  induction fields with
  | nil => simp [propertyStatements]
  | cons f fields ih =>
    simp only [propertyStatements, List.filterMap_cons, List.countP_cons] at ih ⊢
    cases hf : FieldByName awsNode f.2 with
    | none => simp [propertyOf, hf, ih]
    | some v =>
      by_cases hv : StringValue v = ""
      · simp [propertyOf, hf, hv, ih]
      · simp [propertyOf, hf, hv, ih]

theorem length_nodeStatements (nodeType id : String) (awsNode : AwsRecord) :
    (nodeStatements nodeType id awsNode).length = 1 + nonEmptyAttributes nodeType awsNode := by
  simp only [nodeStatements, List.length_cons, length_propertyStatements, nonEmptyAttributes]
  exact Nat.add_comm _ _

theorem length_parentStatements (kind : String) (ids : List String) (parentId : String)
    (n : Node) :
    (parentStatements (ids.map fun i => ⟨kind, i⟩) parentId n).length =
      if parentId ∈ ids then 1 else 0 := by
  unfold parentStatements
  rw [findNodeById_map]
  by_cases h : parentId ∈ ids <;> simp [h]

theorem length_flatMap_split {α : Type} (l : List α) (f : α → List Triple) (g : α → Nat)
    (c : α → Bool) (h : ∀ x, (f x).length = g x + if c x = true then 1 else 0) :
    (l.flatMap f).length = (l.map g).sum + l.countP c := by
  induction l with
  | nil => simp
  | cons a l ih =>
    simp only [List.flatMap_cons, List.length_append, h a, ih, List.map_cons, List.sum_cons,
      List.countP_cons]
    omega

/-- The length of the sequence of a successful infrastructure pass. -/
theorem length_infraStatements (region : String) (infra : AwsInfra) :
    (infraStatements region infra).length =
      1 +
      ((infra.Vpcs.map fun vpc => 1 + nonEmptyAttributes VPC vpc.record).sum +
        (infra.Subnets.map fun subnet => 1 + nonEmptyAttributes SUBNET subnet.record).sum +
        (infra.Instances.map fun inst => 1 + nonEmptyAttributes INSTANCE inst.record).sum) +
      infra.Vpcs.length + infra.Subnets.countP (hasVpc infra) +
      infra.Instances.countP (hasSubnet infra) := by
  have h1 := length_flatMap_split infra.Vpcs (vpcStatements ⟨REGION, region⟩)
    (fun vpc => 1 + nonEmptyAttributes VPC vpc.record) (fun _ => true) (by
      intro vpc
      simp [vpcStatements, length_nodeStatements])
  have h2 := length_flatMap_split infra.Subnets (subnetStatements (vpcNodesOf infra))
    (fun subnet => 1 + nonEmptyAttributes SUBNET subnet.record) (hasVpc infra) (by
      intro subnet
      have := length_parentStatements VPC (infra.Vpcs.map fun vpc => StringValue vpc.VpcId)
        (StringValue subnet.VpcId) ⟨SUBNET, StringValue subnet.SubnetId⟩
      simp only [List.map_map, Function.comp_def] at this
      simp only [subnetStatements, List.length_append, length_nodeStatements, vpcNodesOf,
        this, hasVpc, decide_eq_true_eq])
  have h3 := length_flatMap_split infra.Instances (instanceStatements (subnetNodesOf infra))
    (fun inst => 1 + nonEmptyAttributes INSTANCE inst.record) (hasSubnet infra) (by
      intro inst
      have := length_parentStatements SUBNET
        (infra.Subnets.map fun subnet => StringValue subnet.SubnetId)
        (StringValue inst.SubnetId) ⟨INSTANCE, StringValue inst.InstanceId⟩
      simp only [List.map_map, Function.comp_def] at this
      simp only [instanceStatements, List.length_append, length_nodeStatements, subnetNodesOf,
        this, hasSubnet, decide_eq_true_eq])
  simp only [infraStatements, List.length_append, List.length_cons, h1, h2, h3,
    List.countP_true]
  omega

/-! ### No duplicate statement in the infrastructure sequence -/

theorem nodup_propertyStatements (n : Node) (awsNode : AwsRecord) (fields : StructType)
    (h : (fields.map Prod.fst).Nodup) : (propertyStatements n awsNode fields).Nodup := by
  induction fields with
  | nil => simp [propertyStatements]
  | cons f fields ih =>
    simp only [List.map_cons, List.nodup_cons] at h
    have hrest : (propertyStatements n awsNode fields).Nodup := ih h.2
    have hsplit : propertyStatements n awsNode (f :: fields) =
        match propertyOf n awsNode f with
        | some x => x :: propertyStatements n awsNode fields
        | none => propertyStatements n awsNode fields := by
      simp only [propertyStatements, List.filterMap_cons]
      cases propertyOf n awsNode f <;> rfl
    rw [hsplit]
    cases hp : propertyOf n awsNode f with
    | none => exact hrest
    | some x =>
      refine List.nodup_cons.2 ⟨?_, hrest⟩
      intro hx
      obtain ⟨f2, hf2, v2, _, _, hx2⟩ := mem_propertyStatements.1 hx
      have hx1 : x.p = .prop f.1 := by
        unfold propertyOf at hp
        split at hp
        · split at hp
          · cases hp; rfl
          · cases hp
        · cases hp
      rw [hx2] at hx1
      simp only [Predicate.prop.injEq] at hx1
      exact h.1 (List.mem_map.2 ⟨f2, hf2, hx1⟩)

theorem nodup_nodeStatements (nodeType id : String) (awsNode : AwsRecord) :
    (nodeStatements nodeType id awsNode).Nodup := by
  unfold nodeStatements
  refine List.nodup_cons.2 ⟨?_, ?_⟩
  · intro h
    obtain ⟨_, _, _, _, _, h2⟩ := mem_propertyStatements.1 h
    cases h2
  · apply nodup_propertyStatements
    cases hd : destType nodeType with
    | none => simp
    | some fields => simpa using destType_names_nodup hd

theorem owner_nodeStatements {nodeType id : String} {awsNode : AwsRecord} {t : Triple}
    (h : t ∈ nodeStatements nodeType id awsNode) : owner t = ⟨nodeType, id⟩ := by
  obtain ⟨hs, hp | ⟨_, _, hp, _⟩⟩ := mem_nodeStatements h
  · simp [owner, hp.1, hs]
  · simp [owner, hp, hs]

theorem owner_parentOf (s o : Node) : owner (parentOf s o) = o := rfl

theorem nodup_block_parentStatements (nodeType id : String) (awsNode : AwsRecord)
    (parents : List Node) (parentId : String) :
    (nodeStatements nodeType id awsNode ++
      parentStatements parents parentId ⟨nodeType, id⟩).Nodup ∧
    ∀ t ∈ nodeStatements nodeType id awsNode ++
      parentStatements parents parentId ⟨nodeType, id⟩, owner t = ⟨nodeType, id⟩ := by
  constructor
  · refine List.nodup_append.2 ⟨nodup_nodeStatements _ _ _, ?_, ?_⟩
    · unfold parentStatements
      cases findNodeById parents parentId <;> simp
    · rw [List.disjoint_left]
      intro t ht ht2
      obtain ⟨_, _, rfl⟩ := mem_parentStatements.1 ht2
      obtain ⟨_, hp | ⟨_, _, hp, _⟩⟩ := mem_nodeStatements ht <;> simp [parentOf] at hp
  · intro t ht
    rcases List.mem_append.1 ht with ht | ht
    · exact owner_nodeStatements ht
    · obtain ⟨_, _, rfl⟩ := mem_parentStatements.1 ht
      rfl

theorem nodup_vpcStatements (regionN : Node) (vpc : Ec2Vpc) :
    (vpcStatements regionN vpc).Nodup ∧
    ∀ t ∈ vpcStatements regionN vpc, owner t = ⟨VPC, StringValue vpc.VpcId⟩ := by
  constructor
  · refine List.nodup_append.2 ⟨nodup_nodeStatements _ _ _, by simp, ?_⟩
    rw [List.disjoint_left]
    intro t ht ht2
    simp only [List.mem_singleton] at ht2
    subst ht2
    obtain ⟨_, hp | ⟨_, _, hp, _⟩⟩ := mem_nodeStatements ht <;> simp [parentOf] at hp
  · intro t ht
    rcases List.mem_append.1 ht with ht | ht
    · exact owner_nodeStatements ht
    · simp only [List.mem_singleton] at ht
      subst ht
      rfl

/-- Blocks of records with pairwise distinct nodes, each without duplicate and about the
node of its record, concatenate without duplicate. -/
theorem nodup_flatMap_of_owner {α : Type} (l : List α) (key : α → Node)
    (f : α → List Triple) (hkey : (l.map key).Nodup)
    (hf : ∀ x ∈ l, (f x).Nodup ∧ ∀ t ∈ f x, owner t = key x) :
    (l.flatMap f).Nodup ∧ ∀ t ∈ l.flatMap f, owner t ∈ l.map key := by
  constructor
  · rw [List.nodup_flatMap]
    refine ⟨fun x hx => (hf x hx).1, ?_⟩
    have hpw : List.Pairwise (fun a b => key a ≠ key b) l := List.pairwise_map.1 hkey
    refine List.Pairwise.imp_of_mem ?_ hpw
    intro a b ha hb hne
    show List.Disjoint (f a) (f b)
    rw [List.disjoint_left]
    intro t hta htb
    exact hne (((hf a ha).2 t hta).symm.trans ((hf b hb).2 t htb))
  · intro t ht
    obtain ⟨x, hx, htx⟩ := List.mem_flatMap.1 ht
    exact List.mem_map.2 ⟨x, hx, ((hf x hx).2 t htx).symm⟩

theorem nodup_nodes_of_ids {α : Type} (l : List α) (kind : String) (key : α → String)
    (h : (l.map key).Nodup) : (l.map fun x => (⟨kind, key x⟩ : Node)).Nodup := by
  have : (l.map fun x => (⟨kind, key x⟩ : Node)) = (l.map key).map fun i => ⟨kind, i⟩ := by
    simp
  rw [this]
  exact List.Nodup.map (fun a b hab => by cases hab; rfl) h

/-- With pairwise distinct ids within each kind, the sequence of a successful
infrastructure pass has no duplicate statement. -/
theorem nodup_infraStatements (region : String) (infra : AwsInfra)
    (hv : (infra.Vpcs.map fun vpc => StringValue vpc.VpcId).Nodup)
    (hs : (infra.Subnets.map fun subnet => StringValue subnet.SubnetId).Nodup)
    (hi : (infra.Instances.map fun inst => StringValue inst.InstanceId).Nodup) :
    (infraStatements region infra).Nodup := by
  obtain ⟨k1, k2, k3, k4, k5, k6⟩ := kinds_distinct
  obtain ⟨a1, a2⟩ := nodup_flatMap_of_owner infra.Vpcs
    (fun vpc => ⟨VPC, StringValue vpc.VpcId⟩) (vpcStatements ⟨REGION, region⟩)
    (nodup_nodes_of_ids _ VPC _ hv) (fun x _ => nodup_vpcStatements _ x)
  obtain ⟨b1, b2⟩ := nodup_flatMap_of_owner infra.Subnets
    (fun subnet => ⟨SUBNET, StringValue subnet.SubnetId⟩)
    (subnetStatements (vpcNodesOf infra)) (nodup_nodes_of_ids _ SUBNET _ hs)
    (fun x _ => nodup_block_parentStatements _ _ _ _ _)
  obtain ⟨c1, c2⟩ := nodup_flatMap_of_owner infra.Instances
    (fun inst => ⟨INSTANCE, StringValue inst.InstanceId⟩)
    (instanceStatements (subnetNodesOf infra)) (nodup_nodes_of_ids _ INSTANCE _ hi)
    (fun x _ => nodup_block_parentStatements _ _ _ _ _)
  have ka : ∀ t ∈ infra.Vpcs.flatMap (vpcStatements ⟨REGION, region⟩),
      (owner t).kind = VPC := by
    intro t ht
    obtain ⟨x, _, hx⟩ := List.mem_map.1 (a2 t ht)
    rw [← hx]
  have kb : ∀ t ∈ infra.Subnets.flatMap (subnetStatements (vpcNodesOf infra)),
      (owner t).kind = SUBNET := by
    intro t ht
    obtain ⟨x, _, hx⟩ := List.mem_map.1 (b2 t ht)
    rw [← hx]
  have kc : ∀ t ∈ infra.Instances.flatMap (instanceStatements (subnetNodesOf infra)),
      (owner t).kind = INSTANCE := by
    intro t ht
    obtain ⟨x, _, hx⟩ := List.mem_map.1 (c2 t ht)
    rw [← hx]
  have kr : (owner (regionStatement region)).kind = REGION := rfl
  unfold infraStatements
  refine List.nodup_append.2 ⟨List.nodup_append.2 ⟨List.nodup_cons.2 ⟨?_, a1⟩, b1, ?_⟩, c1, ?_⟩
  · intro h
    exact k4 (kr.symm.trans (ka _ h))
  · rw [List.disjoint_left]
    intro t ht ht2
    rcases List.mem_cons.1 ht with rfl | ht
    · exact k5 (kr.symm.trans (kb _ ht2))
    · exact k1 ((ka t ht).symm.trans (kb t ht2))
  · rw [List.disjoint_left]
    intro t ht ht2
    rcases List.mem_append.1 ht with ht | ht
    · rcases List.mem_cons.1 ht with rfl | ht
      · exact k6 (kr.symm.trans (kc _ ht2))
      · exact k2 ((ka t ht).symm.trans (kc t ht2))
    · exact k3 ((kb t ht).symm.trans (kc t ht2))

/-- C19: on every successful infrastructure pass over a snapshot whose ids are pairwise
distinct within each kind, no statement occurs twice in the sequence, the region statement
occurs exactly once, and the length of the sequence is one, plus for every vpc, subnet and
instance record one plus the number of its non-empty mapped attributes, plus the number of
vpc records, plus the number of subnets whose `VpcId` is the id of a vpc record, plus the
number of instances whose `SubnetId` is the id of a subnet record. -/
theorem infra_no_duplicates (F : TermFactory) (region : String) (infra : AwsInfra)
    (g : Graph) (h : BuildAwsInfraGraph F region infra = (some g, none))
    (hv : (infra.Vpcs.map fun vpc => StringValue vpc.VpcId).Nodup)
    (hs : (infra.Subnets.map fun subnet => StringValue subnet.SubnetId).Nodup)
    (hi : (infra.Instances.map fun inst => StringValue inst.InstanceId).Nodup) :
    g.triples.Nodup ∧
    g.triples.count ⟨⟨REGION, region⟩, .hasType, .literal ⟨REGION⟩⟩ = 1 ∧
    g.triples.length =
      1 +
      ((infra.Vpcs.map fun vpc => 1 + nonEmptyAttributes VPC vpc.record).sum +
        (infra.Subnets.map fun subnet => 1 + nonEmptyAttributes SUBNET subnet.record).sum +
        (infra.Instances.map fun inst => 1 + nonEmptyAttributes INSTANCE inst.record).sum) +
      infra.Vpcs.length + infra.Subnets.countP (hasVpc infra) +
      infra.Instances.countP (hasSubnet infra) := by
  have hg := buildInfraRdfTriples_ok (BuildAwsInfraGraph_ok h)
  rw [hg]
  have hnd := nodup_infraStatements region infra hv hs hi
  refine ⟨hnd, ?_, length_infraStatements region infra⟩
  apply List.count_eq_one_of_mem hnd
  exact mem_infraStatements.2 (Or.inl rfl)

theorem infra_no_duplicates_witness :
    ∃ g, BuildAwsInfraGraph acceptAll "eu-west-1" exampleInfra = (some g, none) ∧
      g.triples.Nodup ∧
      g.triples.count ⟨⟨REGION, "eu-west-1"⟩, .hasType, .literal ⟨REGION⟩⟩ = 1 ∧
      g.triples.length = 1 + ((1 + 1) + 0 + ((1 + 2) + 0) + ((1 + 3) + 0)) + 1 + 1 + 1 :=
  ⟨_, rfl,
    infra_no_duplicates acceptAll "eu-west-1" exampleInfra _ rfl (by decide) (by decide)
      (by decide)⟩

/-! ### The stale appends do not change which statements are present -/

theorem Reappends.refl : ∀ l : List Triple, Reappends l l := by
  intro l
  induction l using List.reverseRecOn with
  | nil => exact Reappends.nil
  | append_singleton l x ih => exact Reappends.append x ih

theorem Reappends.append_list {base full : List Triple} (h : Reappends base full) :
    ∀ block : List Triple, Reappends (base ++ block) (full ++ block) := by
  intro block
  induction block using List.reverseRecOn with
  | nil => simpa using h
  | append_singleton l x ih =>
    rw [← List.append_assoc, ← List.append_assoc]
    exact Reappends.append x ih

theorem Reappends.mem_iff {base full : List Triple} (h : Reappends base full) (x : Triple) :
    x ∈ full ↔ x ∈ base := by
  induction h with
  | nil => rfl
  | append y _ ih => simp [ih]
  | again y _ hy ih =>
    simp only [List.mem_append, List.mem_singleton]
    constructor
    · rintro (h | rfl)
      · exact ih.1 h
      · exact ih.1 hy
    · intro h
      exact Or.inl (ih.2 h)

theorem addNode_from_nil (F : TermFactory) (nodeType id : String) (awsNode : AwsRecord) :
    ∃ block, ∀ other, addNode F nodeType id awsNode other =
      ((addNode F nodeType id awsNode []).1, other ++ block) := by
  obtain ⟨block, _, h⟩ := addNode_extends F nodeType id awsNode []
  exact ⟨block, h⟩

theorem regionChildrenLoop_noStale (F : TermFactory) (regionN : Node) (kind : String) :
    ∀ (records : List (String × AwsRecord)) (base full : AccessState),
      SameState base full →
      SameOutcome SameState (regionChildrenLoopNoStale F regionN kind records base)
        (regionChildrenLoop F regionN kind records full) := by
  intro records
  induction records with
  | nil =>
    intro base full h
    simpa [regionChildrenLoop, regionChildrenLoopNoStale, SameOutcome] using h
  | cons r rest ih =>
    obtain ⟨id, rec⟩ := r
    intro base full ⟨hR, ht, hte, hi⟩
    obtain ⟨block, hb⟩ := addNode_from_nil F kind id rec
    simp only [regionChildrenLoop, regionChildrenLoopNoStale, hb base.triples,
      hb full.triples]
    cases (addNode F kind id rec []).1 with
    | error err => exact ⟨hR.append_list block, rfl⟩
    | ok n =>
      have h1 : Reappends (base.triples ++ block) (full.triples ++ block ++ [full.t]) :=
        Reappends.again _ (hR.append_list block) (by simp [ht])
      dsimp only
      cases hT : F.New regionN .parentOf (.node n) with
      | error err => exact ⟨h1, rfl⟩
      | ok t =>
        dsimp only
        apply ih
        exact ⟨Reappends.append t h1, by simp, rfl, by simp [hi]⟩

theorem groupUsersLoop_noStale (F : TermFactory) (groupId : String) (n : Node)
    (usersIndex : Index) :
    ∀ (ids : List String) (base full : List Triple) (t : Triple),
      Reappends base full → t ∈ full →
      SameOutcome (fun b f => Reappends b.1 f.1 ∧ f.2 ∈ f.1 ∧ b.2 = f.2)
        (groupUsersLoop F groupId n usersIndex ids (base, t))
        (groupUsersLoop F groupId n usersIndex ids (full, t)) := by
  intro ids
  induction ids with
  | nil =>
    intro base full t hR ht
    exact ⟨hR, ht, rfl⟩
  | cons userId rest ih =>
    intro base full t hR ht
    simp only [groupUsersLoop]
    cases usersIndex.lookup userId with
    | none => exact ⟨hR, rfl⟩
    | some u =>
      dsimp only
      cases F.New n .parentOf (.node u) with
      | error err => exact ⟨hR, rfl⟩
      | ok t2 => exact ih _ _ t2 (Reappends.append t2 hR) (by simp)

theorem policyAttachLoop_noStale (F : TermFactory) (policyId : String) (n : Node)
    (index : Index) :
    ∀ (ids : List String) (base full : List Triple),
      Reappends base full →
      SameOutcome (fun b f => Reappends b f ∧ ∀ x ∈ full, x ∈ f)
        (policyAttachLoop F policyId n index ids base)
        (policyAttachLoop F policyId n index ids full) := by
  intro ids
  induction ids with
  | nil =>
    intro base full hR
    exact ⟨hR, fun _ h => h⟩
  | cons id rest ih =>
    intro base full hR
    simp only [policyAttachLoop]
    cases index.lookup id with
    | none => exact ⟨hR, rfl⟩
    | some m =>
      dsimp only
      cases F.New n .parentOf (.node m) with
      | error err => exact ⟨hR, rfl⟩
      | ok t2 =>
        dsimp only
        have h := ih _ _ (Reappends.append t2 hR)
        revert h
        cases policyAttachLoop F policyId n index rest (base ++ [t2]) with
        | error r0 =>
          cases policyAttachLoop F policyId n index rest (full ++ [t2]) with
          | error r => exact fun h => h
          | ok s => exact fun h => h.elim
        | ok s0 =>
          cases policyAttachLoop F policyId n index rest (full ++ [t2]) with
          | error r => exact fun h => h.elim
          | ok s =>
            intro h
            exact ⟨h.1, fun x hx => h.2 x (by simp [hx])⟩

theorem groupsLoop_noStale (F : TermFactory) (regionN : Node)
    (usersByGroup : String → List String) (usersIndex : Index) :
    ∀ (groups : List IamGroup) (base full : AccessState),
      SameState base full →
      SameOutcome SameState (groupsLoopNoStale F regionN usersByGroup usersIndex groups base)
        (groupsLoop F regionN usersByGroup usersIndex groups full) := by
  intro groups
  induction groups with
  | nil =>
    intro base full h
    simpa [groupsLoop, groupsLoopNoStale, SameOutcome] using h
  | cons group rest ih =>
    intro base full ⟨hR, ht, hte, hi⟩
    obtain ⟨block, hb⟩ := addNode_from_nil F GROUP (StringValue group.GroupId) group.record
    simp only [groupsLoop, groupsLoopNoStale, hb base.triples, hb full.triples]
    cases (addNode F GROUP (StringValue group.GroupId) group.record []).1 with
    | error err => exact ⟨hR.append_list block, rfl⟩
    | ok n =>
      have h1 : Reappends (base.triples ++ block) (full.triples ++ block ++ [full.t]) :=
        Reappends.again _ (hR.append_list block) (by simp [ht])
      dsimp only
      cases hT : F.New regionN .parentOf (.node n) with
      | error err => exact ⟨h1, rfl⟩
      | ok t =>
        have h2 := groupUsersLoop_noStale F (StringValue group.GroupId) n usersIndex
          (usersByGroup (StringValue group.GroupId)) _ _ t (Reappends.append t h1) (by simp)
        revert h2
        dsimp only
        cases groupUsersLoop F (StringValue group.GroupId) n usersIndex
            (usersByGroup (StringValue group.GroupId)) (base.triples ++ block ++ [t], t) with
        | error r0 =>
          cases groupUsersLoop F (StringValue group.GroupId) n usersIndex
              (usersByGroup (StringValue group.GroupId))
              (full.triples ++ block ++ [full.t] ++ [t], t) with
          | error r => exact fun h => h
          | ok s => exact fun h => h.elim
        | ok s0 =>
          cases groupUsersLoop F (StringValue group.GroupId) n usersIndex
              (usersByGroup (StringValue group.GroupId))
              (full.triples ++ block ++ [full.t] ++ [t], t) with
          | error r => exact fun h => h.elim
          | ok s =>
            intro h
            obtain ⟨a, b, c⟩ := h
            apply ih
            exact ⟨a, b, c, by simp [hi]⟩

theorem policiesLoop_noStale (F : TermFactory) (regionN : Node) (access : AwsAccess)
    (usersIndex rolesIndex groupsIndex : Index) :
    ∀ (policies : List IamPolicy) (base full : List Triple) (t : Triple),
      Reappends base full → t ∈ full →
      SameOutcome (fun b f => Reappends b.1 f.1)
        (policiesLoopNoStale F regionN access usersIndex rolesIndex groupsIndex policies
          (base, t))
        (policiesLoop F regionN access usersIndex rolesIndex groupsIndex policies
          (full, t)) := by
  intro policies
  induction policies with
  | nil =>
    intro base full t hR _
    exact hR
  | cons policy rest ih =>
    intro base full t0 hR ht
    obtain ⟨block, hb⟩ := addNode_from_nil F POLICY (StringValue policy.PolicyId) policy.record
    simp only [policiesLoop, policiesLoopNoStale, hb base, hb full]
    cases (addNode F POLICY (StringValue policy.PolicyId) policy.record []).1 with
    | error err => exact ⟨hR.append_list block, rfl⟩
    | ok n =>
      have h1 : Reappends (base ++ block) (full ++ block ++ [t0]) :=
        Reappends.again _ (hR.append_list block) (by simp [ht])
      dsimp only
      cases hT : F.New regionN .parentOf (.node n) with
      | error err => exact ⟨h1, rfl⟩
      | ok t =>
        have hU := policyAttachLoop_noStale F (StringValue policy.PolicyId) n usersIndex
          (access.UsersByLocalPolicies (StringValue policy.PolicyId)) _ _
          (Reappends.append t h1)
        revert hU
        dsimp only
        cases policyAttachLoop F (StringValue policy.PolicyId) n usersIndex
            (access.UsersByLocalPolicies (StringValue policy.PolicyId))
            (base ++ block ++ [t]) with
        | error r0 =>
          cases policyAttachLoop F (StringValue policy.PolicyId) n usersIndex
              (access.UsersByLocalPolicies (StringValue policy.PolicyId))
              (full ++ block ++ [t0] ++ [t]) with
          | error r => exact fun h => h
          | ok s => exact fun h => h.elim
        | ok u0 =>
          cases hfu : policyAttachLoop F (StringValue policy.PolicyId) n usersIndex
              (access.UsersByLocalPolicies (StringValue policy.PolicyId))
              (full ++ block ++ [t0] ++ [t]) with
          | error r => exact fun h => h.elim
          | ok u =>
            intro hRu
            have hG := policyAttachLoop_noStale F (StringValue policy.PolicyId) n groupsIndex
              (access.GroupsByLocalPolicies (StringValue policy.PolicyId)) _ _ hRu.1
            revert hG
            dsimp only
            cases policyAttachLoop F (StringValue policy.PolicyId) n groupsIndex
                (access.GroupsByLocalPolicies (StringValue policy.PolicyId)) u0 with
            | error r0 =>
              cases policyAttachLoop F (StringValue policy.PolicyId) n groupsIndex
                  (access.GroupsByLocalPolicies (StringValue policy.PolicyId)) u with
              | error r => exact fun h => h
              | ok s => exact fun h => h.elim
            | ok g0 =>
              cases policyAttachLoop F (StringValue policy.PolicyId) n groupsIndex
                  (access.GroupsByLocalPolicies (StringValue policy.PolicyId)) u with
              | error r => exact fun h => h.elim
              | ok g =>
                intro hRg
                have hRo := policyAttachLoop_noStale F (StringValue policy.PolicyId) n
                  rolesIndex (access.RolesByLocalPolicies (StringValue policy.PolicyId)) _ _
                  hRg.1
                revert hRo
                dsimp only
                cases policyAttachLoop F (StringValue policy.PolicyId) n rolesIndex
                    (access.RolesByLocalPolicies (StringValue policy.PolicyId)) g0 with
                | error r0 =>
                  cases policyAttachLoop F (StringValue policy.PolicyId) n rolesIndex
                      (access.RolesByLocalPolicies (StringValue policy.PolicyId)) g with
                  | error r => exact fun h => h
                  | ok s => exact fun h => h.elim
                | ok o0 =>
                  cases policyAttachLoop F (StringValue policy.PolicyId) n rolesIndex
                      (access.RolesByLocalPolicies (StringValue policy.PolicyId)) g with
                  | error r => exact fun h => h.elim
                  | ok o =>
                    intro hRr
                    have hmem : t ∈ o :=
                      hRr.2 t (hRg.2 t (hRu.2 t (by simp)))
                    exact ih _ _ t hRr.1 hmem

theorem buildAccessRdfTriples_noStale (F : TermFactory) (region : String)
    (access : AwsAccess) :
    Reappends (buildAccessRdfTriplesNoStale F region access).1
        (buildAccessRdfTriples F region access).1 ∧
      (buildAccessRdfTriplesNoStale F region access).2 =
        (buildAccessRdfTriples F region access).2 := by
  unfold buildAccessRdfTriples buildAccessRdfTriplesNoStale
  cases F.NewNodeFromStrings REGION region with
  | error err => exact ⟨Reappends.nil, rfl⟩
  | ok regionN =>
    dsimp only
    cases F.New regionN .hasType (.literal regionL) with
    | error err => exact ⟨Reappends.nil, rfl⟩
    | ok t =>
      dsimp only
      have hU := regionChildrenLoop_noStale F regionN USER
        (access.Users.map fun user => (StringValue user.UserId, user.record))
        ⟨[t], t, []⟩ ⟨[t], t, []⟩ ⟨Reappends.refl _, by simp, rfl, rfl⟩
      revert hU
      cases regionChildrenLoopNoStale F regionN USER
          (access.Users.map fun user => (StringValue user.UserId, user.record))
          ⟨[t], t, []⟩ <;>
        cases regionChildrenLoop F regionN USER
          (access.Users.map fun user => (StringValue user.UserId, user.record))
          ⟨[t], t, []⟩
      · rename_i a0 a
        obtain ⟨tr0, e0⟩ := a0
        obtain ⟨tr, e⟩ := a
        rintro ⟨hR, rfl⟩
        exact ⟨hR, rfl⟩
      · exact fun h => h.elim
      · exact fun h => h.elim
      next u0 u =>
      obtain ⟨triples0, t0, usersIndex⟩ := u0
      obtain ⟨triples, t1, usersIndex1⟩ := u
      rintro ⟨hR, ht, hte, hi⟩
      dsimp only at hR ht hte hi ⊢
      subst hte hi
      have hRo := regionChildrenLoop_noStale F regionN ROLE
        (access.Roles.map fun role => (StringValue role.RoleId, role.record))
        ⟨triples0, t0, []⟩ ⟨triples, t0, []⟩ ⟨hR, ht, rfl, rfl⟩
      revert hRo
      cases regionChildrenLoopNoStale F regionN ROLE
          (access.Roles.map fun role => (StringValue role.RoleId, role.record))
          ⟨triples0, t0, []⟩ <;>
        cases regionChildrenLoop F regionN ROLE
          (access.Roles.map fun role => (StringValue role.RoleId, role.record))
          ⟨triples, t0, []⟩
      · rename_i a0 a
        obtain ⟨tr0, e0⟩ := a0
        obtain ⟨tr, e⟩ := a
        rintro ⟨hR, rfl⟩
        exact ⟨hR, rfl⟩
      · exact fun h => h.elim
      · exact fun h => h.elim
      next r0 r =>
      obtain ⟨triples0, t0, rolesIndex⟩ := r0
      obtain ⟨triples, t1, rolesIndex1⟩ := r
      rintro ⟨hR, ht, hte, hi⟩
      dsimp only at hR ht hte hi ⊢
      subst hte hi
      have hG := groupsLoop_noStale F regionN access.UsersByGroup usersIndex access.Groups
        ⟨triples0, t0, []⟩ ⟨triples, t0, []⟩ ⟨hR, ht, rfl, rfl⟩
      revert hG
      cases groupsLoopNoStale F regionN access.UsersByGroup usersIndex access.Groups
          ⟨triples0, t0, []⟩ <;>
        cases groupsLoop F regionN access.UsersByGroup usersIndex access.Groups
          ⟨triples, t0, []⟩
      · rename_i a0 a
        obtain ⟨tr0, e0⟩ := a0
        obtain ⟨tr, e⟩ := a
        rintro ⟨hR, rfl⟩
        exact ⟨hR, rfl⟩
      · exact fun h => h.elim
      · exact fun h => h.elim
      next g0 g =>
      obtain ⟨triples0, t0, groupsIndex⟩ := g0
      obtain ⟨triples, t1, groupsIndex1⟩ := g
      rintro ⟨hR, ht, hte, hi⟩
      dsimp only at hR ht hte hi ⊢
      subst hte hi
      have hP := policiesLoop_noStale F regionN access usersIndex rolesIndex groupsIndex
        access.LocalPolicies triples0 triples t0 hR ht
      revert hP
      cases policiesLoopNoStale F regionN access usersIndex rolesIndex groupsIndex
          access.LocalPolicies (triples0, t0) <;>
        cases policiesLoop F regionN access usersIndex rolesIndex groupsIndex
          access.LocalPolicies (triples, t0)
      · rename_i a0 a
        obtain ⟨tr0, e0⟩ := a0
        obtain ⟨tr, e⟩ := a
        rintro ⟨hR, rfl⟩
        exact ⟨hR, rfl⟩
      · exact fun h => h.elim
      · exact fun h => h.elim
      next p0 p =>
      obtain ⟨triples0, t0⟩ := p0
      obtain ⟨triples, t1⟩ := p
      intro hR
      exact ⟨hR, rfl⟩

/-- C17: for every access snapshot, whatever the term constructors accept, the sequence
returned by `buildAccessRdfTriples` and the sequence returned by the same construction
with the four stale appends removed contain the same statements, the error result is the
same, and the first sequence is the second one with additional appends of statements that
already occur earlier in it. -/
theorem stale_reappend_harmless (F : TermFactory) (region : String) (access : AwsAccess) :
    (∀ x, x ∈ (buildAccessRdfTriples F region access).1 ↔
        x ∈ (buildAccessRdfTriplesNoStale F region access).1) ∧
      (buildAccessRdfTriples F region access).2 =
        (buildAccessRdfTriplesNoStale F region access).2 ∧
      Reappends (buildAccessRdfTriplesNoStale F region access).1
        (buildAccessRdfTriples F region access).1 :=
  have h := buildAccessRdfTriples_noStale F region access
  ⟨fun x => h.1.mem_iff x, h.2.symm, h.1⟩

end Rdf
